import Mathlib

/-!
# plato_if: an interface for PLATO terminals

A shallow embedding of the host-word path of `src/plato_if.c`: the three-byte
framer (`host_word`), the host-word ring (`put_host_word`, `get_host_word`,
`host_word_count`), the erase-abort classifier, the echo and flow-control
handling of `do_host_word`, the GSW interceptor with the oscillator set-up
(`frac_gen`, `setdiv`, `generate`), the keyset input (`process_spi_input`), and
`make_word` of `src/platomsg.c`.

Conventions of the embedding:

* machine integers are `Nat` (unsigned) or `Int` (signed); a truncation is
  written where the C code can overflow the type;
* arrays are total functions from the index (`inwds`, `gsw_words`, `voices`);
* the bytes given to `send()` on the host socket are recorded in the
  field `host_tx`, one pair per call;
* diagnostics written to `stderr` are not modelled;
* loops that the C code does not bound take a fuel argument and return
  `none` when the fuel is used up; undefined behaviour is `none` as well,
  except in `frac_gen`, where the count of a 32-bit shift is taken modulo 32,
  as the shift instructions of the machine take it.
-/

namespace PlatoIf

/-! ## Constants -/

def GSW_CRYSTAL : Nat := 3872000
def SND_RATE : Nat := 24000
def SND_CHANNELS : Nat := 2
def FRAMES_PER_PERIOD : Nat := SND_RATE / 60
def NVSHIFT : Nat := 2
def VOICES : Nat := 1 <<< NVSHIFT
def PHASEINCR : Nat := (GSW_CRYSTAL + SND_RATE - 1) / SND_RATE

def HOST_IN_WORDS : Nat := 5000

def CMD_NOP : Nat := 0
def CMD_LDM : Nat := 1
def CMD_LDC : Nat := 2
def CMD_LDE : Nat := 3
def CMD_LDA : Nat := 4
def CMD_SSL : Nat := 5
def CMD_AUD : Nat := 6
def CMD_EXT : Nat := 7

def XOFF1LIMIT : Nat := (2 * HOST_IN_WORDS) / 3
def XOFF2LIMIT : Nat := (3 * HOST_IN_WORDS) / 4
def XON1LIMIT : Nat := HOST_IN_WORDS / 3
def XON2LIMIT : Nat := HOST_IN_WORDS / 4

def KEY_NEXT : Nat := 0o26
def KEY_STOP : Nat := 0o32
def KEY_STOP1 : Nat := 0o72
def KEY_TURNON : Nat := 0o1700
def KEY_DATA : Nat := 0o31
def KEY_XON : Nat := 0o1606
def KEY_XOFF : Nat := 0o1607

/-- The word `04000003` that `do_host_word` and `gsw_handle` return as NOP. -/
def NOP_WORD : Nat := 0o4000003

/-- E2D(e): divisor of an extended frequency code. -/
def E2D (e : Nat) : Nat := e * 4 + 2

/-! ## Conversions between C integer types -/

/-- Value of an unsigned quantity converted to `int16_t`. -/
def to_int16 (n : Nat) : Int :=
  if n % 65536 < 32768 then ((n % 65536 : Nat) : Int) else ((n % 65536 : Nat) : Int) - 65536

/-- Value of an unsigned quantity converted to `int32_t`. -/
def to_int32 (n : Nat) : Int :=
  if n % 4294967296 < 2147483648 then ((n % 4294967296 : Nat) : Int)
  else ((n % 4294967296 : Nat) : Int) - 4294967296

/-- Value of a signed quantity converted to `uint16_t`. -/
def to_uint16 (i : Int) : Nat := (i % 65536).toNat

/-! ## Data model -/

inductive host_states where
  | in_sync
  | out_of_sync
  deriving DecidableEq, Repr

structure wave where
  samples : List Int
  nsamp : Nat

/-- WAVEDEF(sq, 0x7FFF, 0). -/
def sq : wave := { samples := [0x7FFF, 0], nsamp := 2 }

structure amp_t where
  mult : Nat
  shift : Nat
  deriving DecidableEq, Repr

/-- The table `amp[8]`. -/
def amp : List amp_t :=
  [⟨2187, 14⟩, ⟨729, 12⟩, ⟨243, 10⟩, ⟨81, 8⟩, ⟨27, 6⟩, ⟨9, 4⟩, ⟨3, 2⟩, ⟨1, 0⟩]

/-- One voice; `amp` is the index of the entry of the table `amp` the pointer
refers to, `none` for the null pointer of a zero-initialised voice. -/
structure voice where
  div : Nat
  frac : Nat
  shift : Nat
  step : Nat
  phase : Nat
  amp : Option Nat
  wave : wave

structure host_session where
  fd : Int
  spi_fd : Int
  host_state : host_states
  erase_abort_count : Nat
  inwd_in : Nat
  inwd_out : Nat
  inwds : Nat → Nat
  pending_echo : Int
  gsw_words : Nat → Nat
  gsw_cnt : Nat
  current_mode : Nat
  cis : Nat
  vs : Nat
  vix : Nat
  wc : Nat
  inhibit : Nat
  samples : Nat → Int
  voices : Nat → voice
  lde_count : Nat
  key_bits : Nat
  key_bit_count : Nat
  spi_buf : Nat → Nat
  /-- Byte pairs handed to `send()` on `fd`, oldest first. -/
  host_tx : List (Nat × Nat)

/-- The static `sess` (zero-initialised but for `pending_echo = -1`) after
`main` has given every voice the square wave. -/
def sess : host_session :=
  { fd := 0, spi_fd := 0, host_state := .in_sync, erase_abort_count := 0,
    inwd_in := 0, inwd_out := 0, inwds := fun _ => 0, pending_echo := -1,
    gsw_words := fun _ => 0, gsw_cnt := 0, current_mode := 0, cis := 0,
    vs := 0, vix := 0, wc := 0, inhibit := 0, samples := fun _ => 0,
    voices := fun _ =>
      { div := 0, frac := 0, shift := 0, step := 0, phase := 0, amp := none, wave := sq },
    lde_count := 0, key_bits := 0, key_bit_count := 0, spi_buf := fun _ => 0,
    host_tx := [] }

/-! ## Oscillator set-up -/

/-- The search `for (bit = 29; ((1 << bit) & l32) == 0; --bit)` of `frac_gen`
on the `uint32_t` index `bit`, from the index `bit` on: decrementing index 0
wraps to `2^32 - 1`, and the machine takes the count of a 32-bit shift modulo
32. `none` when `fuel` iterations do not leave the loop. -/
def frac_gen_bit : Nat → Nat → Nat → Option Nat
  | 0, _, _ => none
  | fuel + 1, bit, l32 =>
    if ((1 <<< (bit % 32)) % 4294967296) &&& l32 = 0 then
      frac_gen_bit fuel ((bit + 4294967295) % 4294967296) l32
    else some bit

/-- frac_gen: the pair (returned fraction, `*shift`); `none` for the divisor 0
(division by zero) and when the search does not end. The search is given 32
iterations: they try every shift count, so it ends within them unless the
quotient is 0, and then it never ends. The counts of the two shifts after the
search are taken modulo 32 as well, and `*shift` is a `uint16_t`. -/
def frac_gen (div : Nat) : Option (Nat × Nat) :=
  if div = 0 then none
  else
    let l32 := (1 <<< 30) / div
    match frac_gen_bit 32 29 l32 with
    | none => none
    | some bit =>
      if bit > 15 then
        let l32 := (l32 + (1 <<< ((bit - 16) % 32)) % 4294967296) % 4294967296
        let l32 := l32 >>> ((bit - 15) % 32)
        some (l32, ((16 + 29 + 4294967296 - bit) % 4294967296) % 65536)
      else some (l32, 30)

def setamp (sess : host_session) (vix ampix : Nat) : host_session :=
  { sess with voices := Function.update sess.voices vix { sess.voices vix with amp := some ampix } }

/-- setdiv: `v->div` and `v->step` are stored before `frac_gen` is called;
`none` where the C code divides by zero (a wave without samples, or the step 0
handed to `frac_gen`). -/
def setdiv (sess : host_session) (vix div : Nat) : Option host_session :=
  let v := sess.voices vix
  let v := { v with div := div }
  if v.wave.nsamp = 0 then none
  else
    let step := ((div + v.wave.nsamp - 1) / v.wave.nsamp) % 65536
    let v := { v with step := step }
    match frac_gen step with
    | none => none
    | some (frac, shift) =>
      some { sess with
        voices := Function.update sess.voices vix { v with frac := frac, shift := shift } }

/-- The loop `while (v->phase >= v->div) v->phase -= v->div;` of `generate`
on the `uint16_t` phase; `none` when `fuel` iterations do not leave it. -/
def generate_loop : Nat → Nat → Nat → Option Nat
  | 0, _, _ => none
  | fuel + 1, phase, div =>
    if phase ≥ div then generate_loop fuel ((phase - div) % 65536) div else some phase

/-- The index `ix` that `generate` computes from the phase: the 32-bit product
`phase * frac`, shifted right by `shift`, truncated to `uint16_t` and clamped
to `nsamp - 1`; `none` for a shift count of 32 or more. -/
def generate_ix (v : voice) : Option Nat :=
  if v.shift ≥ 32 then none
  else
    let product := (v.phase * v.frac) % 4294967296
    let product := product >>> v.shift
    let ix := product % 65536
    some (if ix ≥ v.wave.nsamp then (v.wave.nsamp + 65535) % 65536 else ix)

/-- generate: the voice after the call and the value returned; `none` when
`fuel` iterations do not leave the loop, for a null `amp` pointer and for an
index outside the amplitude table or the wave. -/
def generate (fuel : Nat) (v : voice) : Option (voice × Nat) :=
  if v.div < PHASEINCR then some (v, 0)
  else
    match generate_loop fuel ((v.phase + PHASEINCR) % 65536) v.div with
    | none => none
    | some phase =>
      let v := { v with phase := phase }
      match generate_ix v with
      | none => none
      | some ix =>
        match v.amp with
        | none => none
        | some a =>
          match amp.get? a, v.wave.samples.get? ix with
          | some am, some sample =>
            some (v, ((((am.mult : Int) * sample) >>> am.shift) % 4294967296).toNat)
          | _, _ => none

/-! ## Host-word ring -/

/-- The value of `diff` in `host_word_count` after the first adjustment. -/
def host_word_diff (sess : host_session) : Int :=
  let diff : Int := (sess.inwd_in : Int) - (sess.inwd_out : Int)
  if diff < 0 then diff + (HOST_IN_WORDS : Int) else diff

/-- host_word_count: the count returned, and the session (whose indices the
recovery branch resets). -/
def host_word_count (sess : host_session) : host_session × Nat :=
  let diff := host_word_diff sess
  if diff < 0 then ({ sess with inwd_in := 0, inwd_out := 0 }, 0)
  else (sess, diff.toNat)

/-- The two bytes `keybuf[0]`, `keybuf[1]` that `send_key` builds. -/
def keybuf (key : Nat) : Nat × Nat := ((key >>> 7) % 256, (0o200 ||| key) % 256)

/-- send_key, for a `send()` that accepts both bytes. -/
def send_key (sess : host_session) (key : Nat) : host_session :=
  { sess with host_tx := sess.host_tx ++ [keybuf key] }

def echo_handle (sess : host_session) (word : Nat) : host_session × Nat :=
  if word &&& (1 <<< 19) ≠ 0 then (sess, word)
  else
    let data := (word >>> 1) &&& 0x7FFF
    if (word >>> 16) &&& 7 ≠ 3 then (sess, word)
    else
      let r := host_word_count sess
      let nwds := to_int16 r.2
      if nwds > (XOFF1LIMIT : Int) then
        ({ r.1 with pending_echo := (((data &&& 0x7F) ||| 0x80 : Nat) : Int) }, 0)
      else
        ({ send_key r.1 ((data &&& 0x7F) ||| 0x80) with pending_echo := -1 }, 0)

def gsw_handle (sess : host_session) (word : Nat) : Option (host_session × Nat) :=
  if word &&& (1 <<< 19) ≠ 0 then some (sess, word)
  else
    let data := (word >>> 1) &&& 0x7FFF
    let log (s : host_session) : host_session × Nat :=
      let cnt := (s.gsw_cnt + 1) % 4294967296
      ({ s with gsw_words := Function.update s.gsw_words s.gsw_cnt word,
                gsw_cnt := if cnt ≥ 32 then 0 else cnt }, NOP_WORD)
    if (word >>> 16) &&& 7 = CMD_AUD then
      if word &&& 0x7800 ≠ 0 then
        let s := { sess with cis := if data &&& 0x8000 ≠ 0 then 1 else 0,
                             vs := (data >>> 12) &&& 3, vix := (data >>> 12) &&& 3 }
        let s := setamp s 0 ((data >>> 9) &&& 7)
        let s := setamp s 1 ((data >>> 6) &&& 7)
        let s := setamp s 2 ((data >>> 3) &&& 7)
        let s := setamp s 3 (data &&& 7)
        some (log s)
      else some (log sess)
    else if (word >>> 16) &&& 7 = CMD_EXT then
      match setdiv sess sess.vix (E2D (data &&& 0xFFFFF)) with
      | none => none
      | some s =>
        let s :=
          if s.cis = 0 then
            if s.vix ≠ 0 then { s with vix := s.vix - 1 } else { s with vix := s.vs }
          else s
        some (log s)
    else some (sess, word)

def is_screen_clear (w : Nat) : Bool :=
  if w &&& (1 <<< 19) ≠ 0 then false
  else if (w >>> 16) &&& 7 ≠ CMD_LDM then false
  else if w &&& 2 ≠ 0 then true
  else false

def is_abortable_command (sess : host_session) (w : Nat) : Bool :=
  if w &&& (1 <<< 19) ≠ 0 then
    let w1 := w >>> 1
    if sess.current_mode = 3 ∧ w1 &&& 0o777700 = 0o777700 then false
    else decide (sess.current_mode ≠ 2)
  else
    let cmd := (w >>> 16) &&& 7
    if cmd = CMD_NOP ∨ cmd = CMD_SSL ∨ cmd = CMD_AUD ∨ cmd = CMD_EXT then true
    else if cmd = CMD_LDM ∨ cmd = CMD_LDC ∨ cmd = CMD_LDE ∨ cmd = CMD_LDA then false
    else true

def track_mode (sess : host_session) (w : Nat) : host_session :=
  if w &&& (1 <<< 19) ≠ 0 then sess
  else if (w >>> 16) &&& 7 ≠ CMD_LDM then sess
  else { sess with current_mode := (w >>> 4) &&& 3 }

/-- The `do ... while` loop of `get_host_word`: the session, `tmp_out` and
`word` when the loop is left, `none` when `fuel` iterations do not leave it. -/
def get_host_word_loop : Nat → host_session → Nat → Option (host_session × Nat × Nat)
  | 0, _, _ => none
  | fuel + 1, sess, tmp_out =>
    let word := sess.inwds tmp_out
    let tmp_out := (tmp_out + 1) % 65536
    let tmp_out := if tmp_out ≥ HOST_IN_WORDS then 0 else tmp_out
    if sess.erase_abort_count = 0 then some (sess, tmp_out, word)
    else
      let sess :=
        if is_screen_clear word then
          { sess with erase_abort_count := sess.erase_abort_count - 1 }
        else sess
      if is_abortable_command sess word = false then some (sess, tmp_out, word)
      else if sess.erase_abort_count ≠ 0 then get_host_word_loop fuel sess tmp_out
      else some (sess, tmp_out, word)

def get_host_word (fuel : Nat) (sess : host_session) : Option (host_session × Nat) :=
  match get_host_word_loop fuel sess sess.inwd_out with
  | none => none
  | some (s, tmp_out, word) => some ({ s with inwd_out := tmp_out }, word)

/-- The two tests `do_host_word` makes on the depth `nwds`: the flush of a
pending echo reply, then the XON test. -/
def do_host_word_flow (s : host_session) (nwds : Int) : host_session :=
  let s :=
    if nwds < (XOFF1LIMIT : Int) ∧ s.pending_echo ≠ -1 then
      { send_key s (to_uint16 s.pending_echo) with pending_echo := -1 }
    else s
  if nwds = (XON1LIMIT : Int) ∨ nwds = (XON2LIMIT : Int) then send_key s KEY_XON else s

/-- The part of `do_host_word` that follows the call of `get_host_word`, for
the session and the word that call left. -/
def do_host_word_rest (s : host_session) (word : Nat) : Option (host_session × Nat) :=
  let s := { s with wc := (s.wc + 1) &&& 0o177 }
  let s := track_mode s word
  let e := echo_handle s word
  let s := e.1
  let word := e.2
  let s := if word = 0 then { s with lde_count := (s.lde_count + 1) % 4294967296 } else s
  let r := host_word_count s
  let s := do_host_word_flow r.1 (to_int16 r.2)
  if word = 0 then some (s, 0)
  else gsw_handle s word

def do_host_word (fuel : Nat) (sess : host_session) : Option (host_session × Nat) :=
  if sess.inwd_in = sess.inwd_out then some (sess, NOP_WORD)
  else
    match get_host_word fuel sess with
    | none => none
    | some (s, word) => do_host_word_rest s word

def abort_all_output (sess : host_session) : host_session :=
  { sess with inwd_out := sess.inwd_in, erase_abort_count := 0 }

/-- The loop of `host_word_parity`; `fuel` bounds the iterations, and `w`
itself is always enough because `w >> 5 < w` for `w > 0`. -/
def host_word_parity_loop : Nat → Nat → Nat → Nat
  | 0, _, parity => parity
  | fuel + 1, w, parity =>
    if w = 0 then parity
    else
      let bits := w &&& 0o37
      host_word_parity_loop fuel (w >>> 5) (parity ^^^ ((0x96696996 >>> bits) &&& 1))

def host_word_parity (w : Nat) : Nat := host_word_parity_loop w w 0

/-- host_word: the session after the call and the `int32_t` returned. -/
def host_word (sess : host_session) (buf0 buf1 buf2 : Nat) : host_session × Int :=
  if buf0 &&& 0o200 ≠ 0 ∨ buf1 &&& 0o300 ≠ 0o200 ∨ buf2 &&& 0o300 ≠ 0o300 then
    ({ sess with host_state := .out_of_sync }, -1)
  else
    let w := (buf0 <<< 12) ||| ((buf1 &&& 0o77) <<< 6) ||| (buf2 &&& 0o77)
    let w := (w <<< 1) % 4294967296
    let w := w ||| ((1 <<< 20) ||| host_word_parity w)
    (sess, to_int32 w)

def put_host_word (sess : host_session) (w : Nat) : host_session :=
  let tmp_ix := sess.inwd_in
  let sess :=
    if is_screen_clear w then
      { sess with erase_abort_count := (sess.erase_abort_count + 1) % 65536 }
    else sess
  let sess := { sess with inwds := Function.update sess.inwds tmp_ix w }
  let tmp_ix := (tmp_ix + 1) % 65536
  let tmp_ix := if tmp_ix = HOST_IN_WORDS then 0 else tmp_ix
  if tmp_ix = sess.inwd_out then sess
  else { sess with inwd_in := tmp_ix }

/-- The enqueue step of `host_poll`: `put_host_word`, then the depth test
that sends XOFF. -/
def host_poll_enqueue (sess : host_session) (w : Nat) : host_session :=
  let sess := put_host_word sess w
  let r := host_word_count sess
  let count := r.2 % 4294967296
  if count = XOFF1LIMIT ∨ count = XOFF2LIMIT then send_key r.1 KEY_XOFF else r.1

/-- The part of `host_poll` that follows the receipt of three bytes: the call
of `host_word` and, for a word that is not negative, the enqueue step. -/
def host_poll_frame (sess : host_session) (buf0 buf1 buf2 : Nat) : host_session :=
  let r := host_word sess buf0 buf1 buf2
  if r.2 < 0 then r.1
  else host_poll_enqueue r.1 (r.2.toNat % 4294967296)

/-! ## Terminal side -/

/-- The array `bytes` that `send_word` hands to the SPI transfer. -/
def send_word_bytes (word : Nat) : List Nat :=
  let word := (word <<< 11) % 4294967296
  [(word >>> 24) % 256, (word >>> 16) % 256, (word >>> 8) % 256, 0, 0, 0]

/-- send_word, for a transfer that succeeds: the six bytes `rx` received land
in `spi_buf`; the second component is what was transmitted. -/
def send_word (sess : host_session) (word : Nat) (rx : Nat → Nat) : host_session × List Nat :=
  ({ sess with spi_buf := rx }, send_word_bytes word)

/-- The scan of `ffs` of the C library from bit position `pos` (counted from 1). -/
def ffs_loop : Nat → Nat → Nat → Nat
  | 0, _, _ => 0
  | fuel + 1, i, pos => if i % 2 = 1 then pos else ffs_loop fuel (i / 2) (pos + 1)

/-- The function `ffs` of the C library on a 32-bit argument: one plus the index
of the least significant set bit, 0 when no bit is set. -/
def ffs (i : Nat) : Nat := ffs_loop 32 i 1

/-- The loop `while (w) { prev = w; w &= w - 1; }` of `fls`; `fuel` bounds
the iterations, and `w` itself is always enough. -/
def fls_loop : Nat → Nat → Nat → Nat
  | 0, _, prev => prev
  | fuel + 1, w, prev => if w = 0 then prev else fls_loop fuel (w &&& (w - 1)) w

def fls (w : Nat) : Nat :=
  if w = 0 then 0 else ffs (fls_loop w w 0)

/-- The body of the loop of `process_spi_input` for one byte of `spi_buf`;
`none` when a shift count is out of range for its type. -/
def process_spi_byte (sess : host_session) (byte : Nat) : Option host_session :=
  if sess.key_bit_count = 0 then
    if byte = 0 then some sess
    else some { sess with key_bit_count := fls byte % 65536, key_bits := byte }
  else
    let sess := { sess with key_bits := ((sess.key_bits <<< 8) % 4294967296) ||| byte }
    let sess := { sess with key_bit_count := (sess.key_bit_count + 8) % 65536 }
    if sess.key_bit_count ≥ 12 then
      let bits_remaining := sess.key_bit_count - 12
      if bits_remaining ≥ 31 then none
      else
        let key_data := (sess.key_bits >>> bits_remaining) % 65536
        let key_data := (key_data >>> 1) &&& 0x3ff
        let sess := send_key sess key_data
        let sess :=
          if key_data = KEY_STOP ∨ key_data = KEY_STOP1 then abort_all_output sess else sess
        let sess := { sess with key_bits := sess.key_bits &&& ((1 <<< bits_remaining) - 1) }
        let sess := { sess with key_bit_count := sess.key_bit_count - 12 }
        if sess.key_bits = 0 then some { sess with key_bit_count := 0 }
        else some { sess with key_bit_count := fls sess.key_bits % 65536 }
    else some sess

/-- The loop of `process_spi_input` over a list of bytes. -/
def process_spi_bytes : host_session → List Nat → Option host_session
  | sess, [] => some sess
  | sess, byte :: rest =>
    match process_spi_byte sess byte with
    | none => none
    | some s => process_spi_bytes s rest

def process_spi_input (sess : host_session) : Option host_session :=
  process_spi_bytes sess ((List.range 6).map sess.spi_buf)

/-! ## Word construction of `src/platomsg.c` -/

/-- make_word of `src/platomsg.c`, whose `host_word_parity` is the same
function as the one of `src/plato_if.c`. -/
def make_word (word : Nat) : Nat :=
  let word := word ||| host_word_parity word
  word ||| (1 <<< 20)

/-! ## Measures used in the statements -/

/-- XOR of the `n` low-order bits of `w`. -/
def bits_xor : Nat → Nat → Nat
  | 0, _ => 0
  | n + 1, w => (w % 2) ^^^ bits_xor n (w / 2)

/-- Number of set bits among the `n` low-order bits of `w`. -/
def bits_count : Nat → Nat → Nat
  | 0, _ => 0
  | n + 1, w => w % 2 + bits_count n (w / 2)

/-- Both ring indices are inside the array `inwds`. -/
def ring_ok (s : host_session) : Prop :=
  s.inwd_in < HOST_IN_WORDS ∧ s.inwd_out < HOST_IN_WORDS

/-- The contents of `n` consecutive slots of the ring, from slot `i` on,
wrapping at `HOST_IN_WORDS`. -/
def ring_words (inwds : Nat → Nat) : Nat → Nat → List Nat
  | _, 0 => []
  | i, n + 1 => inwds i :: ring_words inwds ((i + 1) % HOST_IN_WORDS) n

/-- The words queued in the ring, oldest first: the `host_word_count` slots
from `inwd_out` on. -/
def queued (s : host_session) : List Nat :=
  ring_words s.inwds s.inwd_out (host_word_count s).2

/-- The ring as the queue operations see it: slots, indices and the
erase-abort counter. -/
def ring_view (s : host_session) : (Nat → Nat) × Nat × Nat × Nat :=
  (s.inwds, s.inwd_in, s.inwd_out, s.erase_abort_count)

/-- The reply key of a Load-Echo word: `((word >> 1) & 0x7F) | 0x80`. -/
def echo_key (word : Nat) : Nat := ((word >>> 1) &&& 0x7F) ||| 0x80

/-- The accumulator of `process_spi_input` after `byte` was shifted in. -/
def spi_shifted (s : host_session) (byte : Nat) : Nat :=
  ((s.key_bits <<< 8) % 4294967296) ||| byte

/-- The key that the loop body of `process_spi_input` sends for `byte`, if it
sends one: the accumulator is not empty and holds `n >= 12` bits with the byte. -/
def spi_key (s : host_session) (byte : Nat) : Option Nat :=
  if s.key_bit_count ≠ 0 ∧ 12 ≤ s.key_bit_count + 8 then
    some (((spi_shifted s byte >>> (s.key_bit_count + 8 - 12)) >>> 1) &&& 0x3FF)
  else none

/-- The keyset accumulator: `key_bits` and `key_bit_count`. -/
def keyset_view (s : host_session) : Nat × Nat := (s.key_bits, s.key_bit_count)

/-- The accumulator invariant of `process_spi_input`: at most 11 bits are
held, `key_bits` fits them, and `key_bit_count` is the position of the highest
set bit of `key_bits` (0 for an empty accumulator). -/
def keyset_ok (s : host_session) : Prop :=
  s.key_bit_count ≤ 11 ∧ s.key_bits < 2 ^ s.key_bit_count ∧
    (s.key_bit_count ≠ 0 → 2 ^ (s.key_bit_count - 1) ≤ s.key_bits)

/-- Runs `n` successive calls of `generate` on one voice: the voice they
leave, `none` when one of them does not return. -/
def generate_n (fuel : Nat) : Nat → voice → Option voice
  | 0, v => some v
  | n + 1, v =>
    match generate fuel v with
    | none => none
    | some (v', _) => generate_n fuel n v'

/-- A command word (bit 19 clear) with opcode `cmd` in bits 18..16. -/
def is_command (w cmd : Nat) : Prop :=
  w &&& (1 <<< 19) = 0 ∧ (w >>> 16) &&& 7 = cmd

instance (w cmd : Nat) : Decidable (is_command w cmd) := by
  unfold is_command; infer_instance

instance (s : host_session) : Decidable (ring_ok s) := by
  unfold ring_ok; infer_instance

/-- The session after `put_host_word` was called for each word of a list. -/
def put_host_words (s : host_session) (ws : List Nat) : host_session :=
  ws.foldl put_host_word s

/-- Runs `n` successive calls of `do_host_word`: the final session and the words
returned, first call first. -/
def do_host_words (fuel : Nat) : Nat → host_session → Option (host_session × List Nat)
  | 0, s => some (s, [])
  | n + 1, s =>
    match do_host_word fuel s with
    | none => none
    | some (s1, w) =>
      match do_host_words fuel n s1 with
      | none => none
      | some (s2, ws) => some (s2, w :: ws)

/-- Sessions reachable from the initial session through `put_host_word`,
`do_host_word` calls that return, and `abort_all_output`. -/
inductive reachable : host_session → Prop
  | init : reachable sess
  | put (s : host_session) (w : Nat) : reachable s → reachable (put_host_word s w)
  | dequeue (fuel : Nat) (s s' : host_session) (w : Nat) :
      reachable s → do_host_word fuel s = some (s', w) → reachable s'
  | stop (s : host_session) : reachable s → reachable (abort_all_output s)

/-! ## Parity -/

theorem bits_xor_zero_right (n : Nat) : bits_xor n 0 = 0 := by
  induction n with
  | zero => rfl
  | succ n ih => simp [bits_xor, ih]

theorem bits_xor_add (n m w : Nat) :
    bits_xor (n + m) w = bits_xor n w ^^^ bits_xor m (w / 2 ^ n) := by
  induction n generalizing w with
  | zero => simp [bits_xor]
  | succ n ih =>
    have h : n + 1 + m = (n + m) + 1 := by omega
    rw [h]
    simp only [bits_xor]
    rw [ih, Nat.xor_assoc, Nat.div_div_eq_div_mul, pow_succ, Nat.mul_comm]

theorem bits_xor_mod (n w : Nat) : bits_xor n (w % 2 ^ n) = bits_xor n w := by
  induction n generalizing w with
  | zero => rfl
  | succ n ih =>
    simp only [bits_xor]
    have h1 : w % 2 ^ (n + 1) % 2 = w % 2 := by
      rw [pow_succ]; exact Nat.mod_mul_left_mod w (2 ^ n) 2
    have h2 : w % 2 ^ (n + 1) / 2 = (w / 2) % 2 ^ n := by
      rw [pow_succ, Nat.mul_comm, Nat.mod_mul_right_div_self]
    rw [h1, h2, ih]

theorem bits_xor_of_lt (n m w : Nat) (h : w < 2 ^ n) : bits_xor (n + m) w = bits_xor n w := by
  rw [bits_xor_add, Nat.div_eq_of_lt h, bits_xor_zero_right, Nat.xor_zero]

theorem p32_table : ∀ i, i < 32 → (0x96696996 >>> i) &&& 1 = bits_xor 5 i := by decide

theorem host_word_parity_loop_eq (k : Nat) :
    ∀ fuel w parity, w < 32 ^ k → w ≤ fuel →
      host_word_parity_loop fuel w parity = parity ^^^ bits_xor (5 * k) w := by
  induction k with
  | zero =>
    intro fuel w parity hw _
    have hw0 : w = 0 := by simpa using hw
    subst hw0
    cases fuel <;> simp [host_word_parity_loop, bits_xor]
  | succ k ih =>
    intro fuel w parity hw hf
    by_cases hw0 : w = 0
    · subst hw0
      cases fuel <;> simp [host_word_parity_loop, bits_xor_zero_right]
    · obtain ⟨f, rfl⟩ : ∃ f, fuel = f + 1 := ⟨fuel - 1, by omega⟩
      have hdiv : w >>> 5 = w / 32 := by rw [Nat.shiftRight_eq_div_pow]
      have hand : w &&& 0o37 = w % 32 := Nat.and_pow_two_sub_one_eq_mod w 5
      have h1 : w / 32 < 32 ^ k := by
        rw [pow_succ] at hw
        exact Nat.div_lt_of_lt_mul (by rw [Nat.mul_comm]; exact hw)
      have h2 : w / 32 ≤ f := by omega
      have h5 : 5 * (k + 1) = 5 + 5 * k := by omega
      simp only [host_word_parity_loop, if_neg hw0]
      rw [hdiv, hand, ih f (w / 32) _ h1 h2, p32_table _ (Nat.mod_lt _ (by decide)), h5,
        bits_xor_add, Nat.xor_assoc]
      have : bits_xor 5 (w % 32) = bits_xor 5 w := bits_xor_mod 5 w
      rw [this]
      rfl

theorem host_word_parity_eq (w : Nat) (h : w < 2 ^ 35) :
    host_word_parity w = bits_xor 35 w := by
  unfold host_word_parity
  rw [host_word_parity_loop_eq 7 w w 0 (by simpa using h) (le_refl _)]
  simp

theorem bits_xor_lt_two (n w : Nat) : bits_xor n w < 2 := by
  induction n generalizing w with
  | zero => simp [bits_xor]
  | succ n ih =>
    simp only [bits_xor]
    exact Nat.xor_lt_two_pow (n := 1) (Nat.mod_lt _ (by decide)) (ih _)

theorem host_word_parity_of_lt (n w : Nat) (hn : n ≤ 35) (h : w < 2 ^ n) :
    host_word_parity w = bits_xor n w := by
  have h35 : w < 2 ^ 35 := lt_of_lt_of_le h (Nat.pow_le_pow_right (by decide) hn)
  obtain ⟨m, hm⟩ : ∃ m, 35 = n + m := ⟨35 - n, by omega⟩
  rw [host_word_parity_eq w h35, hm, bits_xor_of_lt n m w h]

theorem frame_or (a m l : Nat) (hm : m < 64) (hl : l < 64) :
    (a <<< 12) ||| (m <<< 6) ||| l = a * 4096 + m * 64 + l := by
  have h1 : (a <<< 12) ||| (m <<< 6) = 2 ^ 12 * a + m <<< 6 := by
    rw [Nat.shiftLeft_eq a 12, Nat.mul_comm a (2 ^ 12)]
    exact (Nat.mul_add_lt_is_or (by rw [Nat.shiftLeft_eq]; omega) a).symm
  have h2 : 2 ^ 12 * a + m <<< 6 = 2 ^ 6 * (64 * a + m) := by
    rw [Nat.shiftLeft_eq]; omega
  rw [h1, h2, ← Nat.mul_add_lt_is_or (by omega : l < 2 ^ 6)]
  omega

theorem word_or (q par : Nat) (hq : q < 2 ^ 19) (hp : par < 2) :
    (1 <<< 20) ||| (q <<< 1) ||| par = 2 ^ 20 + 2 * q + par := by
  have h1 : (1 <<< 20) ||| (q <<< 1) = 2 ^ 20 * 1 + q <<< 1 := by
    rw [Nat.shiftLeft_eq 1 20, Nat.mul_comm 1 (2 ^ 20)]
    exact (Nat.mul_add_lt_is_or (by rw [Nat.shiftLeft_eq]; omega) 1).symm
  have h2 : 2 ^ 20 * 1 + q <<< 1 = 2 ^ 1 * (2 ^ 19 + q) := by
    rw [Nat.shiftLeft_eq]; omega
  rw [h1, h2, ← Nat.mul_add_lt_is_or (by omega : par < 2 ^ 1)]
  omega

theorem and_0200_of_lt : ∀ b, b < 128 → b &&& 0o200 = 0 := by decide
theorem frame_b1 : ∀ m, m < 64 → (0x80 ||| m) &&& 0o300 = 0o200 ∧ (0x80 ||| m) &&& 0o77 = m := by
  decide
theorem frame_b2 : ∀ m, m < 64 → (0xC0 ||| m) &&& 0o300 = 0o300 ∧ (0xC0 ||| m) &&& 0o77 = m := by
  decide

theorem to_int32_of_lt (n : Nat) (h : n < 2147483648) : to_int32 n = (n : Int) := by
  unfold to_int32
  have : n % 4294967296 = n := Nat.mod_eq_of_lt (by omega)
  rw [this, if_pos h]

/-- What `host_word` returns for a frame that passes its three tests. -/
theorem host_word_accept (s : host_session) (b0 b1 b2 : Nat) (h0 : b0 < 0x80)
    (h1 : b1 &&& 0o300 = 0o200) (h2 : b2 &&& 0o300 = 0o300) :
    host_word s b0 b1 b2 =
      (s, ((2 ^ 20 + 2 * (b0 * 4096 + (b1 % 64) * 64 + b2 % 64)
            + bits_xor 19 (b0 * 4096 + (b1 % 64) * 64 + b2 % 64) : Nat) : Int)) := by
  have e1 : b1 &&& 0o77 = b1 % 64 := Nat.and_pow_two_sub_one_eq_mod b1 6
  have e2 : b2 &&& 0o77 = b2 % 64 := Nat.and_pow_two_sub_one_eq_mod b2 6
  have hm1 : b1 % 64 < 64 := Nat.mod_lt _ (by decide)
  have hm2 : b2 % 64 < 64 := Nat.mod_lt _ (by decide)
  have hq : b0 * 4096 + (b1 % 64) * 64 + b2 % 64 < 2 ^ 19 := by omega
  unfold host_word
  rw [if_neg (by simp [and_0200_of_lt b0 h0, h1, h2])]
  simp only [e1, e2, frame_or b0 _ _ hm1 hm2]
  generalize b0 * 4096 + (b1 % 64) * 64 + b2 % 64 = q at hq ⊢
  have hs : (q <<< 1) % 4294967296 = q <<< 1 := by
    rw [Nat.shiftLeft_eq]; omega
  have hpar : host_word_parity (q <<< 1) = bits_xor 19 q := by
    rw [host_word_parity_of_lt 20 (q <<< 1) (by decide) (by rw [Nat.shiftLeft_eq]; omega)]
    simp only [bits_xor, Nat.shiftLeft_eq]
    have a1 : q * 2 ^ 1 % 2 = 0 := by omega
    have a2 : q * 2 ^ 1 / 2 = q := by omega
    rw [a1, a2, Nat.zero_xor]
  have hb := bits_xor_lt_two 19 q
  rw [hs, hpar]
  have : q <<< 1 ||| (1 <<< 20 ||| bits_xor 19 q) = (1 <<< 20) ||| (q <<< 1) ||| bits_xor 19 q := by
    rw [← Nat.lor_assoc, Nat.lor_comm (q <<< 1)]
  rw [this, word_or q _ hq hb, to_int32_of_lt _ (by omega)]

/-! ## The framer -/

/-- C1: for every 19-bit payload `p` the frame `p >> 12`, `0x80 | ((p >> 6) & 0x3F)`,
`0xC0 | (p & 0x3F)` is accepted by `host_word`, which returns
`(1 << 20) | (p << 1) | parity(p)`: the start bit alone above bit 19, the payload
in bits 19..1 and the parity (the XOR of the 19 payload bits) in bit 0; and for
every frame with `b0 < 0x80`, `(b1 & 0xC0) = 0x80`, `(b2 & 0xC0) = 0xC0` the payload
decoded from the returned word is `(b0 << 12) | ((b1 & 0x3F) << 6) | (b2 & 0x3F)`. -/
theorem host_word_decodes_frame (s : host_session) (p : Nat) (hp : p < 2 ^ 19)
    (b0 b1 b2 : Nat) (h0 : b0 < 0x80) (h1 : b1 &&& 0xC0 = 0x80) (h2 : b2 &&& 0xC0 = 0xC0) :
    (host_word s (p >>> 12) (0x80 ||| ((p >>> 6) &&& 0x3F)) (0xC0 ||| (p &&& 0x3F))
        = (s, (((1 <<< 20) ||| (p <<< 1) ||| host_word_parity p : Nat) : Int))
      ∧ host_word_parity p = bits_xor 19 p
      ∧ ((1 <<< 20) ||| (p <<< 1) ||| host_word_parity p) >>> 20 = 1
      ∧ (((1 <<< 20) ||| (p <<< 1) ||| host_word_parity p) >>> 1) &&& 0x7FFFF = p
      ∧ ((1 <<< 20) ||| (p <<< 1) ||| host_word_parity p) &&& 1 = host_word_parity p)
    ∧ (∃ w : Nat, host_word s b0 b1 b2 = (s, (w : Int)) ∧
        (w >>> 1) &&& 0x7FFFF = (b0 <<< 12) ||| ((b1 &&& 0x3F) <<< 6) ||| (b2 &&& 0x3F)) := by
  have hpar : host_word_parity p = bits_xor 19 p :=
    host_word_parity_of_lt 19 p (by decide) hp
  have hb := bits_xor_lt_two 19 p
  have hmask : ∀ x : Nat, x &&& 0x7FFFF = x % 2 ^ 19 := fun x =>
    Nat.and_pow_two_sub_one_eq_mod x 19
  have hone : ∀ x : Nat, x &&& 1 = x % 2 ^ 1 := fun x => Nat.and_pow_two_sub_one_eq_mod x 1
  have h63 : ∀ x : Nat, x &&& 0x3F = x % 2 ^ 6 := fun x => Nat.and_pow_two_sub_one_eq_mod x 6
  refine ⟨⟨?_, hpar, ?_, ?_, ?_⟩, ?_⟩
  · have hm : (p >>> 6) &&& 0x3F < 64 := by rw [h63]; exact Nat.mod_lt _ (by decide)
    have hl : p &&& 0x3F < 64 := by rw [h63]; exact Nat.mod_lt _ (by decide)
    have hb0 : p >>> 12 < 0x80 := by rw [Nat.shiftRight_eq_div_pow]; omega
    rw [host_word_accept s _ _ _ hb0 (frame_b1 _ hm).1 (frame_b2 _ hl).1]
    have e1 : (0x80 ||| ((p >>> 6) &&& 0x3F)) % 64 = (p >>> 6) &&& 0x3F := by
      have := (frame_b1 _ hm).2
      rwa [show (0o77 : Nat) = 2 ^ 6 - 1 from rfl, Nat.and_pow_two_sub_one_eq_mod] at this
    have e2 : (0xC0 ||| (p &&& 0x3F)) % 64 = p &&& 0x3F := by
      have := (frame_b2 _ hl).2
      rwa [show (0o77 : Nat) = 2 ^ 6 - 1 from rfl, Nat.and_pow_two_sub_one_eq_mod] at this
    have hq : (p >>> 12) * 4096 + ((p >>> 6) &&& 0x3F) * 64 + (p &&& 0x3F) = p := by
      rw [h63, h63, Nat.shiftRight_eq_div_pow, Nat.shiftRight_eq_div_pow]; omega
    rw [e1, e2, hq, hpar, word_or p _ hp hb]
  · rw [hpar, word_or p _ hp hb, Nat.shiftRight_eq_div_pow]; omega
  · rw [hpar, word_or p _ hp hb, hmask, Nat.shiftRight_eq_div_pow]; omega
  · rw [hpar, word_or p _ hp hb, hone]; omega
  · have e1 : b1 &&& 0x3F = b1 % 64 := h63 b1
    have e2 : b2 &&& 0x3F = b2 % 64 := h63 b2
    have hm1 : b1 % 64 < 64 := Nat.mod_lt _ (by decide)
    have hm2 : b2 % 64 < 64 := Nat.mod_lt _ (by decide)
    refine ⟨_, host_word_accept s b0 b1 b2 h0 h1 h2, ?_⟩
    have hx := bits_xor_lt_two 19 (b0 * 4096 + (b1 % 64) * 64 + b2 % 64)
    rw [e1, e2, frame_or b0 _ _ hm1 hm2, hmask, Nat.shiftRight_eq_div_pow]
    omega

/-- C1, at the frame `0x10 0x92 0xD5`, which decodes to the payload `0x10495`. -/
theorem host_word_decodes_frame_witness :
    (0x10495 < 2 ^ 19 ∧ 0x10 < 0x80 ∧ 0x92 &&& 0xC0 = 0x80 ∧ 0xD5 &&& 0xC0 = 0xC0) ∧
    ∃ w : Nat, host_word sess 0x10 0x92 0xD5 = (sess, (w : Int)) ∧
      (w >>> 1) &&& 0x7FFFF = 0x10495 :=
  ⟨by decide,
   (host_word_decodes_frame sess 0x10495 (by decide) 0x10 0x92 0xD5
      (by decide) (by decide) (by decide)).2⟩

/-! ## The ring -/

theorem host_word_diff_of_ok (s : host_session) (h : ring_ok s) :
    host_word_diff s = (((s.inwd_in + HOST_IN_WORDS - s.inwd_out) % HOST_IN_WORDS : Nat) : Int) := by
  obtain ⟨h1, h2⟩ := h
  unfold HOST_IN_WORDS at h1 h2
  unfold host_word_diff HOST_IN_WORDS
  simp only
  split_ifs <;> omega

theorem host_word_count_of_ok (s : host_session) (h : ring_ok s) :
    host_word_count s = (s, (s.inwd_in + HOST_IN_WORDS - s.inwd_out) % HOST_IN_WORDS) := by
  unfold host_word_count
  simp only [host_word_diff_of_ok s h]
  rw [if_neg (by omega), Int.toNat_ofNat]

theorem host_word_diff_nonneg (s : host_session) (h : ring_ok s) : 0 ≤ host_word_diff s := by
  obtain ⟨h1, h2⟩ := h
  unfold HOST_IN_WORDS at h1 h2
  unfold host_word_diff HOST_IN_WORDS
  simp only
  split_ifs <;> omega

theorem count_lt (s : host_session) (h : ring_ok s) : (host_word_count s).2 < HOST_IN_WORDS := by
  rw [host_word_count_of_ok s h]
  exact Nat.mod_lt _ (by decide)

theorem ring_words_length (f : Nat → Nat) (n i : Nat) : (ring_words f i n).length = n := by
  induction n generalizing i with
  | zero => rfl
  | succ n ih => simp [ring_words, ih]

/-- Storing at the slot that follows `n` slots read appends the word. -/
theorem ring_words_update (f : Nat → Nat) (w j : Nat) :
    ∀ (n i : Nat), i < HOST_IN_WORDS → n < HOST_IN_WORDS → j = (i + n) % HOST_IN_WORDS →
      ring_words (Function.update f j w) i (n + 1) = ring_words f i n ++ [w] := by
  intro n
  induction n with
  | zero =>
    intro i hi _ hj
    have : j = i := by unfold HOST_IN_WORDS at *; omega
    subst this
    simp [ring_words]
  | succ n ih =>
    intro i hi hn hj
    have hne : i ≠ j := by unfold HOST_IN_WORDS at *; omega
    have hi' : (i + 1) % HOST_IN_WORDS < HOST_IN_WORDS := Nat.mod_lt _ (by decide)
    have hj' : j = ((i + 1) % HOST_IN_WORDS + n) % HOST_IN_WORDS := by
      unfold HOST_IN_WORDS at *; omega
    have := ih ((i + 1) % HOST_IN_WORDS) hi' (by omega) hj'
    rw [ring_words, this]
    simp [ring_words, Function.update_noteq hne]

/-- A store at the slot that follows the `n` slots read leaves them unchanged. -/
theorem ring_words_update_out (f : Nat → Nat) (w j : Nat) :
    ∀ (n i : Nat), i < HOST_IN_WORDS → n < HOST_IN_WORDS → j = (i + n) % HOST_IN_WORDS →
      ring_words (Function.update f j w) i n = ring_words f i n := by
  intro n
  induction n with
  | zero => intros; rfl
  | succ n ih =>
    intro i hi hn hj
    have hne : i ≠ j := by unfold HOST_IN_WORDS at *; omega
    have hi' : (i + 1) % HOST_IN_WORDS < HOST_IN_WORDS := Nat.mod_lt _ (by decide)
    have hj' : j = ((i + 1) % HOST_IN_WORDS + n) % HOST_IN_WORDS := by
      unfold HOST_IN_WORDS at *; omega
    have := ih ((i + 1) % HOST_IN_WORDS) hi' (by omega) hj'
    simp [ring_words, Function.update_noteq hne, this]

theorem queued_eq (s : host_session) (h : ring_ok s) :
    queued s = ring_words s.inwds s.inwd_out
      ((s.inwd_in + HOST_IN_WORDS - s.inwd_out) % HOST_IN_WORDS) := by
  unfold queued
  rw [host_word_count_of_ok s h]

theorem queued_length (s : host_session) : (queued s).length = (host_word_count s).2 := by
  unfold queued
  exact ring_words_length _ _ _

theorem put_host_word_inwd_out (s : host_session) (w : Nat) :
    (put_host_word s w).inwd_out = s.inwd_out := by
  unfold put_host_word
  simp only
  split_ifs <;> rfl

theorem put_host_word_inwds (s : host_session) (w : Nat) :
    (put_host_word s w).inwds = Function.update s.inwds s.inwd_in w := by
  unfold put_host_word
  simp only
  split_ifs <;> rfl

theorem put_host_word_erase_abort_count (s : host_session) (w : Nat) :
    (put_host_word s w).erase_abort_count =
      if is_screen_clear w then (s.erase_abort_count + 1) % 65536 else s.erase_abort_count := by
  unfold put_host_word
  simp only
  split_ifs <;> rfl

theorem put_host_word_inwd_in (s : host_session) (w : Nat) (h : ring_ok s) :
    (put_host_word s w).inwd_in =
      if (s.inwd_in + 1) % HOST_IN_WORDS = s.inwd_out then s.inwd_in
      else (s.inwd_in + 1) % HOST_IN_WORDS := by
  obtain ⟨h1, h2⟩ := h
  unfold HOST_IN_WORDS at h1 h2
  unfold put_host_word HOST_IN_WORDS
  simp only
  have e : (s.inwd_in + 1) % 65536 = s.inwd_in + 1 := by omega
  rw [e]
  by_cases hc : is_screen_clear w = true <;> simp only [hc, if_true, if_false] <;>
    split_ifs <;> simp_all <;> omega

/-- Fields that `put_host_word` does not write. -/
theorem put_host_word_frame (s : host_session) (w : Nat) :
    (put_host_word s w).pending_echo = s.pending_echo ∧
    (put_host_word s w).host_tx = s.host_tx ∧
    (put_host_word s w).current_mode = s.current_mode := by
  unfold put_host_word
  simp only
  split_ifs <;> exact ⟨rfl, rfl, rfl⟩

theorem put_host_word_room (s : host_session) (w : Nat) (h : ring_ok s)
    (hc : (host_word_count s).2 < HOST_IN_WORDS - 1) :
    ring_ok (put_host_word s w) ∧ queued (put_host_word s w) = queued s ++ [w] ∧
      (host_word_count (put_host_word s w)).2 = (host_word_count s).2 + 1 := by
  have hin := put_host_word_inwd_in s w h
  have hout := put_host_word_inwd_out s w
  have hw := put_host_word_inwds s w
  rw [host_word_count_of_ok s h] at hc
  obtain ⟨h1, h2⟩ := h
  have hne : ¬ (s.inwd_in + 1) % HOST_IN_WORDS = s.inwd_out := by
    unfold HOST_IN_WORDS at *; simp only at hc; omega
  rw [if_neg hne] at hin
  have hok : ring_ok (put_host_word s w) := by
    refine ⟨?_, ?_⟩
    · rw [hin]; exact Nat.mod_lt _ (by decide)
    · rw [hout]; exact h2
  have hcnt : ((put_host_word s w).inwd_in + HOST_IN_WORDS - (put_host_word s w).inwd_out)
      % HOST_IN_WORDS = (s.inwd_in + HOST_IN_WORDS - s.inwd_out) % HOST_IN_WORDS + 1 := by
    rw [hin, hout]; unfold HOST_IN_WORDS at *; simp only at hc; omega
  refine ⟨hok, ?_, ?_⟩
  · rw [queued_eq _ hok, queued_eq s ⟨h1, h2⟩, hcnt, hw, hout]
    exact ring_words_update _ _ _ _ _ h2 (Nat.mod_lt _ (by decide))
      (by unfold HOST_IN_WORDS at *; omega)
  · rw [host_word_count_of_ok _ hok, host_word_count_of_ok s ⟨h1, h2⟩]
    exact hcnt

theorem put_host_word_full (s : host_session) (w : Nat) (h : ring_ok s)
    (hc : (host_word_count s).2 = HOST_IN_WORDS - 1) :
    ring_ok (put_host_word s w) ∧ queued (put_host_word s w) = queued s ∧
      (put_host_word s w).inwd_in = s.inwd_in := by
  have hin := put_host_word_inwd_in s w h
  have hout := put_host_word_inwd_out s w
  have hw := put_host_word_inwds s w
  rw [host_word_count_of_ok s h] at hc
  obtain ⟨h1, h2⟩ := h
  have he : (s.inwd_in + 1) % HOST_IN_WORDS = s.inwd_out := by
    unfold HOST_IN_WORDS at *; simp only at hc; omega
  rw [if_pos he] at hin
  have hok : ring_ok (put_host_word s w) := ⟨by rw [hin]; exact h1, by rw [hout]; exact h2⟩
  refine ⟨hok, ?_, hin⟩
  rw [queued_eq _ hok, queued_eq s ⟨h1, h2⟩, hin, hout, hw]
  exact ring_words_update_out _ _ _ _ _ h2 (Nat.mod_lt _ (by decide))
    (by unfold HOST_IN_WORDS at *; omega)

theorem put_host_words_nil (s : host_session) : put_host_words s [] = s := rfl

theorem put_host_words_cons (s : host_session) (w : Nat) (ws : List Nat) :
    put_host_words s (w :: ws) = put_host_words (put_host_word s w) ws := rfl

/-- Enqueuing a list that fits: the words are appended to the queue, and the
erase-abort counter grows by the number of screen-erase words among them. -/
theorem put_host_words_room (ws : List Nat) :
    ∀ s : host_session, ring_ok s → (host_word_count s).2 + ws.length < HOST_IN_WORDS →
      s.erase_abort_count + ws.countP is_screen_clear < 65536 →
      ring_ok (put_host_words s ws) ∧
      queued (put_host_words s ws) = queued s ++ ws ∧
      (host_word_count (put_host_words s ws)).2 = (host_word_count s).2 + ws.length ∧
      (put_host_words s ws).erase_abort_count
        = s.erase_abort_count + ws.countP is_screen_clear ∧
      (put_host_words s ws).pending_echo = s.pending_echo ∧
      (put_host_words s ws).host_tx = s.host_tx ∧
      (put_host_words s ws).current_mode = s.current_mode := by
  induction ws with
  | nil => intro s h _ _; simp [put_host_words_nil, h]
  | cons w ws ih =>
    intro s h hc he
    have hlen : (w :: ws).length = ws.length + 1 := rfl
    obtain ⟨a1, a2, a3⟩ := put_host_word_room s w h (by unfold HOST_IN_WORDS at *; omega)
    have a4 := put_host_word_erase_abort_count s w
    obtain ⟨a5, a6, a7⟩ := put_host_word_frame s w
    obtain ⟨k, hcp, a4'⟩ : ∃ k, (w :: ws).countP is_screen_clear
        = ws.countP is_screen_clear + k ∧
        (put_host_word s w).erase_abort_count = s.erase_abort_count + k := by
      cases hw : is_screen_clear w
      · exact ⟨0, by simp [List.countP_cons, hw], by simp [a4, hw]⟩
      · refine ⟨1, by simp [List.countP_cons, hw], ?_⟩
        have : 0 < (w :: ws).countP is_screen_clear := by simp [List.countP_cons, hw]
        rw [a4]; simp only [hw, if_true]; omega
    obtain ⟨b1, b2, b3, b4, b5, b6, b7⟩ := ih (put_host_word s w) a1 (by omega) (by omega)
    rw [put_host_words_cons]
    refine ⟨b1, ?_, ?_, ?_, ?_, ?_, ?_⟩
    · rw [b2, a2]; simp
    · rw [b3, a3]; omega
    · rw [b4]; omega
    · rw [b5, a5]
    · rw [b6, a6]
    · rw [b7, a7]

theorem next_index (t : Nat) (h : t < HOST_IN_WORDS) :
    (if (t + 1) % 65536 ≥ HOST_IN_WORDS then 0 else (t + 1) % 65536) = (t + 1) % HOST_IN_WORDS := by
  unfold HOST_IN_WORDS at *
  split_ifs <;> omega

theorem is_abortable_command_congr (s s' : host_session) (w : Nat)
    (h : s'.current_mode = s.current_mode) :
    is_abortable_command s' w = is_abortable_command s w := by
  unfold is_abortable_command
  rw [h]

theorem is_screen_clear_not_abortable (s : host_session) (w : Nat)
    (h : is_screen_clear w = true) : is_abortable_command s w = false := by
  unfold is_screen_clear at h
  unfold is_abortable_command
  split_ifs at h with h1 h2 h3
  simp only [ne_eq, Decidable.not_not] at h1 h2
  rw [if_neg (not_not.mpr h1)]
  simp [h2, CMD_LDM, CMD_NOP, CMD_SSL, CMD_AUD, CMD_EXT]

theorem get_host_word_loop_quiet (fuel : Nat) (s : host_session) (t : Nat)
    (ht : t < HOST_IN_WORDS) (he : s.erase_abort_count = 0) :
    get_host_word_loop (fuel + 1) s t = some (s, (t + 1) % HOST_IN_WORDS, s.inwds t) := by
  simp only [get_host_word_loop, next_index t ht, he, if_true]

/-- The erase-abort scan: abortable words are passed over up to the first word
that is not abortable, which is returned. -/
theorem get_host_word_loop_abort (x : Nat) (rest : List Nat) (as : List Nat) :
    ∀ (s : host_session) (t n fuel : Nat), t < HOST_IN_WORDS → s.erase_abort_count ≠ 0 →
      ring_words s.inwds t n = as ++ x :: rest →
      (∀ a ∈ as, is_abortable_command s a = true) → is_abortable_command s x = false →
      as.length < fuel →
      get_host_word_loop fuel s t =
        some (if is_screen_clear x then
                { s with erase_abort_count := s.erase_abort_count - 1 } else s,
              (t + as.length + 1) % HOST_IN_WORDS, x) ∧
      ring_words s.inwds ((t + as.length + 1) % HOST_IN_WORDS) (n - as.length - 1) = rest := by
  induction as with
  | nil =>
    intro s t n fuel ht he hq _ hx hf
    obtain ⟨f, rfl⟩ : ∃ f, fuel = f + 1 := ⟨fuel - 1, by simp at hf; omega⟩
    obtain ⟨m, rfl⟩ : ∃ m, n = m + 1 := by
      cases n with
      | zero => simp [ring_words] at hq
      | succ m => exact ⟨m, rfl⟩
    simp only [ring_words, List.nil_append, List.cons.injEq] at hq
    obtain ⟨hq1, hq2⟩ := hq
    have hx' : is_abortable_command
        (if is_screen_clear x then { s with erase_abort_count := s.erase_abort_count - 1 } else s)
        x = false := by
      rw [is_abortable_command_congr s _ x (by split_ifs <;> rfl)]; exact hx
    refine ⟨?_, ?_⟩
    · simp only [get_host_word_loop, next_index t ht, he, if_false, hq1, hx', if_true,
        List.length_nil, Nat.add_zero]
    · simpa using hq2
  | cons a as ih =>
    intro s t n fuel ht he hq ha hx hf
    obtain ⟨f, rfl⟩ : ∃ f, fuel = f + 1 := ⟨fuel - 1, by simp at hf; omega⟩
    obtain ⟨m, rfl⟩ : ∃ m, n = m + 1 := by
      cases n with
      | zero => simp [ring_words] at hq
      | succ m => exact ⟨m, rfl⟩
    simp only [ring_words, List.cons_append, List.cons.injEq] at hq
    obtain ⟨hq1, hq2⟩ := hq
    have haa : is_abortable_command s a = true := ha a (List.mem_cons_self _ _)
    have hnc : is_screen_clear a = false := by
      cases hc : is_screen_clear a
      · rfl
      · rw [is_screen_clear_not_abortable s a hc] at haa; cases haa
    have hlt : (t + 1) % HOST_IN_WORDS < HOST_IN_WORDS := Nat.mod_lt _ (by decide)
    obtain ⟨r1, r2⟩ := ih s ((t + 1) % HOST_IN_WORDS) m f hlt he hq2
      (fun b hb => ha b (List.mem_cons_of_mem _ hb)) hx (by simp at hf; omega)
    have hidx : ((t + 1) % HOST_IN_WORDS + as.length + 1) % HOST_IN_WORDS
        = (t + (a :: as).length + 1) % HOST_IN_WORDS := by
      simp only [List.length_cons]; unfold HOST_IN_WORDS; omega
    rw [hidx] at r1 r2
    refine ⟨?_, ?_⟩
    · rw [← r1]
      simp only [get_host_word_loop, next_index t ht, he, if_false, hq1, hnc, haa, ne_eq,
        not_false_eq_true, if_true, Bool.false_eq_true]
      simp
    · rw [← r2]; congr 1; simp only [List.length_cons]; omega

theorem get_host_word_quiet (fuel : Nat) (s : host_session) (w : Nat) (rest : List Nat)
    (h : ring_ok s) (he : s.erase_abort_count = 0) (hq : queued s = w :: rest) :
    get_host_word (fuel + 1) s
        = some ({ s with inwd_out := (s.inwd_out + 1) % HOST_IN_WORDS }, w) ∧
      ring_ok { s with inwd_out := (s.inwd_out + 1) % HOST_IN_WORDS } ∧
      queued { s with inwd_out := (s.inwd_out + 1) % HOST_IN_WORDS } = rest := by
  have hok : ring_ok { s with inwd_out := (s.inwd_out + 1) % HOST_IN_WORDS } :=
    ⟨h.1, Nat.mod_lt _ (by decide)⟩
  have hlen := congrArg List.length hq
  rw [queued_eq s h] at hq
  rw [queued_eq s h, ring_words_length] at hlen
  simp only [List.length_cons] at hlen
  obtain ⟨m, hm⟩ : ∃ m, (s.inwd_in + HOST_IN_WORDS - s.inwd_out) % HOST_IN_WORDS = m + 1 :=
    ⟨rest.length, hlen⟩
  rw [hm] at hq
  simp only [ring_words, List.cons.injEq] at hq
  refine ⟨?_, hok, ?_⟩
  · unfold get_host_word
    rw [get_host_word_loop_quiet fuel s _ h.2 he, hq.1]
  · rw [queued_eq _ hok]
    simp only
    rw [← hq.2]
    congr 1
    obtain ⟨h1, h2⟩ := h
    unfold HOST_IN_WORDS at *
    omega

theorem get_host_word_abort (fuel : Nat) (s : host_session) (as : List Nat) (x : Nat)
    (rest : List Nat) (h : ring_ok s) (he : s.erase_abort_count ≠ 0)
    (hq : queued s = as ++ x :: rest)
    (ha : ∀ a ∈ as, is_abortable_command s a = true) (hx : is_abortable_command s x = false)
    (hf : as.length < fuel) :
    get_host_word fuel s
        = some ({ s with
                  erase_abort_count := s.erase_abort_count - (if is_screen_clear x then 1 else 0),
                  inwd_out := (s.inwd_out + as.length + 1) % HOST_IN_WORDS }, x) ∧
      ring_ok { s with
                  erase_abort_count := s.erase_abort_count - (if is_screen_clear x then 1 else 0),
                  inwd_out := (s.inwd_out + as.length + 1) % HOST_IN_WORDS } ∧
      queued { s with
                  erase_abort_count := s.erase_abort_count - (if is_screen_clear x then 1 else 0),
                  inwd_out := (s.inwd_out + as.length + 1) % HOST_IN_WORDS } = rest := by
  have hok : ring_ok { s with
      erase_abort_count := s.erase_abort_count - (if is_screen_clear x then 1 else 0),
      inwd_out := (s.inwd_out + as.length + 1) % HOST_IN_WORDS } :=
    ⟨h.1, Nat.mod_lt _ (by decide)⟩
  have hlen := congrArg List.length hq
  rw [queued_eq s h] at hq
  rw [queued_eq s h, ring_words_length] at hlen
  simp only [List.length_append, List.length_cons] at hlen
  obtain ⟨r1, r2⟩ := get_host_word_loop_abort x rest as s s.inwd_out _ fuel h.2 he hq ha hx hf
  refine ⟨?_, hok, ?_⟩
  · unfold get_host_word
    rw [r1]
    by_cases hc : is_screen_clear x = true <;> simp [hc]
  · rw [queued_eq _ hok]
    simp only
    rw [← r2]
    congr 1
    obtain ⟨h1, h2⟩ := h
    unfold HOST_IN_WORDS at *
    omega

/-! ## Erase-abort -/

/-- C5: when `erase_abort_count > 0` and the queued words are `as ++ x :: rest`,
every word of `as` abortable under the current graphics mode and `x` not
abortable, one `get_host_word` call (with fuel for `as.length + 1` iterations)
returns `x`, leaves exactly `rest` queued, and decrements `erase_abort_count`
by one exactly when `x` is a screen-erase LDM; in particular, with counter 1,
`x` a screen-erase LDM and nothing queued behind it, the counter is left 0 and
the ring empty. -/
theorem get_host_word_erase_abort (fuel : Nat) (s : host_session) (as : List Nat) (x : Nat)
    (rest : List Nat) (h : ring_ok s) (he : 0 < s.erase_abort_count)
    (hq : queued s = as ++ x :: rest)
    (ha : ∀ a ∈ as, is_abortable_command s a = true) (hx : is_abortable_command s x = false)
    (hf : as.length < fuel) :
    ∃ s', get_host_word fuel s = some (s', x) ∧ queued s' = rest ∧
      s'.erase_abort_count = s.erase_abort_count - (if is_screen_clear x then 1 else 0) ∧
      s'.inwd_in = s.inwd_in ∧ s'.inwds = s.inwds ∧ s'.current_mode = s.current_mode ∧
      (s.erase_abort_count = 1 → is_screen_clear x = true → rest = [] →
         s'.erase_abort_count = 0 ∧ queued s' = [] ∧ (host_word_count s').2 = 0) := by
  obtain ⟨r1, r2, r3⟩ := get_host_word_abort fuel s as x rest h (by omega) hq ha hx hf
  refine ⟨_, r1, r3, rfl, rfl, rfl, rfl, ?_⟩
  intro h1 hc hr
  refine ⟨?_, ?_, ?_⟩
  · simp [h1, hc]
  · rw [r3, hr]
  · rw [← queued_length, r3, hr]; rfl

/-- C5 at a ring holding two data words and a screen-erase LDM. -/
theorem get_host_word_erase_abort_witness :
    ∃ s', get_host_word 3 (put_host_words sess [0x180002, 0x180002, 0x110002])
        = some (s', 0x110002) ∧ queued s' = [] ∧ s'.erase_abort_count = 0 := by
  obtain ⟨s', a1, a2, a3, _⟩ :=
    get_host_word_erase_abort 3 (put_host_words sess [0x180002, 0x180002, 0x110002])
      [0x180002, 0x180002] 0x110002 [] (by decide) (by decide) (by decide) (by decide)
      (by decide) (by decide)
  exact ⟨s', a1, a2, a3⟩

theorem and_eq_mask_iff (x m : Nat) :
    x &&& m = m ↔ ∀ i, m.testBit i = true → x.testBit i = true := by
  constructor
  · intro h i hi
    have := congrArg (fun y => Nat.testBit y i) h
    simp only [Nat.testBit_and, hi, Bool.and_true] at this
    exact this
  · intro h
    apply Nat.eq_of_testBit_eq
    intro i
    rw [Nat.testBit_and]
    cases hm : m.testBit i
    · simp
    · simp [h i hm]

theorem testBit_0777700 (i : Nat) : (0o777700 : Nat).testBit i = true ↔ 6 ≤ i ∧ i ≤ 17 := by
  have : (0o777700 : Nat) = (2 ^ 12 - 1) <<< 6 := by decide
  rw [this, Nat.testBit_shiftLeft, Nat.testBit_two_pow_sub_one]
  simp
  omega

/-- C6: `is_abortable_command` returns true for a command word (bit 19 clear)
with opcode NOP, SSL, AUD or EXT and false for opcode LDM, LDC, LDE or LDA; for
a data word (bit 19 set) it returns false exactly when the current mode is 2,
or is 3 with `(w >> 1) & 0777700 = 0777700`, which says that bits 17..6 of
`w >> 1` are all ones. -/
theorem is_abortable_command_policy (s : host_session) (w : Nat) :
    (w &&& (1 <<< 19) = 0 →
      (((w >>> 16) &&& 7 = CMD_NOP ∨ (w >>> 16) &&& 7 = CMD_SSL ∨ (w >>> 16) &&& 7 = CMD_AUD ∨
          (w >>> 16) &&& 7 = CMD_EXT) → is_abortable_command s w = true) ∧
      (((w >>> 16) &&& 7 = CMD_LDM ∨ (w >>> 16) &&& 7 = CMD_LDC ∨ (w >>> 16) &&& 7 = CMD_LDE ∨
          (w >>> 16) &&& 7 = CMD_LDA) → is_abortable_command s w = false)) ∧
    (w &&& (1 <<< 19) ≠ 0 →
      (is_abortable_command s w = false ↔
        s.current_mode = 2 ∨
          (s.current_mode = 3 ∧ (w >>> 1) &&& 0o777700 = 0o777700)) ∧
      ((w >>> 1) &&& 0o777700 = 0o777700 ↔
        ∀ i, 6 ≤ i → i ≤ 17 → (w >>> 1).testBit i = true)) := by
  refine ⟨fun hc => ⟨fun ho => ?_, fun ho => ?_⟩, fun hd => ⟨?_, ?_⟩⟩
  · unfold is_abortable_command
    rw [if_neg (not_not.mpr hc)]
    simp only [ho, if_true]
  · unfold is_abortable_command
    rw [if_neg (not_not.mpr hc)]
    have hn : ¬ ((w >>> 16) &&& 7 = CMD_NOP ∨ (w >>> 16) &&& 7 = CMD_SSL ∨
        (w >>> 16) &&& 7 = CMD_AUD ∨ (w >>> 16) &&& 7 = CMD_EXT) := by
      unfold CMD_NOP CMD_SSL CMD_AUD CMD_EXT
      unfold CMD_LDM CMD_LDC CMD_LDE CMD_LDA at ho
      omega
    simp only [hn, ho, if_true, if_false]
  · unfold is_abortable_command
    rw [if_pos hd]
    simp only
    split_ifs with h3
    · simp [h3.1, h3.2]
    · simp only [decide_eq_false_iff_not, ne_eq, Decidable.not_not]
      constructor
      · intro h2; exact Or.inl h2
      · rintro (h2 | h2)
        · exact h2
        · exact absurd h2 h3
  · rw [and_eq_mask_iff]
    constructor
    · intro h i h6 h17
      exact h i ((testBit_0777700 i).2 ⟨h6, h17⟩)
    · intro h i hi
      obtain ⟨h6, h17⟩ := (testBit_0777700 i).1 hi
      exact h i h6 h17

/-! ## Steps of `do_host_word` -/

theorem to_int16_of_lt (n : Nat) (h : n < 32768) : to_int16 n = (n : Int) := by
  unfold to_int16
  have : n % 65536 = n := Nat.mod_eq_of_lt (by omega)
  rw [this, if_pos h]

theorem ring_view_eq_iff (s s' : host_session) :
    ring_view s' = ring_view s ↔
      s'.inwds = s.inwds ∧ s'.inwd_in = s.inwd_in ∧ s'.inwd_out = s.inwd_out ∧
        s'.erase_abort_count = s.erase_abort_count := by
  unfold ring_view
  simp only [Prod.mk.injEq]

theorem ring_ok_of_view (s s' : host_session) (h : ring_view s' = ring_view s)
    (hok : ring_ok s) : ring_ok s' := by
  obtain ⟨_, a, b, _⟩ := (ring_view_eq_iff s s').1 h
  unfold ring_ok at *
  rw [a, b]; exact hok

theorem host_word_diff_of_view (s s' : host_session) (h : ring_view s' = ring_view s) :
    host_word_diff s' = host_word_diff s := by
  obtain ⟨_, a, b, _⟩ := (ring_view_eq_iff s s').1 h
  unfold host_word_diff
  rw [a, b]

theorem host_word_count_of_view (s s' : host_session) (h : ring_view s' = ring_view s) :
    (host_word_count s').2 = (host_word_count s).2 := by
  unfold host_word_count
  rw [host_word_diff_of_view s s' h]
  simp only
  split_ifs <;> rfl

theorem queued_of_view (s s' : host_session) (h : ring_view s' = ring_view s) :
    queued s' = queued s := by
  obtain ⟨a, _, b, _⟩ := (ring_view_eq_iff s s').1 h
  unfold queued
  rw [host_word_count_of_view s s' h, a, b]

theorem host_word_count_fst (s : host_session) (h : ring_ok s) : (host_word_count s).1 = s := by
  rw [host_word_count_of_ok s h]

theorem track_mode_fields (s : host_session) (w : Nat) :
    ring_view (track_mode s w) = ring_view s ∧
    (track_mode s w).pending_echo = s.pending_echo ∧
    (track_mode s w).host_tx = s.host_tx ∧
    (track_mode s w).current_mode
      = if is_command w CMD_LDM then (w >>> 4) &&& 3 else s.current_mode := by
  unfold track_mode is_command
  split_ifs <;> simp_all [ring_view]

theorem do_host_word_flow_fields (s : host_session) (n : Nat) :
    ring_view (do_host_word_flow s (n : Int)) = ring_view s ∧
    (do_host_word_flow s (n : Int)).current_mode = s.current_mode ∧
    (do_host_word_flow s (n : Int)).pending_echo
      = (if n < XOFF1LIMIT then -1 else s.pending_echo) ∧
    (do_host_word_flow s (n : Int)).host_tx
      = s.host_tx
        ++ (if n < XOFF1LIMIT ∧ s.pending_echo ≠ -1
            then [keybuf (to_uint16 s.pending_echo)] else [])
        ++ (if n = XON1LIMIT ∨ n = XON2LIMIT then [keybuf KEY_XON] else []) := by
  have e1 : ((n : Int) < (XOFF1LIMIT : Int)) ↔ n < XOFF1LIMIT := Int.ofNat_lt
  have e2 : ∀ k : Nat, ((n : Int) = (k : Int)) ↔ n = k := fun k => Int.ofNat_inj
  unfold do_host_word_flow
  simp only [e1, e2]
  by_cases a : n < XOFF1LIMIT <;> by_cases b : s.pending_echo = -1 <;>
    by_cases c : (n = XON1LIMIT ∨ n = XON2LIMIT) <;>
    simp [a, b, c, send_key, ring_view]

theorem echo_key_eq (x : Nat) : (((x >>> 1) &&& 0x7FFF) &&& 0x7F) ||| 0x80 = echo_key x := by
  unfold echo_key
  rw [Nat.and_assoc]
  rfl

theorem echo_handle_other (s : host_session) (x : Nat) (hx : ¬ is_command x CMD_LDE) :
    echo_handle s x = (s, x) := by
  unfold echo_handle
  unfold is_command CMD_LDE at hx
  split_ifs with a b
  · rfl
  · rfl
  · exact absurd ⟨not_not.mp a, not_not.mp b⟩ hx

theorem echo_handle_lde (s : host_session) (x : Nat) (hok : ring_ok s)
    (hx : is_command x CMD_LDE) :
    (echo_handle s x).2 = 0 ∧
    ring_view (echo_handle s x).1 = ring_view s ∧
    (echo_handle s x).1.current_mode = s.current_mode ∧
    (echo_handle s x).1.pending_echo
      = (if (host_word_count s).2 > XOFF1LIMIT then (echo_key x : Int) else -1) ∧
    (echo_handle s x).1.host_tx
      = s.host_tx ++ (if (host_word_count s).2 > XOFF1LIMIT then [] else [keybuf (echo_key x)]) := by
  have hbit : ¬ (x &&& (1 <<< 19) ≠ 0) := not_not.mpr hx.1
  have hop : ¬ ((x >>> 16) &&& 7 ≠ 3) := not_not.mpr hx.2
  have hn : (host_word_count s).2 < 32768 := by
    have := count_lt s hok
    unfold HOST_IN_WORDS at this; omega
  have hfst := host_word_count_fst s hok
  unfold echo_handle
  rw [if_neg hbit, if_neg hop]
  simp only [to_int16_of_lt _ hn, echo_key_eq, hfst]
  have e1 : (((host_word_count s).2 : Int) > (XOFF1LIMIT : Int)) ↔
      (host_word_count s).2 > XOFF1LIMIT := Int.ofNat_lt
  simp only [e1]
  by_cases hc : (host_word_count s).2 > XOFF1LIMIT
  · simp [hc, ring_view]
  · simp [hc, ring_view, send_key]

theorem gsw_handle_other (s : host_session) (x : Nat)
    (h6 : ¬ is_command x CMD_AUD) (h7 : ¬ is_command x CMD_EXT) :
    gsw_handle s x = some (s, x) := by
  unfold gsw_handle
  unfold is_command at h6 h7
  split_ifs with a b c d
  · rfl
  · exact absurd ⟨not_not.mp a, b⟩ h6
  · exact absurd ⟨not_not.mp a, b⟩ h6
  · exact absurd ⟨not_not.mp a, d⟩ h7
  · rfl

theorem setdiv_fields (s s1 : host_session) (v d : Nat) (h : setdiv s v d = some s1) :
    ring_view s1 = ring_view s ∧ s1.current_mode = s.current_mode ∧
    s1.pending_echo = s.pending_echo ∧ s1.host_tx = s.host_tx := by
  unfold setdiv at h
  simp only at h
  split_ifs at h
  split at h
  · cases h
  · simp only [Option.some.injEq] at h
    subst h
    exact ⟨rfl, rfl, rfl, rfl⟩

theorem setamp_fields (s : host_session) (v a : Nat) :
    ring_view (setamp s v a) = ring_view s ∧ (setamp s v a).current_mode = s.current_mode ∧
    (setamp s v a).pending_echo = s.pending_echo ∧ (setamp s v a).host_tx = s.host_tx :=
  ⟨rfl, rfl, rfl, rfl⟩

theorem gsw_handle_fields (s s1 : host_session) (x w : Nat) (h : gsw_handle s x = some (s1, w)) :
    ring_view s1 = ring_view s ∧ s1.current_mode = s.current_mode ∧
    s1.pending_echo = s.pending_echo ∧ s1.host_tx = s.host_tx ∧
    w = (if is_command x CMD_AUD ∨ is_command x CMD_EXT then NOP_WORD else x) := by
  unfold gsw_handle at h
  unfold is_command
  by_cases a : x &&& (1 <<< 19) = 0
  · rw [if_neg (not_not.mpr a)] at h
    have a' : x &&& 524288 = 0 := a
    simp only at h
    by_cases b : (x >>> 16) &&& 7 = CMD_AUD
    · rw [if_pos b] at h
      split_ifs at h <;>
      · simp only [Option.some.injEq, Prod.mk.injEq] at h
        obtain ⟨h1, h2⟩ := h
        subst h1 h2
        simp [a', b, ring_view, setamp]
    · rw [if_neg b] at h
      by_cases c : (x >>> 16) &&& 7 = CMD_EXT
      · rw [if_pos c] at h
        split at h
        · cases h
        · rename_i s2 hs2
          obtain ⟨f1, f2, f3, f4⟩ := setdiv_fields _ _ _ _ hs2
          rw [ring_view_eq_iff] at f1
          simp only [Option.some.injEq, Prod.mk.injEq] at h
          obtain ⟨h1, h2⟩ := h
          subst h1 h2
          split_ifs <;> simp_all [ring_view]
      · rw [if_neg c] at h
        simp only [Option.some.injEq, Prod.mk.injEq] at h
        obtain ⟨h1, h2⟩ := h
        subst h1 h2
        simp [a', b, c]
  · rw [if_pos a] at h
    have a' : ¬ x &&& 524288 = 0 := a
    simp only [Option.some.injEq, Prod.mk.injEq] at h
    obtain ⟨h1, h2⟩ := h
    subst h1 h2
    simp [a']

/-- What the part of `do_host_word` after `get_host_word` does with the word
`x`, on a session whose ring indices are in range. -/
theorem do_host_word_rest_spec (s : host_session) (x : Nat) (hok : ring_ok s) :
    ∃ sD, ring_view sD = ring_view s ∧
      sD.current_mode = (if is_command x CMD_LDM then (x >>> 4) &&& 3 else s.current_mode) ∧
      sD.pending_echo =
        (if is_command x CMD_LDE then
          (if (host_word_count s).2 > XOFF1LIMIT then (echo_key x : Int) else -1)
         else if (host_word_count s).2 < XOFF1LIMIT then -1 else s.pending_echo) ∧
      sD.host_tx = s.host_tx ++
        (if is_command x CMD_LDE then
          (if (host_word_count s).2 > XOFF1LIMIT then [] else [keybuf (echo_key x)])
         else if (host_word_count s).2 < XOFF1LIMIT ∧ s.pending_echo ≠ -1
           then [keybuf (to_uint16 s.pending_echo)] else []) ++
        (if (host_word_count s).2 = XON1LIMIT ∨ (host_word_count s).2 = XON2LIMIT
          then [keybuf KEY_XON] else []) ∧
      do_host_word_rest s x =
        (if is_command x CMD_LDE ∨ x = 0 then some (sD, 0) else gsw_handle sD x) := by
  have hlt : (host_word_count s).2 < 32768 := by
    have := count_lt s hok
    unfold HOST_IN_WORDS at this; omega
  unfold do_host_word_rest
  simp only []
  obtain ⟨a1, a2, a3, a4⟩ := track_mode_fields { s with wc := (s.wc + 1) &&& 0o177 } x
  have a1' : ring_view (track_mode { s with wc := (s.wc + 1) &&& 0o177 } x) = ring_view s := a1
  have a2' : (track_mode { s with wc := (s.wc + 1) &&& 0o177 } x).pending_echo
      = s.pending_echo := a2
  have a3' : (track_mode { s with wc := (s.wc + 1) &&& 0o177 } x).host_tx = s.host_tx := a3
  have a4' : (track_mode { s with wc := (s.wc + 1) &&& 0o177 } x).current_mode
      = if is_command x CMD_LDM then (x >>> 4) &&& 3 else s.current_mode := a4
  clear a1 a2 a3 a4
  generalize track_mode { s with wc := (s.wc + 1) &&& 0o177 } x = sA at a1' a2' a3' a4' ⊢
  have hokA : ring_ok sA := ring_ok_of_view s sA a1' hok
  have hcA : (host_word_count sA).2 = (host_word_count s).2 := host_word_count_of_view s sA a1'
  by_cases hx : is_command x CMD_LDE
  · obtain ⟨b1, b2, b3, b4, b5⟩ := echo_handle_lde sA x hokA hx
    rw [hcA] at b4 b5
    generalize echo_handle sA x = e at b1 b2 b3 b4 b5 ⊢
    obtain ⟨sE, w⟩ := e
    simp only at b1 b2 b3 b4 b5
    subst b1
    simp only [if_true, hx, true_or]
    have hvC : ring_view { sE with lde_count := (sE.lde_count + 1) % 4294967296 } = ring_view s := by
      rw [← a1', ← b2]; rfl
    have hokC := ring_ok_of_view s _ hvC hok
    rw [host_word_count_fst _ hokC, host_word_count_of_view s _ hvC, to_int16_of_lt _ hlt]
    obtain ⟨c1, c2, c3, c4⟩ := do_host_word_flow_fields
      { sE with lde_count := (sE.lde_count + 1) % 4294967296 } (host_word_count s).2
    refine ⟨_, c1.trans hvC, ?_, ?_, ?_, rfl⟩
    · rw [c2]; show sE.current_mode = _; rw [b3, a4']
    · rw [c3]; show (if _ then _ else sE.pending_echo) = _; rw [b4]
      split_ifs <;> first | rfl | omega
    · rw [c4]
      show sE.host_tx ++ (if _ ∧ sE.pending_echo ≠ -1 then [keybuf (to_uint16 sE.pending_echo)]
        else []) ++ _ = _
      rw [b4, b5, a3']
      have hk : ¬ ((echo_key x : Int) = -1) := by omega
      by_cases g1 : (host_word_count s).2 > XOFF1LIMIT
      · have g2 : ¬ (host_word_count s).2 < XOFF1LIMIT := by omega
        simp [g1, g2]
      · simp [g1]
  · rw [echo_handle_other sA x hx]
    simp only [hx, false_or, if_false]
    by_cases h0 : x = 0
    · subst h0
      simp only [if_true]
      have hvC : ring_view { sA with lde_count := (sA.lde_count + 1) % 4294967296 }
          = ring_view s := by
        rw [← a1']; rfl
      have hokC := ring_ok_of_view s _ hvC hok
      rw [host_word_count_fst _ hokC, host_word_count_of_view s _ hvC, to_int16_of_lt _ hlt]
      obtain ⟨c1, c2, c3, c4⟩ := do_host_word_flow_fields
        { sA with lde_count := (sA.lde_count + 1) % 4294967296 } (host_word_count s).2
      refine ⟨_, c1.trans hvC, ?_, ?_, ?_, rfl⟩
      · rw [c2]; show sA.current_mode = _; rw [a4']
      · rw [c3]; show (if _ then _ else sA.pending_echo) = _; rw [a2']
      · rw [c4]
        show sA.host_tx ++ (if _ ∧ sA.pending_echo ≠ -1 then [keybuf (to_uint16 sA.pending_echo)]
          else []) ++ _ = _
        rw [a2', a3']
    · simp only [h0, if_false]
      rw [host_word_count_fst _ hokA, hcA, to_int16_of_lt _ hlt]
      obtain ⟨c1, c2, c3, c4⟩ := do_host_word_flow_fields sA (host_word_count s).2
      refine ⟨_, c1.trans a1', ?_, ?_, ?_, rfl⟩
      · rw [c2, a4']
      · rw [c3, a2']
      · rw [c4, a2', a3']

theorem get_host_word_loop_fields (fuel : Nat) :
    ∀ (s : host_session) (t : Nat) (r : host_session × Nat × Nat),
      get_host_word_loop fuel s t = some r →
      r.2.1 < HOST_IN_WORDS ∧ r.1.inwds = s.inwds ∧ r.1.inwd_in = s.inwd_in ∧
      r.1.pending_echo = s.pending_echo ∧ r.1.host_tx = s.host_tx ∧
      r.1.current_mode = s.current_mode := by
  induction fuel with
  | zero => intro s t r h; simp [get_host_word_loop] at h
  | succ f ih =>
    intro s t r h
    simp only [get_host_word_loop] at h
    split_ifs at h with c1 c2 c3 c4 c5 c6
    all_goals first
      | (simp only [Option.some.injEq] at h; subst h
         refine ⟨?_, rfl, rfl, rfl, rfl, rfl⟩
         simp only
         unfold HOST_IN_WORDS at *
         omega)
      | (obtain ⟨i1, i2, i3, i4, i5, i6⟩ := ih _ _ r h
         exact ⟨i1, i2, i3, i4, i5, i6⟩)

theorem get_host_word_fields (fuel : Nat) (s s1 : host_session) (x : Nat)
    (hin : s.inwd_in < HOST_IN_WORDS) (h : get_host_word fuel s = some (s1, x)) :
    ring_ok s1 ∧ s1.inwds = s.inwds ∧ s1.inwd_in = s.inwd_in ∧
    s1.pending_echo = s.pending_echo ∧ s1.host_tx = s.host_tx ∧
    s1.current_mode = s.current_mode := by
  unfold get_host_word at h
  split at h
  · cases h
  · rename_i sL t w hL
    obtain ⟨i1, i2, i3, i4, i5, i6⟩ := get_host_word_loop_fields fuel s _ _ hL
    simp only [Option.some.injEq, Prod.mk.injEq] at h
    obtain ⟨h1, h2⟩ := h
    subst h1 h2
    simp only at i1 i2 i3 i4 i5 i6
    refine ⟨⟨?_, i1⟩, i2, i3, i4, i5, i6⟩
    show sL.inwd_in < HOST_IN_WORDS
    rw [i3]; exact hin

theorem do_host_word_of_get (fuel : Nat) (s s1 : host_session) (x : Nat)
    (hne : s.inwd_in ≠ s.inwd_out) (h : get_host_word fuel s = some (s1, x)) :
    do_host_word fuel s = do_host_word_rest s1 x := by
  unfold do_host_word
  rw [if_neg hne, h]

theorem do_host_word_empty (fuel : Nat) (s : host_session) (h : s.inwd_in = s.inwd_out) :
    do_host_word fuel s = some (s, NOP_WORD) := by
  unfold do_host_word
  rw [if_pos h]

theorem queued_ne_nil_indices (s : host_session) (w : Nat) (rest : List Nat)
    (hq : queued s = w :: rest) : s.inwd_in ≠ s.inwd_out := by
  intro h
  have hl := congrArg List.length hq
  rw [queued_length] at hl
  unfold host_word_count host_word_diff at hl
  rw [h] at hl
  simp at hl

/-- One `do_host_word` call while no erase-abort is in progress. -/
theorem do_host_word_quiet (fuel : Nat) (s : host_session) (w : Nat) (rest : List Nat)
    (hok : ring_ok s) (he : s.erase_abort_count = 0) (hq : queued s = w :: rest) :
    ∃ sD, ring_ok sD ∧ queued sD = rest ∧ sD.erase_abort_count = 0 ∧
      sD.current_mode = (if is_command w CMD_LDM then (w >>> 4) &&& 3 else s.current_mode) ∧
      sD.pending_echo =
        (if is_command w CMD_LDE then
          (if rest.length > XOFF1LIMIT then (echo_key w : Int) else -1)
         else if rest.length < XOFF1LIMIT then -1 else s.pending_echo) ∧
      sD.host_tx = s.host_tx ++
        (if is_command w CMD_LDE then
          (if rest.length > XOFF1LIMIT then [] else [keybuf (echo_key w)])
         else if rest.length < XOFF1LIMIT ∧ s.pending_echo ≠ -1
           then [keybuf (to_uint16 s.pending_echo)] else []) ++
        (if rest.length = XON1LIMIT ∨ rest.length = XON2LIMIT then [keybuf KEY_XON] else []) ∧
      do_host_word (fuel + 1) s =
        (if is_command w CMD_LDE ∨ w = 0 then some (sD, 0) else gsw_handle sD w) := by
  obtain ⟨g1, g2, g3⟩ := get_host_word_quiet fuel s w rest hok he hq
  have hne := queued_ne_nil_indices s w rest hq
  obtain ⟨sD, d1, d2, d3, d4, d5⟩ := do_host_word_rest_spec _ w g2
  have hc : (host_word_count { s with inwd_out := (s.inwd_out + 1) % HOST_IN_WORDS }).2
      = rest.length := by rw [← queued_length, g3]
  rw [hc] at d3 d4
  refine ⟨sD, ring_ok_of_view _ _ d1 g2, ?_, ?_, d2, d3, d4, ?_⟩
  · rw [queued_of_view _ _ d1, g3]
  · have := ((ring_view_eq_iff _ _).1 d1).2.2.2
    rw [this]; exact he
  · rw [do_host_word_of_get _ _ _ _ hne g1, d5]

theorem queued_of_empty (s : host_session) (h : s.inwd_in = s.inwd_out) : queued s = [] := by
  unfold queued host_word_count host_word_diff
  rw [h]
  simp [ring_words]

theorem indices_of_queued_nil (s : host_session) (hok : ring_ok s) (h : queued s = []) :
    s.inwd_in = s.inwd_out := by
  have hl := congrArg List.length h
  rw [queued_length, host_word_count_of_ok s hok] at hl
  obtain ⟨h1, h2⟩ := hok
  unfold HOST_IN_WORDS at *
  simp only [List.length_nil] at hl
  omega

/-- Draining a queue of words that are neither LDE, AUD nor EXT while no
erase-abort is in progress returns the queue in order. -/
theorem do_host_words_drain (fuel : Nat) (ws : List Nat) :
    ∀ s : host_session, ring_ok s → s.erase_abort_count = 0 → queued s = ws →
      (∀ w ∈ ws, w ≠ 0 ∧ ¬ is_command w CMD_LDE ∧ ¬ is_command w CMD_AUD ∧
        ¬ is_command w CMD_EXT) →
      ∃ s', do_host_words (fuel + 1) ws.length s = some (s', ws) ∧ ring_ok s' ∧
        queued s' = [] := by
  induction ws with
  | nil =>
    intro s hok _ hq _
    exact ⟨s, rfl, hok, hq⟩
  | cons w ws ih =>
    intro s hok he hq hws
    obtain ⟨h0, h3, h6, h7⟩ := hws w (List.mem_cons_self _ _)
    obtain ⟨sD, d1, d2, d3, _, _, _, d7⟩ := do_host_word_quiet fuel s w ws hok he hq
    rw [if_neg (by simp [h3, h0]), gsw_handle_other sD w h6 h7] at d7
    obtain ⟨s', e1, e2, e3⟩ := ih sD d1 d3 d2 (fun v hv => hws v (List.mem_cons_of_mem _ hv))
    refine ⟨s', ?_, e2, e3⟩
    simp only [List.length_cons, do_host_words, d7, e1]

/-! ## Order of delivery -/

/-- C2: for every list `ws` of fewer than 5000 framed host words (start bit at
position 20, nothing above it) none of which is an LDE, AUD, EXT or
screen-erase LDM command, enqueuing them with `put_host_word` into an empty
ring with erase-abort counter 0 and then calling `do_host_word` `ws.length`
times returns exactly `ws`, in order; one further call returns the NOP word
and leaves the session as it was. The pending echo plays no part in it. -/
theorem do_host_word_fifo (s : host_session) (ws : List Nat) (fuel : Nat)
    (hempty : s.inwd_in = s.inwd_out) (hin : s.inwd_in < HOST_IN_WORDS)
    (he : s.erase_abort_count = 0) (hlen : ws.length < HOST_IN_WORDS)
    (hws : ∀ w ∈ ws, (2 ^ 20 ≤ w ∧ w < 2 ^ 21) ∧ ¬ is_command w CMD_LDE ∧
      ¬ is_command w CMD_AUD ∧ ¬ is_command w CMD_EXT ∧ is_screen_clear w = false)
    (hf : 0 < fuel) :
    ∃ s', do_host_words fuel ws.length (put_host_words s ws) = some (s', ws) ∧
      do_host_word fuel s' = some (s', NOP_WORD) := by
  obtain ⟨f, rfl⟩ : ∃ f, fuel = f + 1 := ⟨fuel - 1, by omega⟩
  have hok : ring_ok s := ⟨hin, by rw [← hempty]; exact hin⟩
  have hq0 : queued s = [] := queued_of_empty s hempty
  have hc0 : (host_word_count s).2 = 0 := by rw [← queued_length, hq0]; rfl
  have hcp : ws.countP is_screen_clear = 0 := by
    rw [List.countP_eq_zero]
    intro w hw
    simp [(hws w hw).2.2.2.2]
  obtain ⟨p1, p2, _, p4, _⟩ := put_host_words_room ws s hok (by rw [hc0]; omega)
    (by rw [hcp, he]; decide)
  rw [hq0, List.nil_append] at p2
  rw [hcp, he] at p4
  obtain ⟨s', e1, e2, e3⟩ := do_host_words_drain f ws _ p1 p4 p2
    (fun w hw => ⟨by have := (hws w hw).1.1; omega, (hws w hw).2.1, (hws w hw).2.2.1,
      (hws w hw).2.2.2.1⟩)
  exact ⟨s', e1, do_host_word_empty _ s' (indices_of_queued_nil s' e2 e3)⟩

/-- C2 at the initial session and a data word followed by an LDC command. -/
theorem do_host_word_fifo_witness :
    ∃ s', do_host_words 1 2 (put_host_words sess [0x180002, 0x12092A])
        = some (s', [0x180002, 0x12092A]) ∧
      do_host_word 1 s' = some (s', NOP_WORD) :=
  do_host_word_fifo sess [0x180002, 0x12092A] 1 (by decide) (by decide) (by decide) (by decide)
    (by decide) (by decide)

/-! ## Echo replies -/

/-- C7: when `do_host_word` dequeues an LDE command word `x` (opcode 3), the
reply key is `((x >> 1) & 0x7F) | 0x80`; if the ring depth left after the
removal exceeds XOFF1 (3333) the reply is stored in `pending_echo` and the call
sends nothing to the host, otherwise the reply key is sent at once (followed
by XON when the depth is at an XON threshold) and `pending_echo` is unset. -/
theorem do_host_word_lde_reply (fuel : Nat) (s s1 : host_session) (x : Nat)
    (hin : s.inwd_in < HOST_IN_WORDS) (hne : s.inwd_in ≠ s.inwd_out)
    (hget : get_host_word fuel s = some (s1, x)) (hx : is_command x CMD_LDE) :
    ∃ s2 w, do_host_word fuel s = some (s2, w) ∧
      (host_word_count s2).2 = (host_word_count s1).2 ∧
      ((host_word_count s1).2 > 3333 →
        s2.pending_echo = (((x >>> 1) &&& 0x7F) ||| 0x80 : Nat) ∧ s2.host_tx = s.host_tx) ∧
      ((host_word_count s1).2 ≤ 3333 →
        s2.pending_echo = -1 ∧
        s2.host_tx = s.host_tx ++ [keybuf (((x >>> 1) &&& 0x7F) ||| 0x80)] ++
          (if (host_word_count s1).2 = XON1LIMIT ∨ (host_word_count s1).2 = XON2LIMIT
            then [keybuf KEY_XON] else [])) := by
  obtain ⟨g1, _, _, _, g5, _⟩ := get_host_word_fields fuel s s1 x hin hget
  obtain ⟨sD, d1, _, d3, d4, d5⟩ := do_host_word_rest_spec s1 x g1
  rw [if_pos (Or.inl hx)] at d5
  rw [if_pos hx] at d3 d4
  have hX : XOFF1LIMIT = 3333 := by decide
  rw [hX, g5] at d4
  rw [hX] at d3
  refine ⟨sD, 0, ?_, host_word_count_of_view _ _ d1, ?_, ?_⟩
  · rw [do_host_word_of_get _ _ _ _ hne hget, d5]
  · intro hc
    rw [if_pos hc] at d3 d4
    refine ⟨d3, ?_⟩
    rw [d4]
    have : ¬ ((host_word_count s1).2 = XON1LIMIT ∨ (host_word_count s1).2 = XON2LIMIT) := by
      unfold XON1LIMIT XON2LIMIT HOST_IN_WORDS; omega
    simp [this]
  · intro hc
    rw [if_neg (by omega)] at d3 d4
    exact ⟨d3, d4⟩

/-- The session after an LDE with echo code 0x42 and 100 data words were enqueued. -/
theorem lde_state_facts :
    ring_ok (put_host_words sess (0x130084 :: List.replicate 100 0x180002)) ∧
    queued (put_host_words sess (0x130084 :: List.replicate 100 0x180002))
      = 0x130084 :: List.replicate 100 0x180002 ∧
    (put_host_words sess (0x130084 :: List.replicate 100 0x180002)).erase_abort_count = 0 ∧
    (put_host_words sess (0x130084 :: List.replicate 100 0x180002)).host_tx = [] := by
  obtain ⟨p1, p2, _, p4, _, p6, _⟩ := put_host_words_room
    (0x130084 :: List.replicate 100 0x180002) sess (by decide) (by decide) (by decide)
  exact ⟨p1, p2, p4, p6⟩

/-- C7 for echo code 0x42 dequeued at depth 100: the key 0xC2 goes out as the
bytes 0x01 0xC2 and `pending_echo` is left unset. -/
theorem do_host_word_lde_reply_witness :
    ∃ s2 w, do_host_word 1 (put_host_words sess (0x130084 :: List.replicate 100 0x180002))
        = some (s2, w) ∧ (host_word_count s2).2 = 100 ∧
      s2.pending_echo = -1 ∧ s2.host_tx = [(0x01, 0xC2)] := by
  obtain ⟨p1, p2, p4, p6⟩ := lde_state_facts
  obtain ⟨g1, g2, g3⟩ := get_host_word_quiet 0 _ _ _ p1 p4 p2
  have hc : (host_word_count { put_host_words sess (0x130084 :: List.replicate 100 0x180002) with
      inwd_out := ((put_host_words sess (0x130084 :: List.replicate 100 0x180002)).inwd_out + 1)
        % HOST_IN_WORDS }).2 = 100 := by
    rw [← queued_length, g3]; rfl
  obtain ⟨s2, w, a1, a2, _, a4⟩ := do_host_word_lde_reply 1 _ _ 0x130084 p1.1
    (queued_ne_nil_indices _ _ _ p2) g1 (by decide)
  rw [hc] at a2 a4
  obtain ⟨a5, a6⟩ := a4 (by decide)
  rw [p6] at a6
  exact ⟨s2, w, a1, a2, a5, a6⟩

/-- One `do_host_word` call on a non-empty ring, given what `get_host_word`
returned: the session `sD` handed to `gsw_handle`. -/
theorem do_host_word_step (fuel : Nat) (s s1 : host_session) (x : Nat)
    (hin : s.inwd_in < HOST_IN_WORDS) (hne : s.inwd_in ≠ s.inwd_out)
    (hget : get_host_word fuel s = some (s1, x)) :
    ∃ sD, ring_view sD = ring_view s1 ∧
      sD.current_mode = (if is_command x CMD_LDM then (x >>> 4) &&& 3 else s.current_mode) ∧
      sD.pending_echo =
        (if is_command x CMD_LDE then
          (if (host_word_count s1).2 > XOFF1LIMIT then (echo_key x : Int) else -1)
         else if (host_word_count s1).2 < XOFF1LIMIT then -1 else s.pending_echo) ∧
      sD.host_tx = s.host_tx ++
        (if is_command x CMD_LDE then
          (if (host_word_count s1).2 > XOFF1LIMIT then [] else [keybuf (echo_key x)])
         else if (host_word_count s1).2 < XOFF1LIMIT ∧ s.pending_echo ≠ -1
           then [keybuf (to_uint16 s.pending_echo)] else []) ++
        (if (host_word_count s1).2 = XON1LIMIT ∨ (host_word_count s1).2 = XON2LIMIT
          then [keybuf KEY_XON] else []) ∧
      do_host_word fuel s =
        (if is_command x CMD_LDE ∨ x = 0 then some (sD, 0) else gsw_handle sD x) := by
  obtain ⟨g1, _, _, g4, g5, g6⟩ := get_host_word_fields fuel s s1 x hin hget
  obtain ⟨sD, d1, d2, d3, d4, d5⟩ := do_host_word_rest_spec s1 x g1
  rw [g4] at d3 d4
  rw [g5] at d4
  rw [g6] at d2
  exact ⟨sD, d1, d2, d3, d4, by rw [do_host_word_of_get _ _ _ _ hne hget, d5]⟩

/-- The session and the word a `do_host_word` call on a non-empty ring returns. -/
theorem do_host_word_result (fuel : Nat) (s s1 s2 : host_session) (x w : Nat)
    (hin : s.inwd_in < HOST_IN_WORDS) (hne : s.inwd_in ≠ s.inwd_out)
    (hget : get_host_word fuel s = some (s1, x))
    (hdo : do_host_word fuel s = some (s2, w)) :
    ring_view s2 = ring_view s1 ∧
      s2.pending_echo =
        (if is_command x CMD_LDE then
          (if (host_word_count s1).2 > XOFF1LIMIT then (echo_key x : Int) else -1)
         else if (host_word_count s1).2 < XOFF1LIMIT then -1 else s.pending_echo) ∧
      s2.host_tx = s.host_tx ++
        (if is_command x CMD_LDE then
          (if (host_word_count s1).2 > XOFF1LIMIT then [] else [keybuf (echo_key x)])
         else if (host_word_count s1).2 < XOFF1LIMIT ∧ s.pending_echo ≠ -1
           then [keybuf (to_uint16 s.pending_echo)] else []) ++
        (if (host_word_count s1).2 = XON1LIMIT ∨ (host_word_count s1).2 = XON2LIMIT
          then [keybuf KEY_XON] else []) ∧
      w = (if is_command x CMD_LDE ∨ x = 0 then 0
           else if is_command x CMD_AUD ∨ is_command x CMD_EXT then NOP_WORD else x) := by
  obtain ⟨sD, d1, _, d3, d4, d5⟩ := do_host_word_step fuel s s1 x hin hne hget
  rw [hdo] at d5
  by_cases hc : is_command x CMD_LDE ∨ x = 0
  · rw [if_pos hc] at d5
    simp only [Option.some.injEq, Prod.mk.injEq] at d5
    obtain ⟨e1, e2⟩ := d5
    subst e1 e2
    exact ⟨d1, d3, d4, by rw [if_pos hc]⟩
  · rw [if_neg hc] at d5
    obtain ⟨f1, _, f3, f4, f5⟩ := gsw_handle_fields sD s2 x w d5.symm
    exact ⟨f1.trans d1, by rw [f3, d3], by rw [f4, d4], by rw [if_neg hc]; exact f5⟩

/-- C8, amended: for every LDE command word dequeued, whether its reply is sent
at once or deferred, the word `do_host_word` returns is 0, a word without
start bit; it is not the NOP word `04000003` (`0x100003`) that is returned for
an empty ring and for intercepted GSW commands. -/
theorem do_host_word_lde_returns_zero (fuel : Nat) (s s1 : host_session) (x : Nat)
    (hin : s.inwd_in < HOST_IN_WORDS) (hne : s.inwd_in ≠ s.inwd_out)
    (hget : get_host_word fuel s = some (s1, x)) (hx : is_command x CMD_LDE) :
    (∃ s2, do_host_word fuel s = some (s2, 0)) ∧ NOP_WORD = 0x100003 ∧ (0 : Nat) ≠ NOP_WORD := by
  obtain ⟨sD, _, _, _, _, d5⟩ := do_host_word_step fuel s s1 x hin hne hget
  rw [if_pos (Or.inl hx)] at d5
  exact ⟨⟨sD, d5⟩, by decide, by decide⟩

/-- C8, amended, at a ring holding one LDE word. -/
theorem do_host_word_lde_returns_zero_witness :
    (∃ s2, do_host_word 1 (put_host_words sess [0x130084]) = some (s2, 0)) ∧
      NOP_WORD = 0x100003 ∧ (0 : Nat) ≠ NOP_WORD :=
  do_host_word_lde_returns_zero 1 (put_host_words sess [0x130084])
    { put_host_words sess [0x130084] with inwd_out := 1 } 0x130084
    (by decide) (by decide) (by rfl) (by decide)

/-- C8 fails as stated: a dequeued LDE makes `do_host_word` return 0, while the
empty ring and a dequeued AUD command both give the NOP word `0x100003`. -/
theorem do_host_word_lde_not_nop :
    (do_host_word 1 (put_host_words sess [0x130084])).map Prod.snd = some 0 ∧
    (do_host_word 1 sess).map Prod.snd = some NOP_WORD ∧
    (do_host_word 1 (put_host_words sess [0x160084])).map Prod.snd = some NOP_WORD ∧
    NOP_WORD = 0x100003 := by
  decide

/-- C9, amended: in a `do_host_word` call that dequeues the word `x` and leaves
ring depth `n`, the echo part of what is sent to the host is: for an LDE `x`,
its own reply, sent in that call when `n <= 3333` and otherwise stored in
`pending_echo`, a reply that was pending before being dropped unsent in both
cases; for any other `x`, the pending reply, sent (and `pending_echo` unset)
exactly when `n < 3333`, and otherwise kept pending. So a reply is sent at most
once, and a deferred reply is sent only if no other LDE is dequeued before the
depth first falls below 3333. -/
theorem do_host_word_echo_step (fuel : Nat) (s s1 s2 : host_session) (x w : Nat)
    (hin : s.inwd_in < HOST_IN_WORDS) (hne : s.inwd_in ≠ s.inwd_out)
    (hget : get_host_word fuel s = some (s1, x))
    (hdo : do_host_word fuel s = some (s2, w)) :
    ∃ echo_tx : List (Nat × Nat),
      s2.host_tx = s.host_tx ++ echo_tx ++
        (if (host_word_count s2).2 = XON1LIMIT ∨ (host_word_count s2).2 = XON2LIMIT
          then [keybuf KEY_XON] else []) ∧
      (is_command x CMD_LDE → (host_word_count s2).2 > 3333 →
        echo_tx = [] ∧ s2.pending_echo = (echo_key x : Int)) ∧
      (is_command x CMD_LDE → (host_word_count s2).2 ≤ 3333 →
        echo_tx = [keybuf (echo_key x)] ∧ s2.pending_echo = -1) ∧
      (¬ is_command x CMD_LDE → (host_word_count s2).2 < 3333 → s.pending_echo ≠ -1 →
        echo_tx = [keybuf (to_uint16 s.pending_echo)] ∧ s2.pending_echo = -1) ∧
      (¬ is_command x CMD_LDE → ¬ ((host_word_count s2).2 < 3333 ∧ s.pending_echo ≠ -1) →
        echo_tx = [] ∧ s2.pending_echo = s.pending_echo) := by
  obtain ⟨r1, r2, r3, _⟩ := do_host_word_result fuel s s1 s2 x w hin hne hget hdo
  have hc := host_word_count_of_view _ _ r1
  rw [← hc] at r2 r3
  have hX : XOFF1LIMIT = 3333 := by decide
  rw [hX] at r2 r3
  refine ⟨_, r3, ?_, ?_, ?_, ?_⟩
  · intro hx hn
    rw [if_pos hx, if_pos hn] at r2
    rw [if_pos hx, if_pos hn]
    exact ⟨rfl, r2⟩
  · intro hx hn
    rw [if_pos hx, if_neg (by omega)] at r2
    rw [if_pos hx, if_neg (by omega)]
    exact ⟨rfl, r2⟩
  · intro hx hn hp
    rw [if_neg hx, if_pos hn] at r2
    rw [if_neg hx, if_pos ⟨hn, hp⟩]
    exact ⟨rfl, r2⟩
  · intro hx hn
    rw [if_neg hx] at r2
    rw [if_neg hx, if_neg hn]
    refine ⟨rfl, ?_⟩
    rw [r2]
    split_ifs with h1
    · by_contra hp
      exact hn ⟨h1, fun e => hp e.symm⟩
    · rfl

/-- A ring holding one LDE word: the call that dequeues it returns. -/
theorem lde_single_run :
    ∃ s2, do_host_word 1 (put_host_words sess [0x130084]) = some (s2, 0) := by
  obtain ⟨sD, _, _, _, _, d5⟩ := do_host_word_step 1 (put_host_words sess [0x130084])
    { put_host_words sess [0x130084] with inwd_out := 1 } 0x130084
    (by decide) (by decide) (by rfl)
  rw [if_pos (Or.inl (by decide))] at d5
  exact ⟨sD, d5⟩

/-- C9, amended, at a ring holding one LDE word. -/
theorem do_host_word_echo_step_witness :
    ∃ s2 : host_session, do_host_word 1 (put_host_words sess [0x130084]) = some (s2, 0) ∧
      ∃ echo_tx : List (Nat × Nat),
        s2.host_tx = (put_host_words sess [0x130084]).host_tx ++ echo_tx ++
          (if (host_word_count s2).2 = XON1LIMIT ∨ (host_word_count s2).2 = XON2LIMIT
            then [keybuf KEY_XON] else []) ∧
        (is_command 0x130084 CMD_LDE → (host_word_count s2).2 ≤ 3333 →
          echo_tx = [keybuf (echo_key 0x130084)] ∧ s2.pending_echo = -1) := by
  obtain ⟨s2, h2⟩ := lde_single_run
  obtain ⟨tx, a1, _, a3, _, _⟩ := do_host_word_echo_step 1 (put_host_words sess [0x130084])
    { put_host_words sess [0x130084] with inwd_out := 1 } s2 0x130084 0
    (by decide) (by decide) (by rfl) h2
  exact ⟨s2, h2, tx, a1, a3⟩

/-- The session after two LDE words (echo codes 0x41, 0x42) and 3333 data
words were enqueued. -/
theorem two_lde_state_facts :
    ring_ok (put_host_words sess (0x130082 :: 0x130084 :: List.replicate 3333 0x180002)) ∧
    queued (put_host_words sess (0x130082 :: 0x130084 :: List.replicate 3333 0x180002))
      = 0x130082 :: 0x130084 :: List.replicate 3333 0x180002 ∧
    (put_host_words sess
      (0x130082 :: 0x130084 :: List.replicate 3333 0x180002)).erase_abort_count = 0 ∧
    (put_host_words sess (0x130082 :: 0x130084 :: List.replicate 3333 0x180002)).host_tx = [] ∧
    (put_host_words sess
      (0x130082 :: 0x130084 :: List.replicate 3333 0x180002)).pending_echo = -1 := by
  have hcp : (0x130082 :: 0x130084 :: List.replicate 3333 0x180002).countP is_screen_clear
      = 0 := by
    rw [List.countP_eq_zero]
    intro w hw
    simp only [List.mem_cons, List.mem_replicate] at hw
    rcases hw with rfl | rfl | ⟨_, rfl⟩ <;> decide
  obtain ⟨p1, p2, _, p4, p5, p6, _⟩ := put_host_words_room
    (0x130082 :: 0x130084 :: List.replicate 3333 0x180002) sess (by decide)
    (by rw [List.length_cons, List.length_cons, List.length_replicate]; decide)
    (by rw [hcp]; decide)
  rw [hcp] at p4
  exact ⟨p1, p2, p4, p6, p5⟩

/-- C9 fails as stated: the reply 0xC1 of the first LDE is deferred at depth
3334; the second LDE, dequeued at depth 3333, sends its own reply 0xC2 and
unsets `pending_echo`; the next call leaves depth 3332, below XOFF1, and sends
nothing: the reply 0xC1 is never sent. -/
theorem echo_reply_lost :
    ∃ s1 s2 s3 : host_session,
      do_host_word 1 (put_host_words sess (0x130082 :: 0x130084 :: List.replicate 3333 0x180002))
        = some (s1, 0) ∧
      (host_word_count s1).2 = 3334 ∧ s1.pending_echo = 0xC1 ∧ s1.host_tx = [] ∧
      do_host_word 1 s1 = some (s2, 0) ∧
      (host_word_count s2).2 = 3333 ∧ s2.pending_echo = -1 ∧ s2.host_tx = [keybuf 0xC2] ∧
      do_host_word 1 s2 = some (s3, 0x180002) ∧
      (host_word_count s3).2 = 3332 ∧ s3.pending_echo = -1 ∧ s3.host_tx = [keybuf 0xC2] := by
  obtain ⟨p1, p2, p4, p6, p5⟩ := two_lde_state_facts
  have hX : XOFF1LIMIT = 3333 := by decide
  have hX1 : XON1LIMIT = 1666 := by decide
  have hX2 : XON2LIMIT = 1250 := by decide
  have hl1 : (0x130084 :: List.replicate 3333 0x180002).length = 3334 := by
    rw [List.length_cons, List.length_replicate]
  have hl2 : (List.replicate 3333 0x180002).length = 3333 := List.length_replicate _ _
  have hl3 : (List.replicate 3332 0x180002).length = 3332 := List.length_replicate _ _
  obtain ⟨s1, a1, a2, a3, _, a5, a6, a7⟩ := do_host_word_quiet 0 _ _ _ p1 p4 p2
  rw [if_pos (by decide), hl1, hX] at a5
  rw [if_pos (by decide), hl1, hX, hX1, hX2, p6] at a6
  rw [if_pos (Or.inl (by decide))] at a7
  obtain ⟨s2, b1, b2, b3, _, b5, b6, b7⟩ := do_host_word_quiet 0 s1 _ _ a1 a3 a2
  rw [if_pos (by decide), hl2, hX] at b5
  rw [if_pos (by decide), hl2, hX, hX1, hX2, a6] at b6
  rw [if_pos (Or.inl (by decide))] at b7
  have hq3 : queued s2 = 0x180002 :: List.replicate 3332 0x180002 := by rw [b2]; rfl
  obtain ⟨s3, c1, c2, c3, _, c5, c6, c7⟩ := do_host_word_quiet 0 s2 _ _ b1 b3 hq3
  rw [if_neg (by decide), hl3, hX] at c5
  rw [if_neg (by decide), hl3, hX, hX1, hX2, b5, b6] at c6
  rw [if_neg (by decide), gsw_handle_other _ _ (by decide) (by decide)] at c7
  refine ⟨s1, s2, s3, a7, ?_, ?_, ?_, b7, ?_, ?_, ?_, c7, ?_, ?_, ?_⟩
  · rw [← queued_length, a2, hl1]
  · rw [a5]; rfl
  · rw [a6]; rfl
  · rw [← queued_length, b2, hl2]
  · rw [b5]; rfl
  · rw [b6]; rfl
  · rw [← queued_length, c2, hl3]
  · rw [c5]; rfl
  · rw [c6]; rfl

/-! ## XON -/

theorem countP_replicate_data (n : Nat) :
    (List.replicate n 0x180002).countP is_screen_clear = 0 := by
  rw [List.countP_eq_zero]
  intro w hw
  rw [List.mem_replicate] at hw
  obtain ⟨_, rfl⟩ := hw
  decide

/-- In every reachable session both ring indices are below 5000, so
`host_word_count` does not take its recovery branch. -/
theorem reachable_ring_ok (s : host_session) (h : reachable s) :
    ring_ok s ∧ 0 ≤ host_word_diff s := by
  have key : ring_ok s := by
    induction h with
    | init => decide
    | put s w _ ih =>
      refine ⟨?_, ?_⟩
      · rw [put_host_word_inwd_in s w ih]
        split_ifs
        · exact ih.1
        · exact Nat.mod_lt _ (by decide)
      · rw [put_host_word_inwd_out]; exact ih.2
    | dequeue fuel s s' w _ hdo ih =>
      by_cases hne : s.inwd_in = s.inwd_out
      · rw [do_host_word_empty fuel s hne] at hdo
        simp only [Option.some.injEq, Prod.mk.injEq] at hdo
        rw [← hdo.1]; exact ih
      · cases hget : get_host_word fuel s with
        | none =>
          unfold do_host_word at hdo
          rw [if_neg hne, hget] at hdo
          cases hdo
        | some r =>
          obtain ⟨s1, x⟩ := r
          obtain ⟨g1, _⟩ := get_host_word_fields fuel s s1 x ih.1 hget
          obtain ⟨r1, _⟩ := do_host_word_result fuel s s1 s' x w ih.1 hne hget hdo
          exact ring_ok_of_view s1 s' r1 g1
    | stop s _ ih => exact ⟨ih.1, ih.1⟩
  exact ⟨key, host_word_diff_nonneg s key⟩

theorem reachable_put_host_words (ws : List Nat) :
    ∀ s : host_session, reachable s → reachable (put_host_words s ws) := by
  induction ws with
  | nil => intro s h; exact h
  | cons w ws ih => intro s h; exact ih _ (reachable.put s w h)

/-! ## Overflow with a screen erase -/

theorem queued_congr (s s' : host_session) (h1 : s'.inwds = s.inwds)
    (h2 : s'.inwd_in = s.inwd_in) (h3 : s'.inwd_out = s.inwd_out) : queued s' = queued s := by
  unfold queued host_word_count host_word_diff
  rw [h1, h2, h3]
  simp only
  split_ifs <;> rfl

/-- The session after 4999 data words were enqueued, and the same session
after a screen-erase LDM was then offered to the full ring. -/
theorem full_ring_facts :
    ring_ok (put_host_words sess (List.replicate 4999 0x180002)) ∧
    queued (put_host_words sess (List.replicate 4999 0x180002))
      = List.replicate 4999 0x180002 ∧
    (host_word_count (put_host_words sess (List.replicate 4999 0x180002))).2 = 4999 ∧
    ring_ok (put_host_word (put_host_words sess (List.replicate 4999 0x180002)) 0x110002) ∧
    queued (put_host_word (put_host_words sess (List.replicate 4999 0x180002)) 0x110002)
      = List.replicate 4999 0x180002 ∧
    (put_host_word (put_host_words sess (List.replicate 4999 0x180002)) 0x110002).inwd_in
      = (put_host_words sess (List.replicate 4999 0x180002)).inwd_in ∧
    (put_host_word (put_host_words sess (List.replicate 4999 0x180002)) 0x110002).erase_abort_count
      = 1 ∧
    (put_host_word (put_host_words sess (List.replicate 4999 0x180002)) 0x110002).current_mode
      = 0 := by
  obtain ⟨p1, p2, p3, p4, _, _, p7⟩ := put_host_words_room
    (List.replicate 4999 0x180002) sess (by decide)
    (by rw [List.length_replicate]; decide) (by rw [countP_replicate_data]; decide)
  have hq0 : queued sess = [] := queued_of_empty sess rfl
  have hc0 : (host_word_count sess).2 = 0 := by rw [← queued_length, hq0]; rfl
  have he0 : sess.erase_abort_count = 0 := rfl
  rw [countP_replicate_data, he0] at p4
  rw [List.length_replicate, hc0] at p3
  rw [hq0, List.nil_append] at p2
  have p3' : (host_word_count (put_host_words sess (List.replicate 4999 0x180002))).2
      = 4999 := p3
  obtain ⟨q1, q2, q3⟩ := put_host_word_full _ 0x110002 p1 p3'
  have q4 := put_host_word_erase_abort_count
    (put_host_words sess (List.replicate 4999 0x180002)) 0x110002
  rw [if_pos (by decide), p4] at q4
  obtain ⟨_, _, q7⟩ := put_host_word_frame
    (put_host_words sess (List.replicate 4999 0x180002)) 0x110002
  exact ⟨p1, p2, p3', q1, by rw [q2, p2], q3, q4, by rw [q7, p7]; rfl⟩

/-- C4 at its failing input, a reachable session: 4999 data words fill the ring
and a screen-erase LDM is then offered to `put_host_word`. The word is dropped
(the queue is still the 4999 data words, none of them a screen erase) but
`erase_abort_count` has been incremented to 1. -/
theorem erase_abort_count_after_overflow :
    reachable (put_host_word (put_host_words sess (List.replicate 4999 0x180002)) 0x110002) ∧
    (host_word_count (put_host_words sess (List.replicate 4999 0x180002))).2 = 4999 ∧
    queued (put_host_word (put_host_words sess (List.replicate 4999 0x180002)) 0x110002)
      = List.replicate 4999 0x180002 ∧
    (queued (put_host_word (put_host_words sess (List.replicate 4999 0x180002))
      0x110002)).countP is_screen_clear = 0 ∧
    (put_host_word (put_host_words sess (List.replicate 4999 0x180002)) 0x110002).erase_abort_count
      = 1 := by
  obtain ⟨_, _, p3, _, q2, _, q4, _⟩ := full_ring_facts
  refine ⟨reachable.put _ _ (reachable_put_host_words _ _ reachable.init), p3, q2, ?_, q4⟩
  rw [q2]
  exact countP_replicate_data 4999

/-- A screen-erase LDM offered to a ring that is full of abortable data words
is dropped, yet the next `do_host_word` call scans the whole ring and returns
it, leaving all 4999 slots queued again. -/
theorem do_host_word_after_dropped_erase (s1 : host_session) (p1 : ring_ok s1)
    (p2 : queued s1 = List.replicate 4999 0x180002)
    (p4 : s1.erase_abort_count = 0) (p7 : s1.current_mode = 0) :
    ∃ s3 : host_session,
      (host_word_count (put_host_word s1 0x110002)).2 = 4999 ∧
      do_host_word 5000 (put_host_word s1 0x110002) = some (s3, 0x110002) ∧
      (host_word_count s3).2 = 4999 ∧ queued s3 = List.replicate 4999 0x180002 := by
  have p3 : (host_word_count s1).2 = 4999 := by
    rw [← queued_length, p2, List.length_replicate]
  obtain ⟨q1, q2, q3⟩ := put_host_word_full s1 0x110002 p1 p3
  rw [p2] at q2
  have q4 := put_host_word_erase_abort_count s1 0x110002
  rw [if_pos (by decide), p4] at q4
  obtain ⟨_, _, q7⟩ := put_host_word_frame s1 0x110002
  rw [p7] at q7
  have qw := put_host_word_inwds s1 0x110002
  have qo := put_host_word_inwd_out s1 0x110002
  have hc2 : (host_word_count (put_host_word s1 0x110002)).2 = 4999 := by
    rw [← queued_length, q2, List.length_replicate]
  have p3n : (s1.inwd_in + 5000 - s1.inwd_out) % 5000 = 4999 := by
    have e := host_word_count_of_ok s1 p1
    rw [e] at p3
    exact p3
  have h1 : s1.inwd_in < 5000 := p1.1
  have h2 : s1.inwd_out < 5000 := p1.2
  have hin : s1.inwd_in = (s1.inwd_out + 4999) % HOST_IN_WORDS := by
    show s1.inwd_in = (s1.inwd_out + 4999) % 5000
    omega
  have hrw : ring_words (put_host_word s1 0x110002).inwds (put_host_word s1 0x110002).inwd_out
      5000 = List.replicate 4999 0x180002 ++ 0x110002 :: [] := by
    rw [qw, qo, ring_words_update _ _ _ 4999 _ p1.2 (by decide) hin, ← p2, queued_eq s1 p1]
    show _ = ring_words s1.inwds s1.inwd_out ((s1.inwd_in + 5000 - s1.inwd_out) % 5000) ++ _
    rw [p3n]
  have hab : ∀ w, is_abortable_command (put_host_word s1 0x110002) w
      = is_abortable_command sess w :=
    fun w => is_abortable_command_congr _ _ w q7
  obtain ⟨l1, _⟩ := get_host_word_loop_abort 0x110002 [] (List.replicate 4999 0x180002)
    (put_host_word s1 0x110002) (put_host_word s1 0x110002).inwd_out 5000 5000 q1.2
    (by rw [q4]; decide) hrw
    (by intro a ha
        rw [List.mem_replicate] at ha
        obtain ⟨_, rfl⟩ := ha
        rw [hab]; decide)
    (by rw [hab]; decide) (by rw [List.length_replicate]; decide)
  have hidx : ((put_host_word s1 0x110002).inwd_out + (List.replicate 4999 0x180002).length + 1)
      % HOST_IN_WORDS = (put_host_word s1 0x110002).inwd_out := by
    rw [List.length_replicate, qo]
    show (s1.inwd_out + 4999 + 1) % 5000 = s1.inwd_out
    omega
  rw [hidx, if_pos (by decide)] at l1
  have hget : get_host_word 5000 (put_host_word s1 0x110002)
      = some ({ put_host_word s1 0x110002 with
                erase_abort_count := (put_host_word s1 0x110002).erase_abort_count - 1 },
              0x110002) := by
    unfold get_host_word
    rw [l1]
  have hne : (put_host_word s1 0x110002).inwd_in ≠ (put_host_word s1 0x110002).inwd_out := by
    intro h
    have := queued_of_empty _ h
    rw [q2] at this
    cases this
  obtain ⟨sD, d1, _, _, _, d5⟩ := do_host_word_step 5000 _ _ _ q1.1 hne hget
  rw [if_neg (by decide), gsw_handle_other _ _ (by decide) (by decide)] at d5
  obtain ⟨v1, v2, v3, _⟩ := (ring_view_eq_iff _ _).1 d1
  have hq : queued sD = queued (put_host_word s1 0x110002) := queued_congr _ sD v1 v2 v3
  refine ⟨sD, hc2, d5, ?_, by rw [hq, q2]⟩
  rw [← queued_length, hq, q2, List.length_replicate]

/-- C3 at its failing input: after 4999 data words and a dropped screen-erase
LDM, `host_word_count` is 4999; one `do_host_word` call then returns the
dropped word, having passed over every queued word, and in the session it
reaches `host_word_count` is 4999 again with the same 4999 words queued,
although the call removed words and nothing was enqueued. -/
theorem host_word_count_after_overflow :
    ∃ s3 : host_session, reachable s3 ∧
      (host_word_count (put_host_word (put_host_words sess (List.replicate 4999 0x180002))
        0x110002)).2 = 4999 ∧
      do_host_word 5000 (put_host_word (put_host_words sess (List.replicate 4999 0x180002))
        0x110002) = some (s3, 0x110002) ∧
      (host_word_count s3).2 = 4999 ∧ queued s3 = List.replicate 4999 0x180002 := by
  obtain ⟨p1, p2, _, p4, _, _, p7⟩ := put_host_words_room
    (List.replicate 4999 0x180002) sess (by decide)
    (by rw [List.length_replicate]; decide) (by rw [countP_replicate_data]; decide)
  have hq0 : queued sess = [] := queued_of_empty sess rfl
  have he0 : sess.erase_abort_count = 0 := rfl
  have hm0 : sess.current_mode = 0 := rfl
  rw [countP_replicate_data, he0] at p4
  rw [hq0, List.nil_append] at p2
  rw [hm0] at p7
  obtain ⟨s3, a1, a2, a3, a4⟩ := do_host_word_after_dropped_erase _ p1 p2 p4 p7
  exact ⟨s3, reachable.dequeue 5000 _ s3 _
    (reachable.put _ _ (reachable_put_host_words _ _ reachable.init)) a2, a1, a2, a3, a4⟩

/-! ## XOFF -/

theorem host_poll_enqueue_fields (s : host_session) (w : Nat) (hok : ring_ok s) :
    ring_view (host_poll_enqueue s w) = ring_view (put_host_word s w) ∧
    (host_poll_enqueue s w).pending_echo = s.pending_echo ∧
    (host_poll_enqueue s w).host_tx = s.host_tx ++
      (if (host_word_count (put_host_word s w)).2 = XOFF1LIMIT ∨
          (host_word_count (put_host_word s w)).2 = XOFF2LIMIT
        then [keybuf KEY_XOFF] else []) := by
  have hok' : ring_ok (put_host_word s w) := by
    refine ⟨?_, ?_⟩
    · rw [put_host_word_inwd_in s w hok]
      split_ifs
      · exact hok.1
      · exact Nat.mod_lt _ (by decide)
    · rw [put_host_word_inwd_out]; exact hok.2
  have hlt := count_lt _ hok'
  have hmod : (host_word_count (put_host_word s w)).2 % 4294967296
      = (host_word_count (put_host_word s w)).2 := by
    apply Nat.mod_eq_of_lt
    unfold HOST_IN_WORDS at hlt
    omega
  obtain ⟨f1, f2, _⟩ := put_host_word_frame s w
  unfold host_poll_enqueue
  simp only [hmod, host_word_count_fst _ hok']
  split_ifs with h
  · exact ⟨rfl, f1, by show (put_host_word s w).host_tx ++ _ = _; rw [f2]⟩
  · exact ⟨rfl, f1, by rw [f2]; simp⟩

/-- C11: in the enqueue step of `host_poll` on a ring whose indices are in
range, the depth goes up by one unless the ring already holds 4999 words, in
which case the word is dropped and the queue is unchanged; XOFF (key 0x387) is
sent exactly when the step raises the depth to XOFF1 (3333) or to XOFF2
(3750), and nothing is sent to the host otherwise. -/
theorem host_poll_enqueue_xoff (s : host_session) (w : Nat) (hok : ring_ok s) :
    ((host_word_count s).2 < 4999 →
      (host_word_count (host_poll_enqueue s w)).2 = (host_word_count s).2 + 1) ∧
    ((host_word_count s).2 = 4999 →
      (host_word_count (host_poll_enqueue s w)).2 = 4999 ∧
      queued (host_poll_enqueue s w) = queued s) ∧
    (host_poll_enqueue s w).host_tx = s.host_tx ++
      (if (host_word_count (host_poll_enqueue s w)).2 = (host_word_count s).2 + 1 ∧
          ((host_word_count (host_poll_enqueue s w)).2 = 3333 ∨
           (host_word_count (host_poll_enqueue s w)).2 = 3750)
        then [keybuf KEY_XOFF] else []) ∧
    KEY_XOFF = 0x387 := by
  obtain ⟨e1, _, e3⟩ := host_poll_enqueue_fields s w hok
  have hc := host_word_count_of_view _ _ e1
  have hq := queued_of_view _ _ e1
  have hlt := count_lt s hok
  have hX : (XOFF1LIMIT = 3333) ∧ (XOFF2LIMIT = 3750) := by decide
  rw [← hc, hX.1, hX.2] at e3
  by_cases hfull : (host_word_count s).2 < 4999
  · obtain ⟨_, _, p3⟩ := put_host_word_room s w hok hfull
    rw [← hc] at p3
    refine ⟨fun _ => p3, fun h => by omega, ?_, by decide⟩
    rw [e3]
    congr 1
    simp only [p3, true_and]
  · have h49 : (host_word_count s).2 = 4999 := by
      unfold HOST_IN_WORDS at hlt; omega
    obtain ⟨_, q2, _⟩ := put_host_word_full s w hok h49
    have hc' : (host_word_count (host_poll_enqueue s w)).2 = 4999 := by
      rw [← queued_length, hq, q2, queued_length, h49]
    refine ⟨fun h => absurd h hfull, fun _ => ⟨hc', by rw [hq, q2]⟩, ?_, by decide⟩
    rw [e3, hc', h49]
    simp

/-- The session after 3332 data words were enqueued. -/
theorem below_xoff_facts :
    ring_ok (put_host_words sess (List.replicate 3332 0x180002)) ∧
    (host_word_count (put_host_words sess (List.replicate 3332 0x180002))).2 = 3332 ∧
    (put_host_words sess (List.replicate 3332 0x180002)).host_tx = [] := by
  obtain ⟨p1, _, p3, _, _, p6, _⟩ := put_host_words_room
    (List.replicate 3332 0x180002) sess (by decide)
    (by rw [List.length_replicate]; decide) (by rw [countP_replicate_data]; decide)
  have hc0 : (host_word_count sess).2 = 0 := by decide
  rw [List.length_replicate, hc0] at p3
  exact ⟨p1, p3, p6⟩

/-- C11 at the enqueue that raises the depth from 3332 to 3333. -/
theorem host_poll_enqueue_xoff_witness :
    (host_word_count (host_poll_enqueue
      (put_host_words sess (List.replicate 3332 0x180002)) 0x180002)).2 = 3333 ∧
    (host_poll_enqueue (put_host_words sess (List.replicate 3332 0x180002)) 0x180002).host_tx
      = [(0x07, 0x87)] := by
  obtain ⟨p1, p3, p6⟩ := below_xoff_facts
  obtain ⟨a1, _, a3, _⟩ := host_poll_enqueue_xoff
    (put_host_words sess (List.replicate 3332 0x180002)) 0x180002 p1
  have a1' := a1 (by rw [p3]; decide)
  rw [p3] at a1'
  refine ⟨a1', ?_⟩
  rw [a3, a1', p3, p6]
  rfl

/-! ## Key and word transmission -/

set_option maxRecDepth 100000 in
theorem keybuf_table : ∀ k, k < 1024 →
    keybuf k = (k >>> 7, 0x80 ||| (k &&& 0x7F)) ∧
    (k >>> 7) &&& 0x80 = 0 ∧ (0x80 ||| (k &&& 0x7F)) &&& 0x80 = 0x80 ∧
    ((k >>> 7) <<< 7) ||| ((0x80 ||| (k &&& 0x7F)) &&& 0x7F) = k := by
  decide

/-- C16: for every key code `k < 1024`, `send_key` hands exactly the two bytes
`k >> 7` and `0x80 | (k & 0x7F)` to `send()` and changes nothing else; the
first byte has its MSB clear, the second has it set, `k` is recovered as
`(b0 << 7) | (b1 & 0x7F)`, and distinct key codes give distinct byte pairs. -/
theorem send_key_bytes (s : host_session) (k : Nat) (hk : k < 1024) :
    send_key s k = { s with host_tx := s.host_tx ++ [(k >>> 7, 0x80 ||| (k &&& 0x7F))] } ∧
    (k >>> 7) &&& 0x80 = 0 ∧ (0x80 ||| (k &&& 0x7F)) &&& 0x80 = 0x80 ∧
    ((k >>> 7) <<< 7) ||| ((0x80 ||| (k &&& 0x7F)) &&& 0x7F) = k ∧
    (∀ k', k' < 1024 → keybuf k' = keybuf k → k' = k) := by
  obtain ⟨t1, t2, t3, t4⟩ := keybuf_table k hk
  refine ⟨?_, t2, t3, t4, ?_⟩
  · unfold send_key
    rw [t1]
  · intro k' hk' he
    obtain ⟨u1, _, _, u4⟩ := keybuf_table k' hk'
    rw [u1, t1] at he
    simp only [Prod.mk.injEq] at he
    rw [← u4, ← t4, he.1, he.2]

/-- C16 at the XON key 0x386, sent as the bytes 0x07 0x86. -/
theorem send_key_bytes_witness :
    send_key sess 0x386 = { sess with host_tx := sess.host_tx ++ [(0x07, 0x86)] } :=
  (send_key_bytes sess 0x386 (by omega)).1

set_option maxRecDepth 100000 in
theorem and_0x80_of_lt : ∀ x, x < 256 → (x &&& 0x80 ≠ 0 ↔ 128 ≤ x) := by decide

theorem bytes_or (a b c : Nat) (hb : b < 256) (hc : c < 256) :
    (a <<< 16) ||| (b <<< 8) ||| c = a * 65536 + b * 256 + c := by
  have h1 : (a <<< 16) ||| (b <<< 8) = 2 ^ 16 * a + b <<< 8 := by
    rw [Nat.shiftLeft_eq a 16, Nat.mul_comm a (2 ^ 16)]
    exact (Nat.mul_add_lt_is_or (by rw [Nat.shiftLeft_eq]; omega) a).symm
  have h2 : 2 ^ 16 * a + b <<< 8 = 2 ^ 8 * (256 * a + b) := by
    rw [Nat.shiftLeft_eq]; omega
  rw [h1, h2, ← Nat.mul_add_lt_is_or (by omega : c < 2 ^ 8)]
  omega

/-- C19: for every word `w < 2^21` the six bytes `send_word` transmits are the
three most significant bytes of the 32-bit value `w << 11`, most significant
first, followed by three zero bytes; `w = ((b0 << 16) | (b1 << 8) | b2) >> 3`,
the low three bits of `b2` are zero, and `b0` has its MSB set exactly when `w`
has bit 20 (the start bit) set. -/
theorem send_word_bytes_layout (w : Nat) (hw : w < 2 ^ 21) :
    ∃ b0 b1 b2, (∀ (s : host_session) (rx : Nat → Nat),
        (send_word s w rx).2 = [b0, b1, b2, 0, 0, 0]) ∧
      b0 = ((w <<< 11) >>> 24) % 256 ∧ b1 = ((w <<< 11) >>> 16) % 256 ∧
      b2 = ((w <<< 11) >>> 8) % 256 ∧ w <<< 11 < 2 ^ 32 ∧
      w = ((b0 <<< 16) ||| (b1 <<< 8) ||| b2) >>> 3 ∧
      b2 &&& 7 = 0 ∧
      (b0 &&& 0x80 ≠ 0 ↔ (w >>> 20) &&& 1 = 1) := by
  have hs : w <<< 11 = w * 2048 := by rw [Nat.shiftLeft_eq]
  have hlt : w <<< 11 < 2 ^ 32 := by rw [hs]; omega
  have hmod : (w <<< 11) % 4294967296 = w <<< 11 := Nat.mod_eq_of_lt hlt
  have h7 : ∀ x : Nat, x &&& 7 = x % 2 ^ 3 := fun x => Nat.and_pow_two_sub_one_eq_mod x 3
  have h1 : ∀ x : Nat, x &&& 1 = x % 2 ^ 1 := fun x => Nat.and_pow_two_sub_one_eq_mod x 1
  refine ⟨((w <<< 11) >>> 24) % 256, ((w <<< 11) >>> 16) % 256, ((w <<< 11) >>> 8) % 256,
    ?_, rfl, rfl, rfl, hlt, ?_, ?_, ?_⟩
  · intro s rx
    unfold send_word send_word_bytes
    simp only [hmod]
  · rw [bytes_or _ _ _ (Nat.mod_lt _ (by decide)) (Nat.mod_lt _ (by decide)), hs]
    simp only [Nat.shiftRight_eq_div_pow]
    omega
  · rw [h7, hs, Nat.shiftRight_eq_div_pow]
    omega
  · rw [and_0x80_of_lt _ (Nat.mod_lt _ (by decide)), h1, hs]
    simp only [Nat.shiftRight_eq_div_pow]
    omega

/-- C19 at the NOP word `0x100003`. -/
theorem send_word_bytes_layout_witness :
    ∃ b0 b1 b2, (∀ (s : host_session) (rx : Nat → Nat),
        (send_word s 0x100003 rx).2 = [b0, b1, b2, 0, 0, 0]) ∧
      0x100003 = ((b0 <<< 16) ||| (b1 <<< 8) ||| b2) >>> 3 ∧ b0 &&& 0x80 ≠ 0 := by
  obtain ⟨b0, b1, b2, a1, _, _, _, _, a6, _, a8⟩ := send_word_bytes_layout 0x100003 (by omega)
  exact ⟨b0, b1, b2, a1, a6, a8.2 (by decide)⟩

/-! ## Frame validation -/

/-- C20: for three bytes, `host_word` returns -1 and sets the framer state to
`out_of_sync` when `b0` has its MSB set, or `(b1 & 0xC0) != 0x80`, or
`(b2 & 0xC0) != 0xC0`, and `host_poll` then enqueues nothing; in every other
case it returns a non-negative word below `2^21`, leaves the session (framer
state included) unchanged, and `host_poll` goes on to the enqueue step with
that word. -/
theorem host_word_framing (s : host_session) (b0 b1 b2 : Nat) (h0 : b0 < 256) :
    ((b0 &&& 0x80 ≠ 0 ∨ b1 &&& 0xC0 ≠ 0x80 ∨ b2 &&& 0xC0 ≠ 0xC0) →
      host_word s b0 b1 b2 = ({ s with host_state := .out_of_sync }, -1) ∧
      host_poll_frame s b0 b1 b2 = { s with host_state := .out_of_sync }) ∧
    (¬ (b0 &&& 0x80 ≠ 0 ∨ b1 &&& 0xC0 ≠ 0x80 ∨ b2 &&& 0xC0 ≠ 0xC0) →
      ∃ w : Nat, host_word s b0 b1 b2 = (s, (w : Int)) ∧ (w : Int) ≠ -1 ∧ w < 2 ^ 21 ∧
        host_poll_frame s b0 b1 b2 = host_poll_enqueue s w) := by
  constructor
  · intro h
    have hw : host_word s b0 b1 b2 = ({ s with host_state := .out_of_sync }, -1) := by
      unfold host_word
      rw [if_pos h]
    refine ⟨hw, ?_⟩
    unfold host_poll_frame
    simp only [hw]
    rfl
  · intro h
    simp only [not_or, not_not] at h
    obtain ⟨g0, g1, g2⟩ := h
    have hb0 : b0 < 0x80 := by
      by_contra hc
      exact ((and_0x80_of_lt b0 h0).2 (by omega)) g0
    have hacc := host_word_accept s b0 b1 b2 hb0 g1 g2
    have hx := bits_xor_lt_two 19 (b0 * 4096 + (b1 % 64) * 64 + b2 % 64)
    have hm1 : b1 % 64 < 64 := Nat.mod_lt _ (by decide)
    have hm2 : b2 % 64 < 64 := Nat.mod_lt _ (by decide)
    refine ⟨_, hacc, by omega, by omega, ?_⟩
    unfold host_poll_frame
    simp only [hacc]
    rw [if_neg (by omega), Int.toNat_ofNat, Nat.mod_eq_of_lt (by omega)]

/-- C20 at the frames `0x90 0x92 0xD5` (rejected) and `0x10 0x92 0xD5` (accepted). -/
theorem host_word_framing_witness :
    host_word sess 0x90 0x92 0xD5 = ({ sess with host_state := .out_of_sync }, -1) ∧
    host_poll_frame sess 0x90 0x92 0xD5 = { sess with host_state := .out_of_sync } ∧
    ∃ w : Nat, host_word sess 0x10 0x92 0xD5 = (sess, (w : Int)) ∧ (w : Int) ≠ -1 ∧
      w < 2 ^ 21 ∧
      host_poll_frame sess 0x10 0x92 0xD5 = host_poll_enqueue sess w :=
  ⟨((host_word_framing sess 0x90 0x92 0xD5 (by omega)).1 (by decide)).1,
   ((host_word_framing sess 0x90 0x92 0xD5 (by omega)).1 (by decide)).2,
   (host_word_framing sess 0x10 0x92 0xD5 (by omega)).2 (by decide)⟩

/-! ## GSW commands -/

theorem lt_two_pow_of_bit_clear (b l : Nat) (hl : l < 2 ^ (b + 1))
    (h : (1 <<< b) &&& l = 0) : l < 2 ^ b := by
  by_contra hc
  have hge : 2 ^ b ≤ l := by omega
  obtain ⟨x, rfl⟩ : ∃ x, l = 2 ^ b + x := ⟨l - 2 ^ b, by omega⟩
  have hx : x < 2 ^ b := by rw [pow_succ] at hl; omega
  have h1 : (2 ^ b + x).testBit b = true := by
    rw [Nat.testBit_two_pow_add_eq, Nat.testBit_lt_two_pow hx]; rfl
  have h2 := congrArg (fun y => Nat.testBit y b) h
  simp only [Nat.testBit_and, Nat.one_shiftLeft, Nat.testBit_two_pow_self, h1,
    Nat.zero_testBit, Bool.and_self] at h2
  cases h2

/-- One iteration of the bit search of `frac_gen` at an index below 32. -/
theorem frac_gen_bit_step (fuel b l : Nat) (hb : b ≤ 31) :
    frac_gen_bit (fuel + 1) b l =
      if (1 <<< b) &&& l = 0 then frac_gen_bit fuel ((b + 4294967295) % 4294967296) l
      else some b := by
  have e1 : b % 32 = b := Nat.mod_eq_of_lt (by omega)
  have e2 : (1 <<< b) % 4294967296 = 1 <<< b := by
    rw [Nat.one_shiftLeft]
    apply Nat.mod_eq_of_lt
    have : 2 ^ b ≤ 2 ^ 31 := Nat.pow_le_pow_right (by decide) hb
    omega
  rw [frac_gen_bit, e1, e2]

/-- The bit search of `frac_gen` finds a bit whenever one of the bits it
looks at before index 0 wraps is set. -/
theorem frac_gen_bit_some (b : Nat) :
    ∀ fuel l : Nat, b < fuel → b ≤ 31 → 0 < l → l < 2 ^ (b + 1) →
      ∃ k, frac_gen_bit fuel b l = some k ∧ k ≤ b := by
  induction b with
  | zero =>
    intro fuel l hf _ h0 hl
    have : l = 1 := by omega
    subst this
    obtain ⟨f, rfl⟩ : ∃ f, fuel = f + 1 := ⟨fuel - 1, by omega⟩
    exact ⟨0, by rw [frac_gen_bit_step f 0 1 (by omega), if_neg (by decide)], le_refl _⟩
  | succ b ih =>
    intro fuel l hf hb h0 hl
    obtain ⟨f, rfl⟩ : ∃ f, fuel = f + 1 := ⟨fuel - 1, by omega⟩
    have e : (b + 1 + 4294967295) % 4294967296 = b := by omega
    by_cases hbit : (1 <<< (b + 1)) &&& l = 0
    · obtain ⟨k, hk, hkb⟩ := ih f l (by omega) (by omega) h0
        (lt_two_pow_of_bit_clear (b + 1) l hl hbit)
      exact ⟨k, by rw [frac_gen_bit_step f (b + 1) l hb, if_pos hbit, e, hk], by omega⟩
    · exact ⟨b + 1, by rw [frac_gen_bit_step f (b + 1) l hb, if_neg hbit], le_refl _⟩

theorem frac_gen_one : frac_gen 1 = some (32768, 47) := by decide

/-- `frac_gen` returns for every divisor from 1 to `2^30`. -/
theorem frac_gen_some (d : Nat) (h1 : 1 ≤ d) (hd : d ≤ 2 ^ 30) :
    ∃ r, frac_gen d = some r := by
  by_cases h2 : d = 1
  · subst h2
    exact ⟨_, frac_gen_one⟩
  have hl0 : 0 < (1 <<< 30) / d := by
    rw [Nat.one_shiftLeft]
    exact Nat.div_pos hd (by omega)
  have hl1 : (1 <<< 30) / d < 2 ^ (29 + 1) := by
    rw [Nat.one_shiftLeft]
    exact Nat.div_lt_self (by decide) (by omega)
  obtain ⟨k, hk, _⟩ := frac_gen_bit_some 29 32 _ (by decide) (by decide) hl0 hl1
  unfold frac_gen
  rw [if_neg (by omega)]
  simp only [hk]
  split_ifs <;> exact ⟨_, rfl⟩

/-- With the quotient 0 the bit search of `frac_gen` never ends. -/
theorem frac_gen_bit_zero (fuel : Nat) : ∀ bit, frac_gen_bit fuel bit 0 = none := by
  induction fuel with
  | zero => intro bit; rfl
  | succ n ih =>
    intro bit
    rw [frac_gen_bit, Nat.and_zero, if_pos rfl, ih]

theorem ext_data_mask (word : Nat) :
    ((word >>> 1) &&& 0x7FFF) &&& 0xFFFFF = (word >>> 1) &&& 0x7FFF := by
  rw [Nat.and_assoc]; rfl

theorem aud_cis_mask (word : Nat) : ((word >>> 1) &&& 0x7FFF) &&& 0x8000 = 0 := by
  rw [Nat.and_assoc]
  have : (0x7FFF : Nat) &&& 0x8000 = 0 := by decide
  rw [this, Nat.and_zero]

/-- What `gsw_handle` does with an AUD command word. -/
theorem gsw_handle_aud (s : host_session) (word : Nat) (hx : is_command word CMD_AUD) :
    ∃ s', gsw_handle s word = some (s', NOP_WORD) ∧
      (word &&& 0x7800 ≠ 0 →
        s'.vs = ((word >>> 1) &&& 0x7FFF) >>> 12 &&& 3 ∧
        s'.vix = ((word >>> 1) &&& 0x7FFF) >>> 12 &&& 3 ∧
        s'.cis = 0 ∧
        s'.voices 0 = { s.voices 0 with amp := some (((word >>> 1) &&& 0x7FFF) >>> 9 &&& 7) } ∧
        s'.voices 1 = { s.voices 1 with amp := some (((word >>> 1) &&& 0x7FFF) >>> 6 &&& 7) } ∧
        s'.voices 2 = { s.voices 2 with amp := some (((word >>> 1) &&& 0x7FFF) >>> 3 &&& 7) } ∧
        s'.voices 3 = { s.voices 3 with amp := some (((word >>> 1) &&& 0x7FFF) &&& 7) }) ∧
      (word &&& 0x7800 = 0 →
        s'.voices = s.voices ∧ s'.vs = s.vs ∧ s'.vix = s.vix ∧ s'.cis = s.cis) := by
  have hbit : ¬ (word &&& (1 <<< 19) ≠ 0) := not_not.mpr hx.1
  unfold gsw_handle
  rw [if_neg hbit]
  simp only [if_pos hx.2, aud_cis_mask]
  by_cases hn : word &&& 0x7800 = 0
  · rw [if_neg (not_not.mpr hn)]
    exact ⟨_, rfl, fun h => absurd hn h, fun _ => ⟨rfl, rfl, rfl, rfl⟩⟩
  · rw [if_pos hn]
    refine ⟨_, rfl, fun _ => ⟨rfl, rfl, rfl, ?_, ?_, ?_, ?_⟩, fun h => absurd h hn⟩ <;>
      simp [setamp, Function.update]

theorem and_eq_zero_iff_testBit (x m : Nat) :
    x &&& m = 0 ↔ ∀ i, m.testBit i = true → x.testBit i = false := by
  constructor
  · intro h i hi
    have := congrArg (fun y => Nat.testBit y i) h
    simpa [hi] using this
  · intro h
    apply Nat.eq_of_testBit_eq
    intro i
    rw [Nat.testBit_and, Nat.zero_testBit]
    cases hm : m.testBit i
    · simp
    · simp [h i hm]

theorem testBit_0x7800 (i : Nat) : (0x7800 : Nat).testBit i = true ↔ 11 ≤ i ∧ i ≤ 14 := by
  have : (0x7800 : Nat) = (2 ^ 4 - 1) <<< 11 := by decide
  rw [this, Nat.testBit_shiftLeft, Nat.testBit_two_pow_sub_one]
  simp
  omega

theorem testBit_0x3C00 (i : Nat) : (0x3C00 : Nat).testBit i = true ↔ 10 ≤ i ∧ i ≤ 13 := by
  have : (0x3C00 : Nat) = (2 ^ 4 - 1) <<< 10 := by decide
  rw [this, Nat.testBit_shiftLeft, Nat.testBit_two_pow_sub_one]
  simp
  omega

/-- The test `word & 0x7800` of `gsw_handle` looks at bits 13..10 of the payload. -/
theorem aud_nop_test (word : Nat) :
    word &&& 0x7800 = 0 ↔ ((word >>> 1) &&& 0x7FFF) &&& 0x3C00 = 0 := by
  rw [and_eq_zero_iff_testBit, and_eq_zero_iff_testBit]
  have h15 : (0x7FFF : Nat) = 2 ^ 15 - 1 := by decide
  constructor
  · intro h i hi
    obtain ⟨h10, h13⟩ := (testBit_0x3C00 i).1 hi
    rw [Nat.testBit_and, Nat.testBit_shiftRight, h15, Nat.testBit_two_pow_sub_one]
    have := h (1 + i) ((testBit_0x7800 (1 + i)).2 ⟨by omega, by omega⟩)
    simp [this]
  · intro h i hi
    obtain ⟨h11, h14⟩ := (testBit_0x7800 i).1 hi
    have := h (i - 1) ((testBit_0x3C00 (i - 1)).2 ⟨by omega, by omega⟩)
    rw [Nat.testBit_and, Nat.testBit_shiftRight, h15, Nat.testBit_two_pow_sub_one] at this
    have e : 1 + (i - 1) = i := by omega
    rw [e] at this
    have hlt : decide (i - 1 < 15) = true := by simp; omega
    rw [hlt, Bool.and_true] at this
    exact this

theorem setdiv_voices (s s1 : host_session) (v d : Nat) (h : setdiv s v d = some s1) :
    (s1.voices v).div = d ∧ (∀ u, u ≠ v → s1.voices u = s.voices u) ∧
    s1.cis = s.cis ∧ s1.vix = s.vix ∧ s1.vs = s.vs := by
  unfold setdiv at h
  simp only at h
  split_ifs at h
  split at h
  · cases h
  · simp only [Option.some.injEq] at h
    subst h
    refine ⟨by simp [Function.update], fun u hu => by simp [Function.update, hu], rfl, rfl, rfl⟩

/-- What `gsw_handle` leaves behind when it returns from an EXT command word. -/
theorem gsw_handle_ext_result (s s' : host_session) (word w' : Nat)
    (hx : is_command word CMD_EXT) (h : gsw_handle s word = some (s', w')) :
    w' = NOP_WORD ∧
    (s'.voices s.vix).div = 4 * ((word >>> 1) &&& 0x7FFF) + 2 ∧
    (∀ v, v ≠ s.vix → s'.voices v = s.voices v) ∧
    (s.cis = 0 → s'.vix = if s.vix ≠ 0 then s.vix - 1 else s.vs) ∧
    (s.cis ≠ 0 → s'.vix = s.vix) ∧ s'.vs = s.vs ∧ s'.cis = s.cis := by
  have hbit : ¬ (word &&& (1 <<< 19) ≠ 0) := not_not.mpr hx.1
  have hna : ¬ ((word >>> 16) &&& 7 = CMD_AUD) := by rw [hx.2]; decide
  unfold gsw_handle at h
  rw [if_neg hbit] at h
  simp only [if_neg hna, if_pos hx.2, ext_data_mask] at h
  cases hs : setdiv s s.vix (E2D ((word >>> 1) &&& 0x7FFF)) with
  | none => rw [hs] at h; cases h
  | some s1 =>
    obtain ⟨v1, v2, v3, v4, v5⟩ := setdiv_voices _ _ _ _ hs
    rw [hs] at h
    simp only [Option.some.injEq, Prod.mk.injEq] at h
    obtain ⟨h1, h2⟩ := h
    have hd : E2D ((word >>> 1) &&& 0x7FFF) = 4 * ((word >>> 1) &&& 0x7FFF) + 2 := by
      unfold E2D; omega
    rw [hd] at v1
    have ht : ∀ t : host_session,
        t = (if s1.cis = 0 then
              if s1.vix ≠ 0 then { s1 with vix := s1.vix - 1 } else { s1 with vix := s1.vs }
             else s1) →
        t.voices = s1.voices ∧ t.vs = s1.vs ∧ t.cis = s1.cis ∧
        t.vix = (if s1.cis = 0 then (if s1.vix ≠ 0 then s1.vix - 1 else s1.vs) else s1.vix) := by
      intro t e
      subst e
      split_ifs <;> exact ⟨rfl, rfl, rfl, rfl⟩
    obtain ⟨t1, t2, t3, t4⟩ := ht _ rfl
    generalize (if s1.cis = 0 then
              if s1.vix ≠ 0 then { s1 with vix := s1.vix - 1 } else { s1 with vix := s1.vs }
             else s1) = t at h1 t1 t2 t3 t4
    subst h2
    subst h1
    rw [v3, v4, v5] at t4
    refine ⟨rfl, ?_, ?_, ?_, ?_, ?_, ?_⟩
    · show (t.voices s.vix).div = _
      rw [t1]; exact v1
    · intro v hv
      show t.voices v = _
      rw [t1]; exact v2 v hv
    · intro hc
      show t.vix = _
      rw [t4, if_pos hc]
    · intro hc
      show t.vix = _
      rw [t4, if_neg hc]
    · show t.vs = _
      rw [t2, v5]
    · show t.cis = _
      rw [t3, v3]

/-- The step that `setdiv` computes for an EXT frequency code is never 0. -/
theorem ext_step_range (e n : Nat) (he : e ≤ 0x7FFF) (hn : n ≠ 0) :
    1 ≤ ((E2D e + n - 1) / n) % 65536 ∧ ((E2D e + n - 1) / n) % 65536 ≤ 2 ^ 30 := by
  unfold E2D
  refine ⟨?_, by omega⟩
  by_cases h1 : n = 1
  · subst h1
    rw [Nat.div_one]
    omega
  · have hq : (e * 4 + 2 + n - 1) / n < 65536 := by
      rw [Nat.div_lt_iff_lt_mul (by omega)]
      omega
    have hp : 0 < (e * 4 + 2 + n - 1) / n := Nat.div_pos (by omega) (by omega)
    omega

/-- An EXT command word on a voice whose wave has samples: `gsw_handle`
returns, for every frequency code. -/
theorem gsw_handle_ext_some (s : host_session) (word : Nat)
    (hx : is_command word CMD_EXT) (hn : (s.voices s.vix).wave.nsamp ≠ 0) :
    ∃ s', gsw_handle s word = some (s', NOP_WORD) := by
  have hbit : ¬ (word &&& (1 <<< 19) ≠ 0) := not_not.mpr hx.1
  have hna : ¬ ((word >>> 16) &&& 7 = CMD_AUD) := by rw [hx.2]; decide
  have hle : (word >>> 1) &&& 0x7FFF ≤ 0x7FFF := Nat.and_le_right
  obtain ⟨hs1, hs2⟩ := ext_step_range ((word >>> 1) &&& 0x7FFF) _ hle hn
  obtain ⟨r, hr⟩ := frac_gen_some _ hs1 hs2
  unfold gsw_handle
  rw [if_neg hbit]
  simp only [if_neg hna, if_pos hx.2, ext_data_mask]
  unfold setdiv
  simp only [if_neg hn, hr]
  exact ⟨_, rfl⟩

/-- On a voice whose wave has samples `gsw_handle` returns for every word. -/
theorem gsw_handle_some (s : host_session) (word : Nat)
    (hn : (s.voices s.vix).wave.nsamp ≠ 0) : ∃ r, gsw_handle s word = some r := by
  by_cases ha : is_command word CMD_AUD
  · obtain ⟨s', a1, _⟩ := gsw_handle_aud s word ha
    exact ⟨_, a1⟩
  · by_cases he : is_command word CMD_EXT
    · obtain ⟨s', a1⟩ := gsw_handle_ext_some s word he hn
      exact ⟨_, a1⟩
    · exact ⟨_, gsw_handle_other s word ha he⟩

/-! ## Voices and waves are kept -/

theorem put_host_word_voices (s : host_session) (w : Nat) :
    (put_host_word s w).voices = s.voices ∧ (put_host_word s w).vix = s.vix := by
  unfold put_host_word
  simp only
  split_ifs <;> exact ⟨rfl, rfl⟩

theorem get_host_word_loop_voices (fuel : Nat) :
    ∀ (s s1 : host_session) (t t1 x : Nat),
      get_host_word_loop fuel s t = some (s1, t1, x) →
      s1.voices = s.voices ∧ s1.vix = s.vix := by
  induction fuel with
  | zero => intro s s1 t t1 x h; cases h
  | succ n ih =>
    intro s s1 t t1 x h
    unfold get_host_word_loop at h
    simp only at h
    split_ifs at h
    all_goals first
      | (simp only [Option.some.injEq, Prod.mk.injEq] at h; obtain ⟨h1, _⟩ := h; subst h1
         exact ⟨rfl, rfl⟩)
      | exact ih _ _ _ _ _ h
      | exact (ih _ _ _ _ _ h).imp id id

theorem get_host_word_voices (fuel : Nat) (s s1 : host_session) (x : Nat)
    (h : get_host_word fuel s = some (s1, x)) : s1.voices = s.voices ∧ s1.vix = s.vix := by
  unfold get_host_word at h
  split at h
  · cases h
  · rename_i sL t w hL
    have := get_host_word_loop_voices fuel _ _ _ _ _ hL
    simp only [Option.some.injEq, Prod.mk.injEq] at h
    obtain ⟨h1, _⟩ := h
    subst h1
    exact this

theorem track_mode_voices (s : host_session) (w : Nat) :
    (track_mode s w).voices = s.voices ∧ (track_mode s w).vix = s.vix := by
  unfold track_mode
  split_ifs <;> exact ⟨rfl, rfl⟩

theorem host_word_count_voices (s : host_session) :
    (host_word_count s).1.voices = s.voices ∧ (host_word_count s).1.vix = s.vix := by
  unfold host_word_count
  simp only
  split_ifs <;> exact ⟨rfl, rfl⟩

theorem echo_handle_voices (s : host_session) (w : Nat) :
    (echo_handle s w).1.voices = s.voices ∧ (echo_handle s w).1.vix = s.vix := by
  unfold echo_handle
  simp only
  split_ifs
  · exact ⟨rfl, rfl⟩
  · exact ⟨rfl, rfl⟩
  · exact host_word_count_voices s
  · exact host_word_count_voices s

theorem do_host_word_flow_voices (s : host_session) (n : Int) :
    (do_host_word_flow s n).voices = s.voices ∧ (do_host_word_flow s n).vix = s.vix := by
  unfold do_host_word_flow
  simp only
  split_ifs <;> exact ⟨rfl, rfl⟩

theorem lde_count_voices (c : Prop) [Decidable c] (t : host_session) (v : Nat) :
    (if c then { t with lde_count := v } else t).voices = t.voices ∧
      (if c then { t with lde_count := v } else t).vix = t.vix := by
  split_ifs <;> exact ⟨rfl, rfl⟩

theorem setamp_wave (s : host_session) (i a v : Nat) :
    ((setamp s i a).voices v).wave = (s.voices v).wave := by
  unfold setamp
  by_cases h : v = i
  · subst h
    simp [Function.update]
  · simp [Function.update, h]

theorem setdiv_wave (s s1 : host_session) (i d : Nat) (h : setdiv s i d = some s1) (v : Nat) :
    (s1.voices v).wave = (s.voices v).wave := by
  unfold setdiv at h
  simp only at h
  split_ifs at h
  split at h
  · cases h
  · simp only [Option.some.injEq] at h
    subst h
    by_cases hv : v = i
    · subst hv
      simp [Function.update]
    · simp [Function.update, hv]

/-- `gsw_handle` changes the wave of no voice. -/
theorem gsw_handle_wave (s s1 : host_session) (x w : Nat) (h : gsw_handle s x = some (s1, w))
    (v : Nat) : (s1.voices v).wave = (s.voices v).wave := by
  unfold gsw_handle at h
  by_cases a : x &&& (1 <<< 19) = 0
  · rw [if_neg (not_not.mpr a)] at h
    simp only at h
    by_cases b : (x >>> 16) &&& 7 = CMD_AUD
    · rw [if_pos b] at h
      split_ifs at h <;>
      · simp only [Option.some.injEq, Prod.mk.injEq] at h
        obtain ⟨h1, _⟩ := h
        subst h1
        simp only [setamp_wave]
    · rw [if_neg b] at h
      by_cases c : (x >>> 16) &&& 7 = CMD_EXT
      · rw [if_pos c] at h
        split at h
        · cases h
        · rename_i s2 hs
          simp only [Option.some.injEq, Prod.mk.injEq] at h
          obtain ⟨h1, _⟩ := h
          subst h1
          have := setdiv_wave _ _ _ _ hs v
          split_ifs <;> exact this
      · rw [if_neg c] at h
        simp only [Option.some.injEq, Prod.mk.injEq] at h
        obtain ⟨h1, _⟩ := h
        subst h1
        rfl
  · rw [if_pos a] at h
    simp only [Option.some.injEq, Prod.mk.injEq] at h
    obtain ⟨h1, _⟩ := h
    subst h1
    rfl

theorem do_host_word_rest_wave (s s1 : host_session) (x w : Nat)
    (h : do_host_word_rest s x = some (s1, w)) (v : Nat) :
    (s1.voices v).wave = (s.voices v).wave := by
  have key : ∀ (sF : host_session) (e2 : Nat), sF.voices = s.voices →
      (if e2 = 0 then some (sF, 0) else gsw_handle sF e2) = some (s1, w) →
      (s1.voices v).wave = (s.voices v).wave := by
    intro sF e2 k h
    split_ifs at h
    · simp only [Option.some.injEq, Prod.mk.injEq] at h
      obtain ⟨h1, _⟩ := h
      subst h1
      rw [k]
    · rw [gsw_handle_wave _ _ _ _ h v, k]
  refine key _ _ ?_ h
  rw [(do_host_word_flow_voices _ _).1, (host_word_count_voices _).1,
    (lde_count_voices _ _ _).1, (echo_handle_voices _ _).1, (track_mode_voices _ _).1]

theorem do_host_word_wave (fuel : Nat) (s s1 : host_session) (w : Nat)
    (h : do_host_word fuel s = some (s1, w)) (v : Nat) :
    (s1.voices v).wave = (s.voices v).wave := by
  unfold do_host_word at h
  split_ifs at h
  · simp only [Option.some.injEq, Prod.mk.injEq] at h
    obtain ⟨h1, _⟩ := h
    subst h1
    rfl
  · split at h
    · cases h
    · rename_i s2 x hg
      rw [do_host_word_rest_wave _ _ _ _ h v, (get_host_word_voices _ _ _ _ hg).1]

/-- Every voice of a reachable session has the two-sample square wave. -/
theorem reachable_wave (s : host_session) (h : reachable s) (v : Nat) :
    (s.voices v).wave = sq := by
  induction h with
  | init => rfl
  | put s w _ ih => rw [(put_host_word_voices s w).1, ih]
  | dequeue fuel s s' w _ hd ih => rw [do_host_word_wave fuel s s' w hd v, ih]
  | stop s _ ih => exact ih

theorem reachable_nsamp (s : host_session)
    (h : reachable s ∨ (s.voices s.vix).wave.nsamp ≠ 0) : (s.voices s.vix).wave.nsamp ≠ 0 := by
  rcases h with h | h
  · rw [reachable_wave s h]
    decide
  · exact h

/-- The part of `do_host_word` after `get_host_word` returns for every word,
on a selected voice whose wave has samples. -/
theorem do_host_word_rest_some (s : host_session) (x : Nat)
    (hn : (s.voices s.vix).wave.nsamp ≠ 0) : ∃ r, do_host_word_rest s x = some r := by
  have key : ∀ (sF : host_session) (e2 : Nat), (sF.voices sF.vix).wave.nsamp ≠ 0 →
      ∃ r, (if e2 = 0 then some (sF, 0) else gsw_handle sF e2) = some r := by
    intro sF e2 k
    split_ifs
    · exact ⟨_, rfl⟩
    · exact gsw_handle_some sF e2 k
  refine key _ _ ?_
  rw [(do_host_word_flow_voices _ _).1, (do_host_word_flow_voices _ _).2,
    (host_word_count_voices _).1, (host_word_count_voices _).2,
    (lde_count_voices _ _ _).1, (lde_count_voices _ _ _).2,
    (echo_handle_voices _ _).1, (echo_handle_voices _ _).2,
    (track_mode_voices _ _).1, (track_mode_voices _ _).2]
  exact hn

/-! ## Effects of the GSW commands -/

/-- C12, amended: for every AUD command word (opcode 6) with payload
`p = (word >> 1) & 0x7FFF`, `gsw_handle` tests bits 14..11 of the stored word,
which are bits 13..10 of `p`: if they are not all zero it sets `vs` and `vix`
to `(p >> 12) & 3` and the amplitudes of voices 0, 1, 2, 3 to the table
entries `(p >> 9) & 7`, `(p >> 6) & 7`, `(p >> 3) & 7` and `p & 7`; if they
are all zero the command is a GSW-NOP and changes no voice, `vs`, `vix` or
`cis`. -/
theorem gsw_handle_aud_spec (s : host_session) (word : Nat) (hx : is_command word CMD_AUD) :
    ∃ s', gsw_handle s word = some (s', NOP_WORD) ∧
      (word &&& 0x7800 ≠ 0 ↔ ((word >>> 1) &&& 0x7FFF) &&& 0x3C00 ≠ 0) ∧
      (((word >>> 1) &&& 0x7FFF) &&& 0x3C00 ≠ 0 →
        s'.vs = ((word >>> 1) &&& 0x7FFF) >>> 12 &&& 3 ∧
        s'.vix = ((word >>> 1) &&& 0x7FFF) >>> 12 &&& 3 ∧
        (s'.voices 0).amp = some (((word >>> 1) &&& 0x7FFF) >>> 9 &&& 7) ∧
        (s'.voices 1).amp = some (((word >>> 1) &&& 0x7FFF) >>> 6 &&& 7) ∧
        (s'.voices 2).amp = some (((word >>> 1) &&& 0x7FFF) >>> 3 &&& 7) ∧
        (s'.voices 3).amp = some (((word >>> 1) &&& 0x7FFF) &&& 7)) ∧
      (((word >>> 1) &&& 0x7FFF) &&& 0x3C00 = 0 →
        s'.voices = s.voices ∧ s'.vs = s.vs ∧ s'.vix = s.vix ∧ s'.cis = s.cis) := by
  obtain ⟨s', a1, a2, a3⟩ := gsw_handle_aud s word hx
  have hiff := aud_nop_test word
  refine ⟨s', a1, not_congr hiff, ?_, ?_⟩
  · intro h
    obtain ⟨b1, b2, _, b4, b5, b6, b7⟩ := a2 (fun h' => h (hiff.1 h'))
    exact ⟨b1, b2, by rw [b4], by rw [b5], by rw [b6], by rw [b7]⟩
  · intro h
    exact a3 (hiff.2 h)

/-- C12, amended, at the AUD word with payload 0x3FFF. -/
theorem gsw_handle_aud_spec_witness :
    ∃ s', gsw_handle sess 0x167FFE = some (s', NOP_WORD) ∧
      s'.vs = 3 ∧ s'.vix = 3 ∧ (s'.voices 0).amp = some 7 ∧ (s'.voices 1).amp = some 7 ∧
      (s'.voices 2).amp = some 7 ∧ (s'.voices 3).amp = some 7 := by
  obtain ⟨s', a1, _, a3, _⟩ := gsw_handle_aud_spec sess 0x167FFE (by decide)
  exact ⟨s', a1, a3 (by decide)⟩

/-- C12 fails as stated: the AUD payload 0x4000 has bit 14 set, yet the
amplitude of voice 0 is left as it was (no entry selected); the AUD payload
0x0400 has bits 14..11 all zero, yet the amplitude of voice 0 is set to
entry 2. -/
theorem gsw_handle_aud_bits :
    is_command 0x168001 CMD_AUD ∧ ((0x168001 >>> 1) &&& 0x7FFF) &&& 0x7800 ≠ 0 ∧
    (gsw_handle sess 0x168001).map (fun r => (r.1.voices 0).amp) = some (sess.voices 0).amp ∧
    (sess.voices 0).amp = none ∧
    is_command 0x160801 CMD_AUD ∧ ((0x160801 >>> 1) &&& 0x7FFF) &&& 0x7800 = 0 ∧
    (gsw_handle sess 0x160801).map (fun r => (r.1.voices 0).amp) = some (some 2) := by
  decide

/-- C13: for every EXT command word (opcode 7) with frequency code
`e = (word >> 1) & 0x7FFF`, on a reachable session (or any session whose
selected voice has a wave with samples), `gsw_handle` returns; it has set the
divisor of the selected voice `vix` to `4 * e + 2` and left the other voices
as they were; afterwards, if `cis` is clear, `vix` is `vix - 1` when `vix > 0`
and `vs` when `vix = 0`, and if `cis` is set `vix` is unchanged. -/
theorem gsw_handle_ext_setdiv (s : host_session) (word : Nat)
    (hx : is_command word CMD_EXT)
    (hs : reachable s ∨ (s.voices s.vix).wave.nsamp ≠ 0) :
    ∃ s', gsw_handle s word = some (s', NOP_WORD) ∧
      (s'.voices s.vix).div = 4 * ((word >>> 1) &&& 0x7FFF) + 2 ∧
      (∀ v, v ≠ s.vix → (s'.voices v).div = (s.voices v).div) ∧
      (∀ v, v ≠ s.vix → s'.voices v = s.voices v) ∧
      (s.cis = 0 → s'.vix = if s.vix ≠ 0 then s.vix - 1 else s.vs) ∧
      (s.cis ≠ 0 → s'.vix = s.vix) ∧ s'.vs = s.vs ∧ s'.cis = s.cis := by
  obtain ⟨s', a1⟩ := gsw_handle_ext_some s word hx (reachable_nsamp s hs)
  obtain ⟨_, r2, r3, r4, r5, r6, r7⟩ := gsw_handle_ext_result s s' word NOP_WORD hx a1
  exact ⟨s', a1, r2, fun v hv => by rw [r3 v hv], r3, r4, r5, r6, r7⟩

/-- C13 at the EXT word with frequency code 0 (`0x170001`): on the initial
session, and with voice 2 selected and `vs = 3`, where the divisor of voice 2
becomes 2, the other voices keep theirs, and `vix` steps to 1; from voice 0
`vix` steps to `vs`. -/
theorem gsw_handle_ext_setdiv_witness :
    (is_command 0x170001 CMD_EXT ∧
      (({ sess with vix := 2, vs := 3 } : host_session).voices 2).wave.nsamp ≠ 0) ∧
    (∃ s', gsw_handle sess 0x170001 = some (s', NOP_WORD) ∧
      (s'.voices 0).div = 4 * ((0x170001 >>> 1) &&& 0x7FFF) + 2) ∧
    (∃ s', gsw_handle { sess with vix := 2, vs := 3 } 0x170001 = some (s', NOP_WORD) ∧
      (s'.voices 2).div = 4 * ((0x170001 >>> 1) &&& 0x7FFF) + 2 ∧ s'.vix = 1) ∧
    (gsw_handle { sess with vix := 2, vs := 3 } 0x170001).map
      (fun r => (r.2, (r.1.voices 2).div, (r.1.voices 2).frac, (r.1.voices 2).shift))
        = some (0x100003, 2, 32768, 47) ∧
    (gsw_handle { sess with vix := 2, vs := 3 } 0x170001).map
      (fun r => ((r.1.voices 0).div, (r.1.voices 1).div, (r.1.voices 3).div, r.1.vix))
        = some (0, 0, 0, 1) ∧
    (gsw_handle { sess with vix := 0, vs := 3 } 0x170007).map
      (fun r => (r.2, (r.1.voices 0).div, r.1.vix)) = some (0x100003, 14, 3) := by
  obtain ⟨s0, z1, z2, _⟩ :=
    gsw_handle_ext_setdiv sess 0x170001 (by decide) (Or.inl reachable.init)
  obtain ⟨s', a1, a2, _, _, a5, _⟩ :=
    gsw_handle_ext_setdiv { sess with vix := 2, vs := 3 } 0x170001 (by decide)
      (Or.inr (by decide))
  exact ⟨⟨by decide, by decide⟩, ⟨s0, z1, z2⟩, ⟨s', a1, a2, a5 rfl⟩, by decide, by decide,
    by decide⟩

/-- C14, amended: for every AUD command word (GSW-NOP words included) and
every EXT command word (on a reachable session, or any session whose selected
voice has a wave with samples), `gsw_handle` returns the NOP word `04000003`
(octal), which is `0x100003`, the framed word of payload 1, in place of the
original word; whenever `gsw_handle` returns from an AUD or EXT word it
returns that word. -/
theorem gsw_handle_returns_nop (s : host_session) (word : Nat)
    (hx : is_command word CMD_AUD ∨ is_command word CMD_EXT) :
    (is_command word CMD_AUD → ∃ s', gsw_handle s word = some (s', 0x100003)) ∧
    (is_command word CMD_EXT → reachable s ∨ (s.voices s.vix).wave.nsamp ≠ 0 →
      ∃ s', gsw_handle s word = some (s', 0x100003)) ∧
    (∀ s' w', gsw_handle s word = some (s', w') → w' = 0x100003) ∧
    NOP_WORD = 0x100003 ∧
    (host_word s 0x00 0x80 0xC1).2 = 0x100003 := by
  have hN : NOP_WORD = 0x100003 := by decide
  refine ⟨?_, ?_, ?_, hN, ?_⟩
  · intro h
    obtain ⟨s', a1, _⟩ := gsw_handle_aud s word h
    exact ⟨s', by rw [a1, hN]⟩
  · intro h hs
    obtain ⟨s', a1⟩ := gsw_handle_ext_some s word h (reachable_nsamp s hs)
    exact ⟨s', by rw [a1, hN]⟩
  · intro s' w' h
    obtain ⟨_, _, _, _, f5⟩ := gsw_handle_fields s s' word w' h
    rw [f5, if_pos hx, hN]
  · rw [host_word_accept s 0x00 0x80 0xC1 (by omega) (by decide) (by decide)]
    rfl

/-- C14, amended, at a GSW-NOP AUD word and at the EXT words with the
frequency codes 0 and 1, on the initial session. -/
theorem gsw_handle_returns_nop_witness :
    (∃ s', gsw_handle sess 0x160084 = some (s', 0x100003)) ∧
    (∃ s', gsw_handle sess 0x170001 = some (s', 0x100003)) ∧
    (∃ s', gsw_handle sess 0x170003 = some (s', 0x100003)) :=
  ⟨(gsw_handle_returns_nop sess 0x160084 (Or.inl (by decide))).1 (by decide),
   (gsw_handle_returns_nop sess 0x170001 (Or.inr (by decide))).2.1 (by decide)
     (Or.inl reachable.init),
   (gsw_handle_returns_nop sess 0x170003 (Or.inr (by decide))).2.1 (by decide)
     (Or.inr (by decide))⟩

/-- C14 fails as stated: the word returned for an AUD and for an EXT command
is `0x100003`, not `0x400003`. -/
theorem gsw_handle_nop_value :
    (gsw_handle sess 0x160084).map Prod.snd = some 0x100003 ∧
    (gsw_handle sess 0x170003).map Prod.snd = some 0x100003 ∧
    (0x100003 : Nat) ≠ 0x400003 := by
  decide

/-! ## Keyset input -/

theorem ffs_loop_le (fuel : Nat) : ∀ i pos, ffs_loop fuel i pos ≤ pos + fuel - 1 := by
  induction fuel with
  | zero => intro i pos; simp [ffs_loop]
  | succ n ih =>
    intro i pos
    unfold ffs_loop
    split_ifs
    · omega
    · have := ih (i / 2) (pos + 1); omega

theorem fls_le (w : Nat) : fls w ≤ 32 := by
  unfold fls ffs
  split_ifs
  · omega
  · exact ffs_loop_le 32 _ 1

theorem key_data_trunc (x : Nat) : ((x % 65536) >>> 1) &&& 0x3ff = (x >>> 1) &&& 0x3FF := by
  have e : (0x3ff : Nat) = 2 ^ 10 - 1 := by decide
  rw [e, Nat.and_pow_two_sub_one_eq_mod, Nat.and_pow_two_sub_one_eq_mod,
    Nat.shiftRight_eq_div_pow, Nat.shiftRight_eq_div_pow]
  omega

theorem process_spi_byte_idle (s : host_session) (byte : Nat) (h0 : s.key_bit_count = 0) :
    process_spi_byte s byte =
      if byte = 0 then some s
      else some { s with key_bit_count := fls byte % 65536, key_bits := byte } := by
  unfold process_spi_byte
  rw [if_pos h0]

theorem process_spi_byte_short (s : host_session) (byte : Nat) (h0 : s.key_bit_count ≠ 0)
    (h12 : s.key_bit_count + 8 < 12) :
    process_spi_byte s byte =
      some { s with key_bits := spi_shifted s byte, key_bit_count := s.key_bit_count + 8 } := by
  unfold process_spi_byte
  rw [if_neg h0]
  simp only
  have e : (s.key_bit_count + 8) % 65536 = s.key_bit_count + 8 := by omega
  rw [e, if_neg (by omega)]
  rfl

theorem process_spi_byte_key (s : host_session) (byte : Nat) (h0 : s.key_bit_count ≠ 0)
    (h12 : 12 ≤ s.key_bit_count + 8) (hc : s.key_bit_count ≤ 34) :
    process_spi_byte s byte =
      some { (if ((spi_shifted s byte >>> (s.key_bit_count + 8 - 12)) >>> 1) &&& 0x3FF = KEY_STOP ∨
                 ((spi_shifted s byte >>> (s.key_bit_count + 8 - 12)) >>> 1) &&& 0x3FF = KEY_STOP1
              then abort_all_output
                (send_key s (((spi_shifted s byte >>> (s.key_bit_count + 8 - 12)) >>> 1) &&& 0x3FF))
              else send_key s (((spi_shifted s byte >>> (s.key_bit_count + 8 - 12)) >>> 1) &&& 0x3FF))
             with
             key_bits := spi_shifted s byte &&& ((1 <<< (s.key_bit_count + 8 - 12)) - 1),
             key_bit_count :=
               if spi_shifted s byte &&& ((1 <<< (s.key_bit_count + 8 - 12)) - 1) = 0 then 0
               else fls (spi_shifted s byte &&& ((1 <<< (s.key_bit_count + 8 - 12)) - 1)) % 65536 } := by
  unfold process_spi_byte
  rw [if_neg h0]
  simp only
  have e : (s.key_bit_count + 8) % 65536 = s.key_bit_count + 8 := by omega
  rw [e, if_pos (by omega), if_neg (by omega), key_data_trunc]
  unfold spi_shifted
  split_ifs <;> simp_all [send_key, abort_all_output]

theorem put_host_word_keyset (s : host_session) (w : Nat) :
    keyset_view (put_host_word s w) = keyset_view s := by
  unfold put_host_word
  simp only
  split_ifs <;> rfl

theorem put_host_words_keyset (ws : List Nat) :
    ∀ s : host_session, keyset_view (put_host_words s ws) = keyset_view s := by
  induction ws with
  | nil => intro s; rfl
  | cons w ws ih =>
    intro s
    rw [put_host_words_cons, ih, put_host_word_keyset]

theorem get_host_word_loop_keyset (fuel : Nat) :
    ∀ (s s1 : host_session) (t t1 x : Nat),
      get_host_word_loop fuel s t = some (s1, t1, x) → keyset_view s1 = keyset_view s := by
  induction fuel with
  | zero => intro s s1 t t1 x h; cases h
  | succ n ih =>
    intro s s1 t t1 x h
    unfold get_host_word_loop at h
    simp only at h
    split_ifs at h
    all_goals first
      | (simp only [Option.some.injEq, Prod.mk.injEq] at h; obtain ⟨h1, _⟩ := h; subst h1; rfl)
      | (rw [ih _ _ _ _ _ h]; rfl)
      | (rw [ih _ _ _ _ _ h])

theorem get_host_word_keyset (fuel : Nat) (s s1 : host_session) (x : Nat)
    (h : get_host_word fuel s = some (s1, x)) : keyset_view s1 = keyset_view s := by
  unfold get_host_word at h
  split at h
  · cases h
  · rename_i sL t w hL
    have := get_host_word_loop_keyset fuel _ _ _ _ _ hL
    simp only [Option.some.injEq, Prod.mk.injEq] at h
    obtain ⟨h1, _⟩ := h
    subst h1
    exact this

theorem track_mode_keyset (s : host_session) (w : Nat) :
    keyset_view (track_mode s w) = keyset_view s := by
  unfold track_mode
  split_ifs <;> rfl

theorem host_word_count_keyset (s : host_session) :
    keyset_view (host_word_count s).1 = keyset_view s := by
  unfold host_word_count
  simp only
  split_ifs <;> rfl

theorem echo_handle_keyset (s : host_session) (w : Nat) :
    keyset_view (echo_handle s w).1 = keyset_view s := by
  unfold echo_handle
  simp only
  split_ifs
  · rfl
  · rfl
  · exact host_word_count_keyset s
  · exact host_word_count_keyset s

theorem do_host_word_flow_keyset (s : host_session) (n : Int) :
    keyset_view (do_host_word_flow s n) = keyset_view s := by
  unfold do_host_word_flow
  simp only
  split_ifs <;> rfl

theorem setdiv_keyset (s s1 : host_session) (v d : Nat) (h : setdiv s v d = some s1) :
    keyset_view s1 = keyset_view s := by
  unfold setdiv at h
  simp only at h
  split_ifs at h
  split at h
  · cases h
  · simp only [Option.some.injEq] at h
    subst h
    rfl

theorem gsw_handle_keyset (s s1 : host_session) (x w : Nat) (h : gsw_handle s x = some (s1, w)) :
    keyset_view s1 = keyset_view s := by
  unfold gsw_handle at h
  by_cases a : x &&& (1 <<< 19) = 0
  · rw [if_neg (not_not.mpr a)] at h
    simp only at h
    by_cases b : (x >>> 16) &&& 7 = CMD_AUD
    · rw [if_pos b] at h
      split_ifs at h <;>
      · simp only [Option.some.injEq, Prod.mk.injEq] at h
        obtain ⟨h1, _⟩ := h
        subst h1
        simp [keyset_view, setamp]
    · rw [if_neg b] at h
      by_cases c : (x >>> 16) &&& 7 = CMD_EXT
      · rw [if_pos c] at h
        split at h
        · cases h
        · rename_i s2 hs2
          have e := setdiv_keyset _ _ _ _ hs2
          unfold keyset_view at e
          simp only [Prod.mk.injEq] at e
          simp only [Option.some.injEq, Prod.mk.injEq] at h
          obtain ⟨h1, _⟩ := h
          subst h1
          split_ifs <;> simp_all [keyset_view]
      · rw [if_neg c] at h
        simp only [Option.some.injEq, Prod.mk.injEq] at h
        obtain ⟨h1, _⟩ := h
        subst h1
        rfl
  · rw [if_pos a] at h
    simp only [Option.some.injEq, Prod.mk.injEq] at h
    obtain ⟨h1, _⟩ := h
    subst h1
    rfl

theorem lde_count_keyset (c : Prop) [Decidable c] (t : host_session) (v : Nat) :
    keyset_view (if c then { t with lde_count := v } else t) = keyset_view t := by
  split_ifs <;> rfl

theorem wc_keyset (t : host_session) (v : Nat) :
    keyset_view { t with wc := v } = keyset_view t := rfl

theorem do_host_word_rest_keyset (s s1 : host_session) (x w : Nat)
    (h : do_host_word_rest s x = some (s1, w)) : keyset_view s1 = keyset_view s := by
  have key : ∀ (sF : host_session) (e2 : Nat), keyset_view sF = keyset_view s →
      (if e2 = 0 then some (sF, 0) else gsw_handle sF e2) = some (s1, w) →
      keyset_view s1 = keyset_view s := by
    intro sF e2 k h
    split_ifs at h
    · simp only [Option.some.injEq, Prod.mk.injEq] at h
      obtain ⟨h1, _⟩ := h
      subst h1
      exact k
    · rw [gsw_handle_keyset _ _ _ _ h, k]
  refine key _ _ ?_ h
  rw [do_host_word_flow_keyset, host_word_count_keyset, lde_count_keyset, echo_handle_keyset,
    track_mode_keyset, wc_keyset]

theorem do_host_word_keyset (fuel : Nat) (s s1 : host_session) (w : Nat)
    (h : do_host_word fuel s = some (s1, w)) : keyset_view s1 = keyset_view s := by
  unfold do_host_word at h
  split_ifs at h
  · simp only [Option.some.injEq, Prod.mk.injEq] at h
    obtain ⟨h1, _⟩ := h
    subst h1; rfl
  · split at h
    · cases h
    · rename_i s2 x hg
      rw [do_host_word_rest_keyset _ _ _ _ h, get_host_word_keyset _ _ _ _ hg]

theorem spi_key_lt (s : host_session) (byte k : Nat) (h : spi_key s byte = some k) : k < 1024 := by
  unfold spi_key at h
  split_ifs at h
  simp only [Option.some.injEq] at h
  subst h
  have e : (0x3FF : Nat) = 2 ^ 10 - 1 := by decide
  rw [e, Nat.and_pow_two_sub_one_eq_mod]
  omega

theorem count_zero_of_empty (s : host_session) (h : s.inwd_out = s.inwd_in) :
    (host_word_count s).2 = 0 := by
  rw [← queued_length, queued_of_empty s h.symm]
  rfl

/-- One pass of the loop body of `process_spi_input`, for an accumulator of at
most 34 bits: the body returns, sends the key of `spi_key` if there is one,
and touches the ring only to abort the output on STOP or STOP1. -/
theorem process_spi_byte_step (s : host_session) (byte : Nat) (hc : s.key_bit_count ≤ 34) :
    ∃ s', process_spi_byte s byte = some s' ∧ s'.key_bit_count ≤ 32 ∧
      s'.pending_echo = s.pending_echo ∧
      s'.host_tx = s.host_tx ++ (spi_key s byte).toList.map keybuf ∧
      s'.inwds = s.inwds ∧ s'.inwd_in = s.inwd_in ∧
      ((spi_key s byte = some KEY_STOP ∨ spi_key s byte = some KEY_STOP1) →
        s'.inwd_out = s.inwd_in ∧ s'.erase_abort_count = 0) ∧
      (¬ (spi_key s byte = some KEY_STOP ∨ spi_key s byte = some KEY_STOP1) →
        s'.inwd_out = s.inwd_out ∧ s'.erase_abort_count = s.erase_abort_count) := by
  by_cases h0 : s.key_bit_count = 0
  · have hk : spi_key s byte = none := by
      unfold spi_key
      rw [if_neg (by rw [h0]; simp)]
    rw [process_spi_byte_idle s byte h0, hk]
    have hf : fls byte % 65536 ≤ 32 := le_trans (Nat.mod_le _ _) (fls_le byte)
    by_cases hb : byte = 0
    · rw [if_pos hb]
      exact ⟨s, rfl, by omega, rfl, by simp, rfl, rfl, by simp, by simp⟩
    · rw [if_neg hb]
      exact ⟨_, rfl, hf, rfl, by simp, rfl, rfl, by simp, by simp⟩
  · by_cases h12 : 12 ≤ s.key_bit_count + 8
    · have hk : spi_key s byte
          = some (((spi_shifted s byte >>> (s.key_bit_count + 8 - 12)) >>> 1) &&& 0x3FF) := by
        unfold spi_key
        rw [if_pos ⟨h0, h12⟩]
      rw [process_spi_byte_key s byte h0 h12 hc, hk]
      generalize ((spi_shifted s byte >>> (s.key_bit_count + 8 - 12)) >>> 1) &&& 0x3FF = k
      generalize spi_shifted s byte &&& ((1 <<< (s.key_bit_count + 8 - 12)) - 1) = kb
      have hf : fls kb % 65536 ≤ 32 := le_trans (Nat.mod_le _ _) (fls_le kb)
      refine ⟨_, rfl, ?_, ?_, ?_, ?_, ?_, ?_, ?_⟩
      · show (if kb = 0 then 0 else fls kb % 65536) ≤ 32
        split_ifs <;> omega
      · split_ifs <;> rfl
      · split_ifs <;> simp [send_key, abort_all_output]
      · split_ifs <;> rfl
      · split_ifs <;> rfl
      · intro h
        simp only [Option.some.injEq] at h
        rw [if_pos h]
        exact ⟨rfl, rfl⟩
      · intro h
        simp only [Option.some.injEq] at h
        rw [if_neg h]
        exact ⟨rfl, rfl⟩
    · have hk : spi_key s byte = none := by
        unfold spi_key
        rw [if_neg (by intro h; exact h12 h.2)]
      rw [process_spi_byte_short s byte h0 (by omega), hk]
      exact ⟨_, rfl, by show s.key_bit_count + 8 ≤ 32; omega, rfl, by simp, rfl, rfl,
        by simp, by simp⟩

theorem process_spi_bytes_cons (s s1 : host_session) (b : Nat) (rest : List Nat)
    (h : process_spi_byte s b = some s1) :
    process_spi_bytes s (b :: rest) = process_spi_bytes s1 rest := by
  rw [process_spi_bytes, h]

/-- The loop of `process_spi_input` over any bytes, from an accumulator of at
most 32 bits: it returns, `keys` are the keys it sent in order, and the ring
is aborted exactly when STOP or STOP1 is among them. -/
theorem process_spi_bytes_run (bytes : List Nat) :
    ∀ s : host_session, s.key_bit_count ≤ 32 →
      ∃ (s' : host_session) (keys : List Nat), process_spi_bytes s bytes = some s' ∧
        s'.key_bit_count ≤ 32 ∧ s'.pending_echo = s.pending_echo ∧
        s'.host_tx = s.host_tx ++ keys.map keybuf ∧ (∀ k ∈ keys, k < 1024) ∧
        s'.inwds = s.inwds ∧ s'.inwd_in = s.inwd_in ∧
        ((KEY_STOP ∈ keys ∨ KEY_STOP1 ∈ keys) →
          s'.inwd_out = s.inwd_in ∧ s'.erase_abort_count = 0) ∧
        (¬ (KEY_STOP ∈ keys ∨ KEY_STOP1 ∈ keys) →
          s'.inwd_out = s.inwd_out ∧ s'.erase_abort_count = s.erase_abort_count) := by
  induction bytes with
  | nil =>
    intro s hc
    exact ⟨s, [], rfl, hc, rfl, by simp, by simp, rfl, rfl, by simp, by simp⟩
  | cons b rest ih =>
    intro s hc
    obtain ⟨s1, a1, a2, a3, a4, a5, a6, a7, a8⟩ := process_spi_byte_step s b (by omega)
    obtain ⟨s', keys, b1, b2, b3, b4, b5, b6, b7, b8, b9⟩ := ih s1 a2
    refine ⟨s', (spi_key s b).toList ++ keys, ?_, b2, b3.trans a3, ?_, ?_, b6.trans a5,
      b7.trans a6, ?_, ?_⟩
    · rw [process_spi_bytes_cons s s1 b rest a1, b1]
    · rw [b4, a4, List.map_append, List.append_assoc]
    · intro k hk
      rw [List.mem_append] at hk
      rcases hk with hk | hk
      · rw [Option.mem_toList] at hk
        exact spi_key_lt s b k hk
      · exact b5 k hk
    · intro h
      by_cases hr : KEY_STOP ∈ keys ∨ KEY_STOP1 ∈ keys
      · obtain ⟨c1, c2⟩ := b8 hr
        exact ⟨c1.trans a6, c2⟩
      · obtain ⟨c1, c2⟩ := b9 hr
        have hf : spi_key s b = some KEY_STOP ∨ spi_key s b = some KEY_STOP1 := by
          simp only [List.mem_append, Option.mem_toList, Option.mem_def] at h
          rcases h with (h | h) | (h | h)
          · exact Or.inl h
          · exact absurd (Or.inl h) hr
          · exact Or.inr h
          · exact absurd (Or.inr h) hr
        obtain ⟨d1, d2⟩ := a7 hf
        exact ⟨c1.trans d1, c2.trans d2⟩
    · intro h
      simp only [List.mem_append, Option.mem_toList, Option.mem_def] at h
      have hr : ¬ (KEY_STOP ∈ keys ∨ KEY_STOP1 ∈ keys) := by
        intro hr; apply h
        rcases hr with hr | hr
        · exact Or.inl (Or.inr hr)
        · exact Or.inr (Or.inr hr)
      have hf : ¬ (spi_key s b = some KEY_STOP ∨ spi_key s b = some KEY_STOP1) := by
        intro hf; apply h
        rcases hf with hf | hf
        · exact Or.inl (Or.inl hf)
        · exact Or.inr (Or.inl hf)
      obtain ⟨c1, c2⟩ := b9 hr
      obtain ⟨d1, d2⟩ := a8 hf
      exact ⟨c1.trans d1, c2.trans d2⟩

set_option maxRecDepth 100000 in
theorem fls_byte_table : ∀ b, b < 256 → b ≠ 0 →
    fls b % 65536 = fls b ∧ 1 ≤ fls b ∧ 2 ^ (fls b - 1) ≤ b ∧ b < 2 ^ fls b := by
  decide

/-- C15: in the loop body of `process_spi_input`, for every RX byte: with an
empty accumulator a zero byte changes nothing and a non-zero byte is loaded
with `key_bit_count` the position of its highest set bit; when a further byte
is shifted in and the accumulator then holds `n >= 12` bits, exactly one key
is sent, its code is `((key_bits >> (n - 12)) >> 1) & 0x3FF`, and the low
`n - 12` bits stay; below 12 bits no key is sent. From the empty accumulator
the RX bytes 0x00 0x00 0x0E 0x55 0x00 0x00 send exactly the key 0x32A, as the
bytes 0x06 0xAA, and leave the accumulator empty. -/
theorem process_spi_byte_decode (s : host_session) (byte : Nat) (hb : byte < 256) :
    (s.key_bit_count = 0 → byte = 0 → process_spi_byte s byte = some s) ∧
    (s.key_bit_count = 0 → byte ≠ 0 →
      process_spi_byte s byte = some { s with key_bit_count := fls byte, key_bits := byte } ∧
      1 ≤ fls byte ∧ 2 ^ (fls byte - 1) ≤ byte ∧ byte < 2 ^ fls byte) ∧
    (∀ n, s.key_bit_count ≠ 0 → n = s.key_bit_count + 8 → 12 ≤ n → n ≤ 42 →
      ∃ s', process_spi_byte s byte = some s' ∧
        s'.host_tx
          = s.host_tx ++ [keybuf (((spi_shifted s byte >>> (n - 12)) >>> 1) &&& 0x3FF)] ∧
        s'.key_bits = spi_shifted s byte % 2 ^ (n - 12)) ∧
    (s.key_bit_count ≠ 0 → s.key_bit_count + 8 < 12 →
      process_spi_byte s byte
        = some { s with key_bits := spi_shifted s byte,
                        key_bit_count := s.key_bit_count + 8 }) ∧
    ∃ s', process_spi_input
        (send_word sess NOP_WORD (fun i => [0x00, 0x00, 0x0E, 0x55, 0x00, 0x00].getD i 0)).1
          = some s' ∧
      s'.host_tx = [(0x06, 0xAA)] ∧ keybuf 0x32A = (0x06, 0xAA) ∧
      s'.key_bits = 0 ∧ s'.key_bit_count = 0 := by
  refine ⟨?_, ?_, ?_, ?_, ?_⟩
  · intro h0 hz
    rw [process_spi_byte_idle s byte h0, if_pos hz]
  · intro h0 hz
    obtain ⟨t1, t2, t3, t4⟩ := fls_byte_table byte hb hz
    rw [process_spi_byte_idle s byte h0, if_neg hz, t1]
    exact ⟨rfl, t2, t3, t4⟩
  · intro n h0 hn h12 h42
    subst hn
    rw [process_spi_byte_key s byte h0 h12 (by omega)]
    refine ⟨_, rfl, ?_, ?_⟩
    · split_ifs <;> simp [send_key, abort_all_output]
    · show spi_shifted s byte &&& ((1 <<< (s.key_bit_count + 8 - 12)) - 1) = _
      rw [Nat.one_shiftLeft, Nat.and_pow_two_sub_one_eq_mod]
  · intro h0 h12
    exact process_spi_byte_short s byte h0 h12
  · exact ⟨_, rfl, by decide, by decide, by decide, by decide⟩

/-- C15 at the byte 0x55 that completes the symbol begun by 0x0E. -/
theorem process_spi_byte_decode_witness :
    0x55 < 256 ∧
    ∃ s', process_spi_byte { sess with key_bits := 0x0E, key_bit_count := 4 } 0x55 = some s' ∧
      s'.host_tx = [keybuf 0x32A] ∧ s'.key_bits = 0 :=
  ⟨by decide,
   (process_spi_byte_decode { sess with key_bits := 0x0E, key_bit_count := 4 } 0x55
      (by decide)).2.2.1 12 (by decide) rfl (by decide) (by decide)⟩

theorem process_spi_input_run (s : host_session) (hc : s.key_bit_count ≤ 32) :
    ∃ (s' : host_session) (keys : List Nat), process_spi_input s = some s' ∧
      s'.key_bit_count ≤ 32 ∧ s'.pending_echo = s.pending_echo ∧
      s'.host_tx = s.host_tx ++ keys.map keybuf ∧ (∀ k ∈ keys, k < 1024) ∧
      s'.inwds = s.inwds ∧ s'.inwd_in = s.inwd_in ∧
      ((KEY_STOP ∈ keys ∨ KEY_STOP1 ∈ keys) →
        s'.inwd_out = s.inwd_in ∧ s'.erase_abort_count = 0) ∧
      (¬ (KEY_STOP ∈ keys ∨ KEY_STOP1 ∈ keys) →
        s'.inwd_out = s.inwd_out ∧ s'.erase_abort_count = s.erase_abort_count) :=
  process_spi_bytes_run _ s hc

/-- C17: for an accumulator of at most 32 bits, the loop body of
`process_spi_input` that decodes a key `k` sends it and, if `k` is 0x1A (STOP)
or 0x3A (STOP1), leaves the ring empty (`host_word_count` 0, nothing queued)
with `erase_abort_count` 0, and for any other `k` leaves the slots, both ring
indices and `erase_abort_count` unchanged; the same holds for a whole call of
`process_spi_input` with the keys it sent. -/
theorem process_spi_input_stop (s : host_session) (hc : s.key_bit_count ≤ 32) :
    (∀ byte k, spi_key s byte = some k →
      ∃ s', process_spi_byte s byte = some s' ∧ s'.host_tx = s.host_tx ++ [keybuf k] ∧
        (k = 0x1A ∨ k = 0x3A →
          (host_word_count s').2 = 0 ∧ queued s' = [] ∧ s'.inwd_out = s'.inwd_in ∧
            s'.erase_abort_count = 0) ∧
        (¬ (k = 0x1A ∨ k = 0x3A) → ring_view s' = ring_view s)) ∧
    ∃ (s' : host_session) (keys : List Nat), process_spi_input s = some s' ∧
      s'.host_tx = s.host_tx ++ keys.map keybuf ∧ (∀ k ∈ keys, k < 1024) ∧
      s'.key_bit_count ≤ 32 ∧
      ((0x1A ∈ keys ∨ 0x3A ∈ keys) →
        (host_word_count s').2 = 0 ∧ queued s' = [] ∧ s'.inwd_out = s'.inwd_in ∧
          s'.erase_abort_count = 0) ∧
      (¬ (0x1A ∈ keys ∨ 0x3A ∈ keys) → ring_view s' = ring_view s) := by
  constructor
  · intro byte k hk
    obtain ⟨s', a1, _, _, a4, a5, a6, a7, a8⟩ := process_spi_byte_step s byte (by omega)
    rw [hk] at a4 a7 a8
    simp only [Option.some.injEq] at a7 a8
    refine ⟨s', a1, by rw [a4]; rfl, ?_, ?_⟩
    · intro h
      obtain ⟨c1, c2⟩ := a7 h
      have he : s'.inwd_out = s'.inwd_in := by rw [c1, a6]
      exact ⟨count_zero_of_empty s' he, queued_of_empty s' he.symm, he, c2⟩
    · intro h
      obtain ⟨c1, c2⟩ := a8 h
      exact (ring_view_eq_iff s s').2 ⟨a5, a6, c1, c2⟩
  · obtain ⟨s', keys, a1, a2, _, a4, a5, a6, a7, a8, a9⟩ := process_spi_input_run s hc
    refine ⟨s', keys, a1, a4, a5, a2, ?_, ?_⟩
    · intro h
      obtain ⟨c1, c2⟩ := a8 h
      have he : s'.inwd_out = s'.inwd_in := by rw [c1, a7]
      exact ⟨count_zero_of_empty s' he, queued_of_empty s' he.symm, he, c2⟩
    · intro h
      obtain ⟨c1, c2⟩ := a9 h
      exact (ring_view_eq_iff s s').2 ⟨a6, a7, c1, c2⟩

/-- C17 at a ring of two data words, for the byte 0x34 that completes STOP and
the byte 0x55 that completes the key 0x32A. -/
theorem process_spi_input_stop_witness :
    ({ put_host_words sess [0x180002, 0x180002] with
        key_bits := 0x08, key_bit_count := 4 } : host_session).key_bit_count ≤ 32 ∧
    (host_word_count ({ put_host_words sess [0x180002, 0x180002] with
        key_bits := 0x08, key_bit_count := 4 } : host_session)).2 = 2 ∧
    (∃ s', process_spi_byte { put_host_words sess [0x180002, 0x180002] with
          key_bits := 0x08, key_bit_count := 4 } 0x34 = some s' ∧
        s'.host_tx = [keybuf 0x1A] ∧ (host_word_count s').2 = 0 ∧ queued s' = [] ∧
        s'.erase_abort_count = 0) ∧
    (∃ s', process_spi_byte { put_host_words sess [0x180002, 0x180002] with
          key_bits := 0x0E, key_bit_count := 4 } 0x55 = some s' ∧
        s'.host_tx = [keybuf 0x32A] ∧
        ring_view s' = ring_view (put_host_words sess [0x180002, 0x180002])) := by
  refine ⟨by decide, by decide, ?_, ?_⟩
  · obtain ⟨s', a1, a2, a3, _⟩ := (process_spi_input_stop
      { put_host_words sess [0x180002, 0x180002] with key_bits := 0x08, key_bit_count := 4 }
      (by decide)).1 0x34 0x1A (by decide)
    obtain ⟨b1, b2, _, b4⟩ := a3 (Or.inl rfl)
    exact ⟨s', a1, a2, b1, b2, b4⟩
  · obtain ⟨s', a1, a2, _, a4⟩ := (process_spi_input_stop
      { put_host_words sess [0x180002, 0x180002] with key_bits := 0x0E, key_bit_count := 4 }
      (by decide)).1 0x55 0x32A (by decide)
    exact ⟨s', a1, a2, a4 (by decide)⟩

theorem keybuf_inj (k j : Nat) (hk : k < 1024) (hj : j < 1024) (h : keybuf k = keybuf j) :
    k = j := by
  obtain ⟨a1, _, _, a4⟩ := keybuf_table k hk
  obtain ⟨b1, _, _, b4⟩ := keybuf_table j hj
  rw [a1, b1, Prod.mk.injEq] at h
  rw [← a4, ← b4, h.1, h.2]

/-- The key-sending pass of the loop body of `process_spi_input`, with the
shifted accumulator, the key and the remaining bits named. -/
theorem process_spi_byte_key_eq (s : host_session) (byte c kb k r : Nat)
    (hc : s.key_bit_count = c) (h0 : c ≠ 0) (h12 : 12 ≤ c + 8) (h34 : c ≤ 34)
    (hs : spi_shifted s byte = kb) (hk : ((kb >>> (c + 8 - 12)) >>> 1) &&& 0x3FF = k)
    (hr : kb &&& ((1 <<< (c + 8 - 12)) - 1) = r) :
    process_spi_byte s byte =
      some { (if k = KEY_STOP ∨ k = KEY_STOP1 then abort_all_output (send_key s k)
              else send_key s k) with
             key_bits := r, key_bit_count := if r = 0 then 0 else fls r % 65536 } := by
  subst hc hs hk hr
  exact process_spi_byte_key s byte h0 h12 h34

/-- The loop of `process_spi_input` over the RX bytes 0x08 0x34 0 0 0 0, from
an empty accumulator: STOP is sent and the output is aborted. -/
theorem stop_bytes_run (s : host_session) (hk : keyset_view s = (0, 0)) :
    process_spi_bytes s [0x08, 0x34, 0, 0, 0, 0]
      = some { abort_all_output (send_key s 0x1A) with key_bits := 0, key_bit_count := 0 } := by
  unfold keyset_view at hk
  simp only [Prod.mk.injEq] at hk
  obtain ⟨hk1, hk2⟩ := hk
  have s1 : process_spi_byte s 0x08 = some { s with key_bit_count := 4, key_bits := 0x08 } := by
    have hf : fls 0x08 % 65536 = 4 := by decide
    rw [process_spi_byte_idle s 0x08 hk2, if_neg (by decide), hf]
  have hs : spi_shifted { s with key_bit_count := 4, key_bits := 0x08 } 0x34 = 0x834 := by
    show ((0x08 <<< 8) % 4294967296) ||| 0x34 = 0x834
    decide
  have s2 : process_spi_byte { s with key_bit_count := 4, key_bits := 0x08 } 0x34
      = some { abort_all_output (send_key s 0x1A) with key_bits := 0, key_bit_count := 0 } := by
    rw [process_spi_byte_key_eq { s with key_bit_count := 4, key_bits := 0x08 } 0x34 4 0x834
      0x1A 0 rfl (by decide) (by decide) (by decide) hs (by decide) (by decide)]
    rw [if_pos (Or.inl (by decide)), if_pos rfl]
    rfl
  have s3 : process_spi_byte
      { abort_all_output (send_key s 0x1A) with key_bits := 0, key_bit_count := 0 } 0
      = some { abort_all_output (send_key s 0x1A) with key_bits := 0, key_bit_count := 0 } := by
    rw [process_spi_byte_idle _ 0 rfl, if_pos rfl]
  rw [process_spi_bytes_cons _ _ _ _ s1, process_spi_bytes_cons _ _ _ _ s2,
    process_spi_bytes_cons _ _ _ _ s3, process_spi_bytes_cons _ _ _ _ s3,
    process_spi_bytes_cons _ _ _ _ s3, process_spi_bytes_cons _ _ _ _ s3]
  rfl

/-- A data word enqueued into an emptied ring and dequeued by `do_host_word`:
the word is returned and a pending echo reply is sent. -/
theorem flush_after_abort (s : host_session) (w : Nat) (hin : s.inwd_in < HOST_IN_WORDS)
    (he : s.inwd_out = s.inwd_in) (hz : s.erase_abort_count = 0) (hw : w &&& (1 <<< 19) ≠ 0) :
    ∃ s3, do_host_word 1 (put_host_word s w) = some (s3, w) ∧ s3.pending_echo = -1 ∧
      s3.host_tx = s.host_tx
        ++ (if s.pending_echo ≠ -1 then [keybuf (to_uint16 s.pending_echo)] else []) := by
  have hok : ring_ok s := ⟨hin, by rw [he]; exact hin⟩
  have hc0 : (host_word_count s).2 = 0 := count_zero_of_empty s he
  have hsc : is_screen_clear w = false := by
    unfold is_screen_clear
    rw [if_pos hw]
  have hcp : [w].countP is_screen_clear = 0 := by
    rw [List.countP_eq_zero]
    intro x hx
    rw [List.mem_singleton] at hx
    subst hx
    rw [hsc]; decide
  obtain ⟨p1, p2, _, p4, p5, p6, _⟩ := put_host_words_room [w] s hok
    (by rw [hc0]; show 0 + 1 < 5000; decide) (by rw [hcp, hz]; decide)
  rw [put_host_words_cons, put_host_words_nil] at p1 p2 p4 p5 p6
  rw [queued_of_empty s he.symm, List.nil_append] at p2
  rw [hcp, hz] at p4
  have hn : ∀ c, ¬ is_command w c := fun c h => hw h.1
  obtain ⟨s3, _, _, _, _, c5, c6, c7⟩ := do_host_word_quiet 0 (put_host_word s w) w [] p1 p4 p2
  have hw0 : w ≠ 0 := by
    intro h; rw [h] at hw; exact hw (by decide)
  rw [if_neg (hn _), if_pos (by decide)] at c5
  have x1 : ¬ (([] : List Nat).length = XON1LIMIT ∨ ([] : List Nat).length = XON2LIMIT) := by
    decide
  rw [if_neg (hn _), if_neg x1, p5, p6, List.append_nil] at c6
  have x2 : ¬ (is_command w CMD_LDE ∨ w = 0) := by
    intro h
    rcases h with h | h
    · exact hn _ h
    · exact hw0 h
  rw [if_neg x2, gsw_handle_other _ _ (hn _) (hn _)] at c7
  refine ⟨s3, c7, c5, ?_⟩
  rw [c6]
  congr 1
  have : ([] : List Nat).length < XOFF1LIMIT := by decide
  simp only [this, true_and]

/-- The session after an LDE word (echo code 0x42) and 3334 data words were
enqueued. -/
theorem lde_deep_state_facts :
    ring_ok (put_host_words sess (0x130084 :: List.replicate 3334 0x180002)) ∧
    queued (put_host_words sess (0x130084 :: List.replicate 3334 0x180002))
      = 0x130084 :: List.replicate 3334 0x180002 ∧
    (put_host_words sess (0x130084 :: List.replicate 3334 0x180002)).erase_abort_count = 0 ∧
    (put_host_words sess (0x130084 :: List.replicate 3334 0x180002)).host_tx = [] ∧
    (put_host_words sess (0x130084 :: List.replicate 3334 0x180002)).pending_echo = -1 ∧
    keyset_view (put_host_words sess (0x130084 :: List.replicate 3334 0x180002)) = (0, 0) := by
  have hcp : (0x130084 :: List.replicate 3334 0x180002).countP is_screen_clear = 0 := by
    rw [List.countP_eq_zero]
    intro w hw
    simp only [List.mem_cons, List.mem_replicate] at hw
    rcases hw with rfl | ⟨_, rfl⟩ <;> decide
  obtain ⟨p1, p2, _, p4, p5, p6, _⟩ := put_host_words_room
    (0x130084 :: List.replicate 3334 0x180002) sess (by decide)
    (by rw [List.length_cons, List.length_replicate]; decide)
    (by rw [hcp]; decide)
  rw [hcp] at p4
  exact ⟨p1, p2, p4, p6, p5, put_host_words_keyset _ sess⟩

/-- C18 fails as stated: the reply 0xC2 of an LDE is deferred at depth 3334;
the RX bytes 0x08 0x34 then decode STOP, which is sent and empties the ring,
but `pending_echo` still holds 0xC2; after the next data word is enqueued,
`do_host_word` sends the reply 0xC2 to the host. -/
theorem stop_keeps_pending_echo :
    ∃ s1 s2 s3 : host_session,
      do_host_word 1 (put_host_words sess (0x130084 :: List.replicate 3334 0x180002))
        = some (s1, 0) ∧
      s1.pending_echo = 0xC2 ∧ s1.host_tx = [] ∧
      process_spi_input (send_word s1 0 (fun i => [0x08, 0x34, 0, 0, 0, 0].getD i 0)).1
        = some s2 ∧
      s2.host_tx = [keybuf 0x1A] ∧ (host_word_count s2).2 = 0 ∧ s2.pending_echo = 0xC2 ∧
      do_host_word 1 (put_host_word s2 0x180002) = some (s3, 0x180002) ∧
      s3.host_tx = [keybuf 0x1A, keybuf 0xC2] ∧ s3.pending_echo = -1 := by
  obtain ⟨p1, p2, p4, p6, p5, p7⟩ := lde_deep_state_facts
  have hX : XOFF1LIMIT = 3333 := by decide
  have hX1 : XON1LIMIT = 1666 := by decide
  have hX2 : XON2LIMIT = 1250 := by decide
  have hl1 : (List.replicate 3334 0x180002).length = 3334 := List.length_replicate _ _
  obtain ⟨s1, a1, _, a3, _, a5, a6, a7⟩ := do_host_word_quiet 0 _ _ _ p1 p4 p2
  rw [if_pos (by decide), hl1, hX] at a5
  rw [if_pos (by decide), hl1, hX, hX1, hX2, p6] at a6
  rw [if_pos (Or.inl (by decide))] at a7
  have a5' : s1.pending_echo = 0xC2 := by rw [a5]; rfl
  have a6' : s1.host_tx = [] := by rw [a6]; rfl
  have k1 : keyset_view s1 = (0, 0) := by rw [do_host_word_keyset _ _ _ _ a7, p7]
  have hrun := stop_bytes_run
    (send_word s1 0 (fun i => [0x08, 0x34, 0, 0, 0, 0].getD i 0)).1 k1
  obtain ⟨s3, c1, c2, c3⟩ := flush_after_abort
    { abort_all_output (send_key
        (send_word s1 0 (fun i => [0x08, 0x34, 0, 0, 0, 0].getD i 0)).1 0x1A) with
      key_bits := 0, key_bit_count := 0 } 0x180002 a1.1 rfl rfl (by decide)
  refine ⟨s1, _, s3, a7, a5', a6', hrun, ?_, count_zero_of_empty _ rfl, a5', c1, ?_, c2⟩
  · show s1.host_tx ++ [keybuf 0x1A] = _
    rw [a6']; rfl
  · rw [c3]
    show (s1.host_tx ++ [keybuf 0x1A]) ++
      (if s1.pending_echo ≠ -1 then [keybuf (to_uint16 s1.pending_echo)] else []) = _
    rw [a6', a5']
    rfl

/-- C18, amended: `process_spi_input` never changes `pending_echo`. For an
accumulator of at most 32 bits and `inwd_in` in range, a call returns with
`pending_echo` as it was, whatever keys it decoded; if STOP (0x1A) was among
them the ring is empty afterwards and `erase_abort_count` is 0, and a data
word enqueued into the emptied ring and dequeued sends the pending reply.
Enqueuing keeps `pending_echo`, and a later `do_host_word` call that dequeues
a word `x` (on a reachable session, or any session whose selected voice has
a wave with samples) returns and settles
the pending reply: if `x` is not an LDE and fewer than 3333 words remain
queued, the reply is sent and `pending_echo` unset; if `x` is not an LDE and
3333 or more remain, the reply stays pending and nothing is sent; if `x` is
an LDE, the pending reply is replaced by the reply of `x` (sent at once when
at most 3333 remain, otherwise stored) and is not sent. -/
theorem process_spi_input_keeps_echo (s : host_session) (hc : s.key_bit_count ≤ 32)
    (hin : s.inwd_in < HOST_IN_WORDS) :
    ∃ (s' : host_session) (keys : List Nat), process_spi_input s = some s' ∧
      s'.host_tx = s.host_tx ++ keys.map keybuf ∧ (∀ k ∈ keys, k < 1024) ∧
      s'.pending_echo = s.pending_echo ∧
      (0x1A ∈ keys → (host_word_count s').2 = 0 ∧ s'.erase_abort_count = 0 ∧
        ∀ w, w &&& (1 <<< 19) ≠ 0 →
          ∃ s3, do_host_word 1 (put_host_word s' w) = some (s3, w) ∧ s3.pending_echo = -1 ∧
            s3.host_tx = s'.host_tx
              ++ (if s.pending_echo ≠ -1 then [keybuf (to_uint16 s.pending_echo)] else [])) ∧
      (∀ w, (put_host_word s' w).pending_echo = s.pending_echo) ∧
      ∀ (fuel : Nat) (t t1 : host_session) (x : Nat),
        t.pending_echo = s.pending_echo → t.inwd_in < HOST_IN_WORDS →
        t.inwd_in ≠ t.inwd_out → (reachable t ∨ (t.voices t.vix).wave.nsamp ≠ 0) →
        get_host_word fuel t = some (t1, x) →
        ∃ t2 w, do_host_word fuel t = some (t2, w) ∧
          (¬ is_command x CMD_LDE → (host_word_count t2).2 < 3333 →
            t2.pending_echo = -1 ∧
            t2.host_tx = t.host_tx
              ++ (if s.pending_echo ≠ -1 then [keybuf (to_uint16 s.pending_echo)] else [])
              ++ (if (host_word_count t2).2 = XON1LIMIT ∨ (host_word_count t2).2 = XON2LIMIT
                    then [keybuf KEY_XON] else [])) ∧
          (¬ is_command x CMD_LDE → 3333 ≤ (host_word_count t2).2 →
            t2.pending_echo = s.pending_echo ∧ t2.host_tx = t.host_tx) ∧
          (is_command x CMD_LDE →
            t2.pending_echo
                = (if (host_word_count t2).2 > 3333 then (echo_key x : Int) else -1) ∧
            t2.host_tx = t.host_tx
              ++ (if (host_word_count t2).2 > 3333 then [] else [keybuf (echo_key x)])
              ++ (if (host_word_count t2).2 = XON1LIMIT ∨ (host_word_count t2).2 = XON2LIMIT
                    then [keybuf KEY_XON] else [])) := by
  obtain ⟨s', keys, a1, _, a3, a4, a5, _, a7, a8, _⟩ := process_spi_input_run s hc
  refine ⟨s', keys, a1, a4, a5, a3, ?_, ?_, ?_⟩
  · intro h
    obtain ⟨c1, c2⟩ := a8 (Or.inl h)
    have he : s'.inwd_out = s'.inwd_in := by rw [c1, a7]
    refine ⟨count_zero_of_empty s' he, c2, ?_⟩
    intro w hw
    have := flush_after_abort s' w (by rw [a7]; exact hin) he c2 hw
    rw [a3] at this
    exact this
  · intro w
    rw [← a3]
    unfold put_host_word
    simp only
    split_ifs <;> rfl
  · intro fuel t t1 x hp htin hne hn hget
    obtain ⟨v1, v2⟩ := get_host_word_voices fuel t t1 x hget
    obtain ⟨⟨t2, w⟩, hdo'⟩ := do_host_word_rest_some t1 x
      (by rw [v1, v2]; exact reachable_nsamp t hn)
    have hdo : do_host_word fuel t = some (t2, w) := by
      rw [do_host_word_of_get fuel t t1 x hne hget, hdo']
    obtain ⟨r1, r2, r3, _⟩ := do_host_word_result fuel t t1 t2 x w htin hne hget hdo
    have hcnt := host_word_count_of_view _ _ r1
    rw [← hcnt] at r2 r3
    have hX : XOFF1LIMIT = 3333 := by decide
    have hX1 : XON1LIMIT = 1666 := by decide
    have hX2 : XON2LIMIT = 1250 := by decide
    rw [hX, hp] at r2 r3
    refine ⟨t2, w, hdo, ?_, ?_, ?_⟩
    · intro hx hlt
      rw [if_neg hx, if_pos hlt] at r2
      rw [if_neg hx] at r3
      refine ⟨r2, ?_⟩
      rw [r3]
      by_cases hpe : s.pending_echo ≠ -1
      · rw [if_pos ⟨hlt, hpe⟩, if_pos hpe]
      · rw [if_neg (fun h => hpe h.2), if_neg hpe]
    · intro hx hge
      rw [if_neg hx, if_neg (by omega)] at r2
      rw [if_neg hx, if_neg (fun h => absurd h.1 (by omega)), hX1, hX2,
        if_neg (by omega)] at r3
      refine ⟨r2, ?_⟩
      rw [r3, List.append_nil, List.append_nil]
    · intro hx
      rw [if_pos hx] at r2 r3
      exact ⟨r2, r3⟩

/-- C18, amended, at a session with the reply 0xC2 pending and the RX bytes
0x08 0x34 that decode STOP: the reply is still pending after the call; a data
word enqueued next flushes it, while an LDE word enqueued next (reply 0xC3)
replaces it unsent. -/
theorem process_spi_input_keeps_echo_witness :
    ∃ s' : host_session,
      process_spi_input (send_word { sess with pending_echo := 0xC2 } 0
        (fun i => [0x08, 0x34, 0, 0, 0, 0].getD i 0)).1 = some s' ∧
      s'.host_tx = [keybuf 0x1A] ∧ s'.pending_echo = 0xC2 ∧ (host_word_count s').2 = 0 ∧
      (∃ s3, do_host_word 1 (put_host_word s' 0x180002) = some (s3, 0x180002) ∧
        s3.pending_echo = -1 ∧ s3.host_tx = [keybuf 0x1A, keybuf 0xC2]) ∧
      (do_host_word 1 (put_host_word s' 0x130087)).map
        (fun r => (r.1.pending_echo, r.1.host_tx, r.2))
          = some (-1, [keybuf 0x1A, keybuf 0xC3], 0) := by
  obtain ⟨s', keys, a1, a2, a3, a4, a5, _, _⟩ := process_spi_input_keeps_echo
    (send_word { sess with pending_echo := 0xC2 } 0
      (fun i => [0x08, 0x34, 0, 0, 0, 0].getD i 0)).1 (by decide) (by decide)
  have hrun := stop_bytes_run
    (send_word { sess with pending_echo := 0xC2 } 0
      (fun i => [0x08, 0x34, 0, 0, 0, 0].getD i 0)).1 rfl
  have e : s' = _ := Option.some.inj (a1.symm.trans hrun)
  have htx : s'.host_tx = [keybuf 0x1A] := by rw [e]; rfl
  have hkeys : keys = [0x1A] := by
    rw [htx] at a2
    have a2' : [keybuf 0x1A] = keys.map keybuf := a2
    have hlen : keys.length = 1 := by
      have := congrArg List.length a2'
      rw [List.length_map, List.length_singleton] at this
      exact this.symm
    obtain ⟨k, hk⟩ := List.length_eq_one.1 hlen
    rw [hk] at a2' a3
    simp only [List.map_cons, List.map_nil, List.cons.injEq, and_true] at a2'
    rw [hk, keybuf_inj k 0x1A (a3 k (List.mem_singleton.2 rfl)) (by decide) a2'.symm]
  obtain ⟨b1, _, b2⟩ := a5 (by rw [hkeys]; exact List.mem_singleton.2 rfl)
  obtain ⟨s3, c1, c2, c3⟩ := b2 0x180002 (by decide)
  refine ⟨s', a1, htx, by rw [a4]; rfl, b1, ⟨s3, c1, c2, ?_⟩, ?_⟩
  · rw [c3, htx]
    rfl
  · rw [e]
    decide

/-! ## A word dropped on overflow -/

/-- C21 at its failing input: the ring holds 4999 data words and a
screen-erase LDM is offered to `put_host_word`. The call drops the word, with
`inwd_in`, `inwd_out`, `host_word_count` and the queued words unchanged; yet
the next `do_host_word` call delivers the dropped word `0x110002`, which was
not among the queued words, where without the dropped word it delivers the
oldest queued word `0x180002`. -/
theorem put_host_word_drop_delivered :
    (host_word_count (put_host_words sess (List.replicate 4999 0x180002))).2 = 4999 ∧
    (put_host_word (put_host_words sess (List.replicate 4999 0x180002)) 0x110002).inwd_in
      = (put_host_words sess (List.replicate 4999 0x180002)).inwd_in ∧
    (put_host_word (put_host_words sess (List.replicate 4999 0x180002)) 0x110002).inwd_out
      = (put_host_words sess (List.replicate 4999 0x180002)).inwd_out ∧
    (host_word_count
      (put_host_word (put_host_words sess (List.replicate 4999 0x180002)) 0x110002)).2 = 4999 ∧
    queued (put_host_word (put_host_words sess (List.replicate 4999 0x180002)) 0x110002)
      = queued (put_host_words sess (List.replicate 4999 0x180002)) ∧
    0x110002 ∉ queued (put_host_words sess (List.replicate 4999 0x180002)) ∧
    (∃ s2, do_host_word 5000 (put_host_words sess (List.replicate 4999 0x180002))
      = some (s2, 0x180002)) ∧
    (∃ s3, do_host_word 5000
      (put_host_word (put_host_words sess (List.replicate 4999 0x180002)) 0x110002)
        = some (s3, 0x110002)) := by
  obtain ⟨p1, p2, p3, _, q2, q3, _, _⟩ := full_ring_facts
  obtain ⟨_, _, _, p4, _, _, p7⟩ := put_host_words_room
    (List.replicate 4999 0x180002) sess (by decide)
    (by rw [List.length_replicate]; decide) (by rw [countP_replicate_data]; decide)
  have he0 : sess.erase_abort_count = 0 := rfl
  have hm0 : sess.current_mode = 0 := rfl
  rw [countP_replicate_data, he0] at p4
  rw [hm0] at p7
  obtain ⟨s3, a1, a2, _, _⟩ := do_host_word_after_dropped_erase _ p1 p2 p4 p7
  have hq : queued (put_host_words sess (List.replicate 4999 0x180002))
      = 0x180002 :: List.replicate 4998 0x180002 := by rw [p2]; rfl
  obtain ⟨s2, _, _, _, _, _, _, b7⟩ := do_host_word_quiet 4999 _ _ _ p1 p4 hq
  rw [if_neg (by decide), gsw_handle_other _ _ (by decide) (by decide)] at b7
  refine ⟨p3, q3, put_host_word_inwd_out _ _, a1, by rw [q2, p2], ?_, ⟨s2, b7⟩, ⟨s3, a2⟩⟩
  rw [p2]
  intro h
  rw [List.mem_replicate] at h
  exact absurd h.2 (by decide)

/-! ## Parity of stored words -/

theorem xor_eq_add_mod_two (a b : Nat) (ha : a < 2) (hb : b < 2) : a ^^^ b = (a + b) % 2 := by
  interval_cases a <;> interval_cases b <;> rfl

theorem bits_xor_eq_count (n : Nat) : ∀ w, bits_xor n w = bits_count n w % 2 := by
  induction n with
  | zero => intro w; rfl
  | succ n ih =>
    intro w
    simp only [bits_xor, bits_count]
    rw [xor_eq_add_mod_two _ _ (Nat.mod_lt _ (by decide)) (bits_xor_lt_two n _), ih]
    omega

/-- The word `host_word` returns for a frame of bytes, when it is not the
error value: bit 0 is the XOR of the 19 payload bits in bits 19..1. -/
theorem host_word_stored_parity (s : host_session) (b0 b1 b2 r : Nat) (h0 : b0 < 256)
    (h : (host_word s b0 b1 b2).2 = (r : Int)) :
    r &&& 1 = bits_xor 19 ((r >>> 1) &&& 0x7FFFF) := by
  by_cases hc : b0 &&& 0o200 ≠ 0 ∨ b1 &&& 0o300 ≠ 0o200 ∨ b2 &&& 0o300 ≠ 0o300
  · unfold host_word at h
    rw [if_pos hc] at h
    simp only at h
    omega
  · rw [not_or, not_or, not_not, not_not, not_not] at hc
    obtain ⟨c0, c1, c2⟩ := hc
    have hb0 : b0 < 0x80 := by
      by_contra hge
      exact ((and_0x80_of_lt b0 h0).2 (by omega)) c0
    rw [host_word_accept s b0 b1 b2 hb0 c1 c2] at h
    simp only at h
    have hr : r = 2 ^ 20 + 2 * (b0 * 4096 + (b1 % 64) * 64 + b2 % 64)
        + bits_xor 19 (b0 * 4096 + (b1 % 64) * 64 + b2 % 64) := by omega
    have hq : b0 * 4096 + (b1 % 64) * 64 + b2 % 64 < 2 ^ 19 := by omega
    generalize b0 * 4096 + (b1 % 64) * 64 + b2 % 64 = q at hr hq
    have hb := bits_xor_lt_two 19 q
    have e1 : r &&& 1 = r % 2 ^ 1 := Nat.and_pow_two_sub_one_eq_mod r 1
    have e2 : (r >>> 1) &&& 0x7FFFF = (r >>> 1) % 2 ^ 19 :=
      Nat.and_pow_two_sub_one_eq_mod _ 19
    have e3 : (r >>> 1) % 2 ^ 19 = q := by
      rw [Nat.shiftRight_eq_div_pow]; omega
    rw [e1, e2, e3]
    omega

/-- C22: for every 32-bit value `w`, `host_word_parity w` is the XOR of the
32 bits of `w`, which is 1 when the number of set bits is odd and 0 when it is
even; bit `i` of the table `0x96696996` is the XOR of the five bits of `i` for
every `i` in 0..31; and in every word that `host_word` returns for three
bytes, bit 0 is the XOR of the 19 payload bits held in bits 19..1. -/
theorem host_word_parity_xor (w : Nat) (hw : w < 2 ^ 32) :
    host_word_parity w = bits_xor 32 w ∧
    host_word_parity w = bits_count 32 w % 2 ∧
    (∀ i, i < 32 → (0x96696996 >>> i) &&& 1 = bits_xor 5 i ∧ bits_xor 5 i = bits_count 5 i % 2) ∧
    (∀ (s : host_session) (b0 b1 b2 r : Nat), b0 < 256 →
      (host_word s b0 b1 b2).2 = (r : Int) →
      r &&& 1 = bits_xor 19 ((r >>> 1) &&& 0x7FFFF)) := by
  have h1 : host_word_parity w = bits_xor 32 w :=
    host_word_parity_of_lt 32 w (by decide) hw
  refine ⟨h1, by rw [h1, bits_xor_eq_count], ?_, ?_⟩
  · intro i hi
    exact ⟨p32_table i hi, bits_xor_eq_count 5 i⟩
  · intro s b0 b1 b2 r h0 h
    exact host_word_stored_parity s b0 b1 b2 r h0 h

/-- C22 at the value `0x10495` and at the frame `0x10 0x92 0xD5`. -/
theorem host_word_parity_xor_witness :
    0x10495 < 2 ^ 32 ∧ host_word_parity 0x10495 = bits_count 32 0x10495 % 2 ∧
    bits_count 32 0x10495 = 6 ∧ host_word_parity 0x10495 = 0 ∧
    (host_word sess 0x10 0x92 0xD5).2 = 0x12092A ∧
    0x12092A &&& 1 = bits_xor 19 ((0x12092A >>> 1) &&& 0x7FFFF) :=
  ⟨by decide, (host_word_parity_xor 0x10495 (by decide)).2.1, by decide, by decide, by decide,
   (host_word_parity_xor 0x10495 (by decide)).2.2.2 sess 0x10 0x92 0xD5 0x12092A (by decide)
     (by decide)⟩

/-! ## Echo replies at the XOFF1 boundary -/

/-- The session after an LDE word (echo code 0x42) and `n` data words were
enqueued. -/
theorem lde_ring_facts (n : Nat) (hn : n < 4999) :
    ring_ok (put_host_words sess (0x130084 :: List.replicate n 0x180002)) ∧
    queued (put_host_words sess (0x130084 :: List.replicate n 0x180002))
      = 0x130084 :: List.replicate n 0x180002 ∧
    (host_word_count (put_host_words sess (0x130084 :: List.replicate n 0x180002))).2 = n + 1 ∧
    (put_host_words sess (0x130084 :: List.replicate n 0x180002)).erase_abort_count = 0 ∧
    (put_host_words sess (0x130084 :: List.replicate n 0x180002)).host_tx = [] ∧
    (put_host_words sess (0x130084 :: List.replicate n 0x180002)).pending_echo = -1 := by
  have hcp : (0x130084 :: List.replicate n 0x180002).countP is_screen_clear = 0 := by
    rw [List.countP_eq_zero]
    intro w hw
    simp only [List.mem_cons, List.mem_replicate] at hw
    rcases hw with rfl | ⟨_, rfl⟩ <;> decide
  have hc0 : (host_word_count sess).2 = 0 := by decide
  obtain ⟨p1, p2, p3, p4, p5, p6, _⟩ := put_host_words_room
    (0x130084 :: List.replicate n 0x180002) sess (by decide)
    (by rw [List.length_cons, List.length_replicate, hc0]; show 0 + (n + 1) < 5000; omega)
    (by rw [hcp]; decide)
  rw [hcp] at p4
  rw [List.length_cons, List.length_replicate, hc0, Nat.zero_add] at p3
  exact ⟨p1, p2, p3, p4, p6, p5⟩

/-- C25 fails as stated: an LDE dequeued from a ring of depth 3334, which
leaves depth 3333 (XOFF1), has its reply 0xC2 sent at once and `pending_echo`
unset; so has an LDE dequeued from a ring of depth 3333, which leaves 3332. -/
theorem lde_at_xoff1_sent :
    (host_word_count (put_host_words sess (0x130084 :: List.replicate 3333 0x180002))).2
      = 3334 ∧
    (∃ s1, do_host_word 1 (put_host_words sess (0x130084 :: List.replicate 3333 0x180002))
        = some (s1, 0) ∧
      (host_word_count s1).2 = 3333 ∧ s1.host_tx = [keybuf 0xC2] ∧ s1.pending_echo = -1) ∧
    (host_word_count (put_host_words sess (0x130084 :: List.replicate 3332 0x180002))).2
      = 3333 ∧
    (∃ s1, do_host_word 1 (put_host_words sess (0x130084 :: List.replicate 3332 0x180002))
        = some (s1, 0) ∧
      (host_word_count s1).2 = 3332 ∧ s1.host_tx = [keybuf 0xC2] ∧ s1.pending_echo = -1) := by
  have hX : XOFF1LIMIT = 3333 := by decide
  have hX1 : XON1LIMIT = 1666 := by decide
  have hX2 : XON2LIMIT = 1250 := by decide
  obtain ⟨p1, p2, p3, p4, p5, _⟩ := lde_ring_facts 3333 (by decide)
  obtain ⟨q1, q2, q3, q4, q5, _⟩ := lde_ring_facts 3332 (by decide)
  have hl1 : (List.replicate 3333 0x180002).length = 3333 := List.length_replicate _ _
  have hl2 : (List.replicate 3332 0x180002).length = 3332 := List.length_replicate _ _
  obtain ⟨s1, _, a2, _, _, a5, a6, a7⟩ := do_host_word_quiet 0 _ _ _ p1 p4 p2
  rw [if_pos (by decide), hl1, hX] at a5
  rw [if_pos (by decide), hl1, hX, hX1, hX2, p5] at a6
  rw [if_pos (Or.inl (by decide))] at a7
  obtain ⟨s2, _, b2, _, _, b5, b6, b7⟩ := do_host_word_quiet 0 _ _ _ q1 q4 q2
  rw [if_pos (by decide), hl2, hX] at b5
  rw [if_pos (by decide), hl2, hX, hX1, hX2, q5] at b6
  rw [if_pos (Or.inl (by decide))] at b7
  refine ⟨p3, ⟨s1, a7, ?_, ?_, ?_⟩, q3, ⟨s2, b7, ?_, ?_, ?_⟩⟩
  · rw [← queued_length, a2, hl1]
  · rw [a6]; rfl
  · rw [a5]; rfl
  · rw [← queued_length, b2, hl2]
  · rw [b6]; rfl
  · rw [b5]; rfl

/-- C25, amended: a Load-Echo dequeued (erase-abort counter 0) whose removal
leaves ring depth 3332 (XOFF1 - 1) or 3333 (XOFF1) has its reply sent to the
host in that call and `pending_echo` unset; the reply is deferred into
`pending_echo`, with nothing sent, when the depth left is 3334 (XOFF1 + 1),
and in general exactly when the depth left exceeds XOFF1. -/
theorem do_host_word_lde_boundary (fuel : Nat) (s : host_session) (w : Nat) (rest : List Nat)
    (hok : ring_ok s) (he : s.erase_abort_count = 0) (hq : queued s = w :: rest)
    (hx : is_command w CMD_LDE) :
    (host_word_count s).2 = rest.length + 1 ∧
    ∃ s', do_host_word (fuel + 1) s = some (s', 0) ∧ (host_word_count s').2 = rest.length ∧
      (rest.length = 3332 ∨ rest.length = 3333 →
        s'.host_tx = s.host_tx ++ [keybuf (echo_key w)] ∧ s'.pending_echo = -1) ∧
      (rest.length = 3334 → s'.host_tx = s.host_tx ∧ s'.pending_echo = (echo_key w : Int)) ∧
      (s'.pending_echo = (echo_key w : Int) ↔ 3333 < rest.length) := by
  have hX : XOFF1LIMIT = 3333 := by decide
  have hX1 : XON1LIMIT = 1666 := by decide
  have hX2 : XON2LIMIT = 1250 := by decide
  obtain ⟨s', _, a2, _, _, a5, a6, a7⟩ := do_host_word_quiet fuel s w rest hok he hq
  rw [if_pos hx, hX] at a5
  rw [if_pos hx, hX, hX1, hX2] at a6
  rw [if_pos (Or.inl hx)] at a7
  have hk : (echo_key w : Int) ≠ -1 := by omega
  refine ⟨by rw [← queued_length, hq, List.length_cons], s', a7,
    by rw [← queued_length, a2], ?_, ?_, ?_⟩
  · intro h
    have g1 : ¬ rest.length > 3333 := by omega
    have g2 : ¬ (rest.length = 1666 ∨ rest.length = 1250) := by omega
    rw [a5, a6, if_neg g1, if_neg g1, if_neg g2, List.append_nil]
    exact ⟨rfl, rfl⟩
  · intro h
    have g1 : rest.length > 3333 := by omega
    have g2 : ¬ (rest.length = 1666 ∨ rest.length = 1250) := by omega
    rw [a5, a6, if_pos g1, if_pos g1, if_neg g2, List.append_nil, List.append_nil]
    exact ⟨rfl, rfl⟩
  · rw [a5]
    constructor
    · intro h
      by_contra hc
      rw [if_neg hc] at h
      exact hk h.symm
    · intro h
      rw [if_pos h]

/-- C25, amended, at rings that hold an LDE followed by 3332, 3333 and 3334
data words. -/
theorem do_host_word_lde_boundary_witness :
    (∃ s', do_host_word 1 (put_host_words sess (0x130084 :: List.replicate 3332 0x180002))
        = some (s', 0) ∧ s'.host_tx = [keybuf 0xC2] ∧ s'.pending_echo = -1) ∧
    (∃ s', do_host_word 1 (put_host_words sess (0x130084 :: List.replicate 3333 0x180002))
        = some (s', 0) ∧ s'.host_tx = [keybuf 0xC2] ∧ s'.pending_echo = -1) ∧
    (∃ s', do_host_word 1 (put_host_words sess (0x130084 :: List.replicate 3334 0x180002))
        = some (s', 0) ∧ s'.host_tx = [] ∧ s'.pending_echo = 0xC2) := by
  obtain ⟨p1, p2, _, p4, p5, _⟩ := lde_ring_facts 3332 (by decide)
  obtain ⟨q1, q2, _, q4, q5, _⟩ := lde_ring_facts 3333 (by decide)
  obtain ⟨r1, r2, _, r4, r5, _⟩ := lde_ring_facts 3334 (by decide)
  obtain ⟨_, s1, a1, _, a3, _, _⟩ := do_host_word_lde_boundary 0 _ _ _ p1 p4 p2 (by decide)
  obtain ⟨_, s2, b1, _, b3, _, _⟩ := do_host_word_lde_boundary 0 _ _ _ q1 q4 q2 (by decide)
  obtain ⟨_, s3, c1, _, _, c4, _⟩ := do_host_word_lde_boundary 0 _ _ _ r1 r4 r2 (by decide)
  obtain ⟨a4, a5⟩ := a3 (Or.inl (List.length_replicate _ _))
  obtain ⟨b4, b5⟩ := b3 (Or.inr (List.length_replicate _ _))
  obtain ⟨c5, c6⟩ := c4 (List.length_replicate _ _)
  rw [p5] at a4
  rw [q5] at b4
  rw [r5] at c5
  exact ⟨⟨s1, a1, a4, a5⟩, ⟨s2, b1, b4, b5⟩, ⟨s3, c1, c5, c6⟩⟩

/-! ## The AUD and EXT scenario -/

/-- C26 fails as stated: the AUD word `0x167FF1`, which `host_word` builds
from the frame `0x33 0xBF 0xF8` and whose payload is `0x3FF8`, sets the
amplitude of voice 3 to table entry 0 (multiplier 2187, shift 14), not to the
loudest entry 7 (multiplier 1, shift 0). -/
theorem aud_0x3FF8_voice3 :
    (host_word sess 0x33 0xBF 0xF8).2 = 0x167FF1 ∧
    is_command 0x167FF1 CMD_AUD ∧ (0x167FF1 >>> 1) &&& 0x7FFF = 0x3FF8 ∧
    (gsw_handle sess 0x167FF1).map (fun r => (r.1.voices 3).amp) = some (some 0) ∧
    amp.get? 0 = some ⟨2187, 14⟩ ∧ amp.get? 7 = some ⟨1, 0⟩ := by
  decide

/-- C26, amended: an AUD command with payload `0x3FF8` sets `vs = vix = 3`,
sets voices 0, 1 and 2 to the loudest amplitude-table entry 7 (multiplier 1,
shift 0) and voice 3 to entry 0 (multiplier 2187, shift 14); a following EXT
whose frequency code is 2048 then sets the divisor of voice 3 to 8194, leaves
the divisors of the other voices unchanged and decrements `vix` to 2. -/
theorem gsw_handle_aud_ext_scenario (s : host_session) (aud ext : Nat)
    (ha : is_command aud CMD_AUD) (hp : (aud >>> 1) &&& 0x7FFF = 0x3FF8)
    (hx : is_command ext CMD_EXT) (he : (ext >>> 1) &&& 0x7FFF = 2048)
    (hn : (s.voices 3).wave.nsamp = 2) :
    ∃ s1 s2, gsw_handle s aud = some (s1, NOP_WORD) ∧ s1.vs = 3 ∧ s1.vix = 3 ∧
      (s1.voices 0).amp = some 7 ∧ (s1.voices 1).amp = some 7 ∧
      (s1.voices 2).amp = some 7 ∧ (s1.voices 3).amp = some 0 ∧
      amp.get? 7 = some ⟨1, 0⟩ ∧ amp.get? 0 = some ⟨2187, 14⟩ ∧
      gsw_handle s1 ext = some (s2, NOP_WORD) ∧ (s2.voices 3).div = 8194 ∧
      (∀ v, v < 3 → (s2.voices v).div = (s.voices v).div) ∧ s2.vix = 2 ∧ s2.vs = 3 := by
  obtain ⟨s1, a1, a2, _⟩ := gsw_handle_aud s aud ha
  have hne : aud &&& 0x7800 ≠ 0 := by
    intro h
    have := (aud_nop_test aud).1 h
    rw [hp] at this
    exact absurd this (by decide)
  obtain ⟨b1, b2, b3, b4, b5, b6, b7⟩ := a2 hne
  rw [hp] at b1 b2 b4 b5 b6 b7
  have b1 : s1.vs = 3 := b1
  have b2 : s1.vix = 3 := b2
  have hn1 : (s1.voices s1.vix).wave.nsamp = 2 := by
    rw [b2]
    show (s1.voices 3).wave.nsamp = 2
    rw [b7]
    exact hn
  obtain ⟨s2, c1⟩ := gsw_handle_ext_some s1 ext hx (by rw [hn1]; decide)
  obtain ⟨_, d2, d3, d4, _, d6, _⟩ := gsw_handle_ext_result s1 s2 ext NOP_WORD hx c1
  rw [he, b2] at d2
  rw [b2] at d3
  have d4' := d4 b3
  rw [b2] at d4'
  refine ⟨s1, s2, a1, b1, b2, by rw [b4]; rfl, by rw [b5]; rfl, by rw [b6]; rfl,
    by rw [b7]; rfl, by decide, by decide, c1, d2, ?_, d4', by rw [d6, b1]⟩
  intro v hv
  rw [d3 v (by omega)]
  by_cases h0 : v = 0
  · subst h0; rw [b4]
  · by_cases h1 : v = 1
    · subst h1; rw [b5]
    · by_cases h2 : v = 2
      · subst h2; rw [b6]
      · omega

/-- C26, amended, at the initial session with the AUD word `0x167FF1` and the
EXT word `0x171000`. -/
theorem gsw_handle_aud_ext_scenario_witness :
    ∃ s1 s2, gsw_handle sess 0x167FF1 = some (s1, NOP_WORD) ∧ s1.vs = 3 ∧ s1.vix = 3 ∧
      (s1.voices 2).amp = some 7 ∧ (s1.voices 3).amp = some 0 ∧
      gsw_handle s1 0x171000 = some (s2, NOP_WORD) ∧ (s2.voices 3).div = 8194 ∧
      s2.vix = 2 := by
  obtain ⟨s1, s2, h1, h2, h3, _, _, h6, h7, _, _, h10, h11, _, h13, _⟩ :=
    gsw_handle_aud_ext_scenario sess 0x167FF1 0x171000 (by decide) (by decide) (by decide)
      (by decide) (by decide)
  exact ⟨s1, s2, h1, h2, h3, h6, h7, h10, h11, h13⟩

/-! ## Words made by `make_word` -/

theorem bits_xor_low (n w : Nat) : bits_xor (n + 1) w = (w % 2) ^^^ bits_xor n (w / 2) := rfl

/-- C27 fails as stated: the data word `0x82000` that `pack_tb` builds from
the characters 1, 0, 0 gives `make_word` the word `0x182000`, whose 19 payload
bits (bits 19..1) have XOR 0; so does the payload 0. -/
theorem make_word_even_payload :
    make_word 0x82000 = 0x182000 ∧
    bits_xor 19 ((make_word 0x82000 >>> 1) &&& 0x7FFFF) = 0 ∧
    make_word 0 = 0x100000 ∧ bits_xor 19 ((make_word 0 >>> 1) &&& 0x7FFFF) = 0 := by
  decide

/-- C27, amended: for every word `w` below `2^20` with bit 0 clear (a payload
in bits 19..1), `make_word w` keeps the payload, sets the start bit 20 and
sets bit 0 to the XOR of the 19 payload bits; so the XOR over bits 19..0
(payload and parity bit) is 0 and the XOR over all 21 bits, start bit
included, is 1. -/
theorem make_word_parity (w : Nat) (hw : w < 2 ^ 20) (h0 : w % 2 = 0) :
    make_word w = 2 ^ 20 + w + bits_xor 19 (w >>> 1) ∧
    (make_word w >>> 1) &&& 0x7FFFF = w >>> 1 ∧
    make_word w &&& 1 = bits_xor 19 ((make_word w >>> 1) &&& 0x7FFFF) ∧
    make_word w >>> 20 = 1 ∧
    bits_xor 20 (make_word w) = 0 ∧ bits_xor 21 (make_word w) = 1 := by
  have hsr : w >>> 1 = w / 2 := by rw [Nat.shiftRight_eq_div_pow, pow_one]
  have hq : w / 2 < 2 ^ 19 := by omega
  have hwq : w = (w / 2) <<< 1 := by rw [Nat.shiftLeft_eq]; omega
  have hb := bits_xor_lt_two 19 (w / 2)
  have hpar : host_word_parity w = bits_xor 19 (w / 2) := by
    rw [host_word_parity_of_lt 20 w (by decide) hw]
    rw [bits_xor_low 19 w, h0, Nat.zero_xor]
  have hmk : make_word w = 2 ^ 20 + w + bits_xor 19 (w / 2) := by
    unfold make_word
    simp only
    rw [hpar]
    have e : (w ||| bits_xor 19 (w / 2)) ||| (1 <<< 20)
        = (1 <<< 20) ||| ((w / 2) <<< 1) ||| bits_xor 19 (w / 2) := by
      rw [← hwq, Nat.lor_comm, Nat.lor_assoc]
    rw [e, word_or (w / 2) _ hq hb]
    omega
  have e1 : ∀ x : Nat, x &&& 1 = x % 2 ^ 1 := fun x => Nat.and_pow_two_sub_one_eq_mod x 1
  have e2 : ∀ x : Nat, x &&& 0x7FFFF = x % 2 ^ 19 := fun x =>
    Nat.and_pow_two_sub_one_eq_mod x 19
  have hpay : (make_word w >>> 1) &&& 0x7FFFF = w / 2 := by
    rw [e2, hmk, Nat.shiftRight_eq_div_pow]; omega
  have h20 : bits_xor 20 (make_word w) = 0 := by
    rw [bits_xor_low 19 (make_word w)]
    have a1 : make_word w % 2 = bits_xor 19 (w / 2) := by rw [hmk]; omega
    have a2 : make_word w / 2 = 2 ^ 19 + w / 2 := by rw [hmk]; omega
    rw [a1, a2, ← bits_xor_mod 19 (2 ^ 19 + w / 2)]
    have a3 : (2 ^ 19 + w / 2) % 2 ^ 19 = w / 2 := by omega
    rw [a3, Nat.xor_self]
  refine ⟨by rw [hsr]; exact hmk, by rw [hsr]; exact hpay, ?_, ?_, h20, ?_⟩
  · rw [hpay, e1, hmk]; omega
  · rw [hmk, Nat.shiftRight_eq_div_pow]; omega
  · rw [show (21 : Nat) = 20 + 1 from rfl, bits_xor_add, h20, Nat.zero_xor]
    have a4 : make_word w / 2 ^ 20 = 1 := by rw [hmk]; omega
    rw [a4]
    rfl

/-- C27, amended, at the clear-screen command word of `platomsg.c`,
`CMD_DEF(CMD_LDM, 033 << 1)`, and at the data word `0x82000`. -/
theorem make_word_parity_witness :
    make_word 0x10036 = 0x110037 ∧ bits_xor 21 (make_word 0x10036) = 1 ∧
    make_word 0x82000 = 0x182000 ∧ bits_xor 21 (make_word 0x82000) = 1 := by
  have h1 := make_word_parity 0x10036 (by decide) (by decide)
  have h2 := make_word_parity 0x82000 (by decide) (by decide)
  exact ⟨by decide, h1.2.2.2.2.2, by decide, h2.2.2.2.2.2⟩

/-! ## The reciprocal computed by `frac_gen` -/

theorem bit_clear_of_lt (b l : Nat) (hl : l < 2 ^ b) : (1 <<< b) &&& l = 0 := by
  apply Nat.eq_of_testBit_eq
  intro i
  rw [Nat.testBit_and, Nat.one_shiftLeft, Nat.zero_testBit]
  by_cases hi : i = b
  · subst hi
    rw [Nat.testBit_lt_two_pow hl, Bool.and_false]
  · rw [Nat.testBit_two_pow, decide_eq_false (fun h => hi h.symm), Bool.false_and]

/-- The bit search of `frac_gen`, started at a bit above the value, stops at
the highest set bit. -/
theorem frac_gen_bit_spec (b : Nat) :
    ∀ fuel l : Nat, b < fuel → b ≤ 31 → 0 < l → l < 2 ^ (b + 1) →
      ∃ k, frac_gen_bit fuel b l = some k ∧ k ≤ b ∧ 2 ^ k ≤ l ∧ l < 2 ^ (k + 1) := by
  induction b with
  | zero =>
    intro fuel l hf _ h0 hl
    have : l = 1 := by omega
    subst this
    obtain ⟨f, rfl⟩ : ∃ f, fuel = f + 1 := ⟨fuel - 1, by omega⟩
    exact ⟨0, by rw [frac_gen_bit_step f 0 1 (by omega), if_neg (by decide)], le_refl _,
      by decide, by decide⟩
  | succ b ih =>
    intro fuel l hf hb h0 hl
    obtain ⟨f, rfl⟩ : ∃ f, fuel = f + 1 := ⟨fuel - 1, by omega⟩
    have e : (b + 1 + 4294967295) % 4294967296 = b := by omega
    by_cases hbit : (1 <<< (b + 1)) &&& l = 0
    · obtain ⟨k, hk, hkb, h1, h2⟩ := ih f l (by omega) (by omega) h0
        (lt_two_pow_of_bit_clear (b + 1) l hl hbit)
      exact ⟨k, by rw [frac_gen_bit_step f (b + 1) l hb, if_pos hbit, e, hk], by omega, h1, h2⟩
    · refine ⟨b + 1, by rw [frac_gen_bit_step f (b + 1) l hb, if_neg hbit], le_refl _, ?_, hl⟩
      by_contra hc
      exact hbit (bit_clear_of_lt (b + 1) l (by omega))

/-- `frac_gen` in closed form, for a divisor from 2 to `2^30`: with `q` the
quotient `2^30 / d` and `bit` the index of its highest set bit, the result is
`(q, 30)` when `bit <= 15` and otherwise `q` rounded to 16 bits,
`((q + 2^(bit-16)) / 2^(bit-15), 45 - bit)`. -/
theorem frac_gen_spec (d : Nat) (h2 : 2 ≤ d) (hd : d ≤ 2 ^ 30) :
    ∃ bit, bit ≤ 29 ∧ 2 ^ bit ≤ 2 ^ 30 / d ∧ 2 ^ 30 / d < 2 ^ (bit + 1) ∧
      frac_gen d =
        some (if bit > 15 then ((2 ^ 30 / d + 2 ^ (bit - 16)) / 2 ^ (bit - 15), 45 - bit)
              else (2 ^ 30 / d, 30)) := by
  have hl0 : 0 < 2 ^ 30 / d := Nat.div_pos hd (by omega)
  have hl1 : 2 ^ 30 / d < 2 ^ (29 + 1) := Nat.div_lt_self (by decide) (by omega)
  obtain ⟨k, hk, hk29, hk1, hk2⟩ := frac_gen_bit_spec 29 32 _ (by decide) (by decide) hl0 hl1
  refine ⟨k, hk29, hk1, hk2, ?_⟩
  unfold frac_gen
  rw [if_neg (by omega)]
  simp only [Nat.one_shiftLeft, hk]
  by_cases hb : k > 15
  · rw [if_pos hb, if_pos hb]
    have hp : 2 ^ (k - 16) ≤ 2 ^ 13 := Nat.pow_le_pow_right (by decide) (by omega)
    have e1 : (k - 16) % 32 = k - 16 := Nat.mod_eq_of_lt (by omega)
    have e2 : (k - 15) % 32 = k - 15 := Nat.mod_eq_of_lt (by omega)
    have e3 : (16 + 29 + 4294967296 - k) % 4294967296 % 65536 = 45 - k := by omega
    have e4 : 2 ^ (k - 16) % 4294967296 = 2 ^ (k - 16) := Nat.mod_eq_of_lt (by omega)
    have hlt : 2 ^ 30 / d + 2 ^ (k - 16) < 4294967296 := by
      have : 2 ^ 30 / d < 2 ^ 30 := hl1
      omega
    rw [e1, e2, e3, e4, Nat.mod_eq_of_lt hlt, Nat.shiftRight_eq_div_pow]
  · rw [if_neg hb, if_neg hb]

/-- Bounds on the reciprocal of `frac_gen` for a divisor `d` from 2 to `2^30`:
`x * frac < 2^shift` for every `x < d`, `frac <= 2^16`, `16 <= shift <= 30`,
and `(d + 4) * frac >= 2^shift` when `d <= 65535`. -/
theorem frac_gen_bounds (d frac shift : Nat) (h2 : 2 ≤ d) (hd : d ≤ 2 ^ 30)
    (h : frac_gen d = some (frac, shift)) :
    (∀ x, x < d → x * frac < 2 ^ shift) ∧ frac ≤ 2 ^ 16 ∧ 16 ≤ shift ∧ shift ≤ 30 ∧
    (d ≤ 65535 → 2 ^ shift ≤ (d + 4) * frac) := by
  obtain ⟨bit, hb29, hq1, hq2, hf⟩ := frac_gen_spec d h2 hd
  rw [hf, Option.some.injEq] at h
  have hdq : d * (2 ^ 30 / d) + 2 ^ 30 % d = 2 ^ 30 := Nat.div_add_mod _ _
  have hr : 2 ^ 30 % d < d := Nat.mod_lt _ (by omega)
  generalize 2 ^ 30 / d = q at hq1 hq2 hf h hdq
  generalize 2 ^ 30 % d = r at hdq hr
  have hq0 : 0 < q := lt_of_lt_of_le (Nat.pow_pos (by decide)) hq1
  by_cases hb : bit > 15
  · rw [if_pos hb, Prod.mk.injEq] at h
    obtain ⟨hfr, hsh⟩ := h
    obtain ⟨k, rfl⟩ : ∃ k, bit = k + 16 := ⟨bit - 16, by omega⟩
    have e1 : k + 16 - 16 = k := by omega
    have e2 : k + 16 - 15 = k + 1 := by omega
    rw [e1, e2] at hfr
    have hP : 0 < 2 ^ k := Nat.pow_pos (by decide)
    have hqP : 65536 * 2 ^ k ≤ q := by
      have : 2 ^ (k + 16) = 65536 * 2 ^ k := by rw [pow_add]; omega
      omega
    have hqP2 : q < 131072 * 2 ^ k := by
      have : 2 ^ (k + 16 + 1) = 131072 * 2 ^ k := by
        rw [show k + 16 + 1 = k + 17 from rfl, pow_add]; omega
      omega
    have hM : 2 ^ (k + 1) = 2 * 2 ^ k := by rw [pow_succ]; omega
    have hS : 2 ^ shift * (2 * 2 ^ k) = 2 ^ 30 := by
      rw [← hsh, ← hM, ← pow_add]
      congr 1
      omega
    rw [hM] at hfr
    generalize 2 ^ k = P at hP hqP hqP2 hfr hS
    have hdm : 2 * P * frac + (q + P) % (2 * P) = q + P := by
      rw [← hfr]; exact Nat.div_add_mod _ _
    have hm : (q + P) % (2 * P) < 2 * P := Nat.mod_lt _ (by omega)
    generalize (q + P) % (2 * P) = m at hdm hm
    have hd14 : d ≤ 16384 := by
      by_contra hc
      have : 16385 * q ≤ d * q := Nat.mul_le_mul_right q (by omega)
      omega
    refine ⟨?_, ?_, by omega, by omega, ?_⟩
    · intro x hx
      by_contra hc
      have h1 : 2 ^ shift * (2 * P) ≤ x * frac * (2 * P) :=
        Nat.mul_le_mul_right _ (by omega)
      have h2' : x * frac * (2 * P) = x * (2 * P * frac) := by ring
      have h3 : x * (2 * P * frac) ≤ x * (q + P) := Nat.mul_le_mul_left x (by omega)
      have h4 : x * (q + P) = x * q + x * P := by ring
      have h5 : (x + 1) * q ≤ d * q := Nat.mul_le_mul_right q (by omega)
      have h6 : (x + 1) * q = x * q + q := by ring
      have h7 : x * P ≤ 16384 * P := Nat.mul_le_mul_right P (by omega)
      omega
    · by_contra hc
      have : 2 * P * 65537 ≤ 2 * P * frac := Nat.mul_le_mul_left _ (by omega)
      omega
    · intro _
      by_contra hc
      have h1 : (d + 4) * frac * (2 * P) < 2 ^ shift * (2 * P) :=
        Nat.mul_lt_mul_of_pos_right (by omega) (by omega)
      have h2' : (d + 4) * frac * (2 * P) = d * (2 * P * frac) + 4 * (2 * P * frac) := by ring
      have h3 : d * (2 * P * frac + m) = d * (q + P) := by rw [hdm]
      have h4 : d * (2 * P * frac + m) = d * (2 * P * frac) + d * m := by ring
      have h5 : d * (q + P) = d * q + d * P := by ring
      have h6 : d * (m + 1) ≤ d * (2 * P) := Nat.mul_le_mul_left d (by omega)
      have h7 : d * (m + 1) = d * m + d := by ring
      have h8 : d * (2 * P) = 2 * (d * P) := by ring
      have h9 : d * P ≤ 16384 * P := Nat.mul_le_mul_right P hd14
      omega
  · rw [if_neg hb, Prod.mk.injEq] at h
    obtain ⟨hfr, hsh⟩ := h
    subst hfr hsh
    have hq16 : q < 65536 := by
      have : 2 ^ (bit + 1) ≤ 2 ^ 16 := Nat.pow_le_pow_right (by decide) (by omega)
      omega
    refine ⟨?_, by omega, by omega, by omega, ?_⟩
    · intro x hx
      have h5 : (x + 1) * q ≤ d * q := Nat.mul_le_mul_right q (by omega)
      have h6 : (x + 1) * q = x * q + q := by ring
      omega
    · intro hd16
      have h1 : (d + 4) * q = d * q + 4 * q := by ring
      have h2' : 16384 ≤ q := by
        by_contra hc
        have : d * q ≤ 65535 * 16383 := Nat.mul_le_mul hd16 (by omega)
        omega
      omega

theorem frac_gen_zero : frac_gen 0 = none := by decide

/-- C23: for all `x < d < 2^20`, if `frac_gen d` returns `(frac, shift)` then
the product `x * frac` fits 32 bits and `(x * frac) >> shift` equals `x / d`;
`frac_gen d` does return for every `d` from 2 on (for `d = 0` it has no
result). -/
theorem frac_gen_quotient (d x : Nat) (hx : x < d) (hd : d < 2 ^ 20) :
    (2 ≤ d → ∃ frac shift, frac_gen d = some (frac, shift)) ∧
    ∀ frac shift, frac_gen d = some (frac, shift) →
      x * frac < 2 ^ 32 ∧ (x * frac) >>> shift = x / d := by
  constructor
  · intro h2
    obtain ⟨⟨frac, shift⟩, hr⟩ := frac_gen_some d (by omega) (by omega)
    exact ⟨frac, shift, hr⟩
  · intro frac shift h
    by_cases h1 : d = 1
    · subst h1
      have hx0 : x = 0 := by omega
      subst hx0
      rw [Nat.zero_mul, Nat.zero_shiftRight]
      exact ⟨by decide, rfl⟩
    · have h2 : 2 ≤ d := by
        by_contra hc
        have h0 : d = 0 := by omega
        subst h0
        rw [frac_gen_zero] at h; cases h
      obtain ⟨b1, _, _, b4, _⟩ := frac_gen_bounds d frac shift h2 (by omega) h
      have hlt := b1 x hx
      have hp : 2 ^ shift ≤ 2 ^ 30 := Nat.pow_le_pow_right (by decide) b4
      refine ⟨by omega, ?_⟩
      rw [Nat.shiftRight_eq_div_pow, Nat.div_eq_of_lt hlt, Nat.div_eq_of_lt hx]

/-- C23 at `d = 87`, `x = 86`. -/
theorem frac_gen_quotient_witness :
    86 < 87 ∧ 87 < 2 ^ 20 ∧ frac_gen 87 = some (48210, 22) ∧
    (86 * 48210) >>> 22 = 86 / 87 :=
  ⟨by decide, by decide, by decide,
   ((frac_gen_quotient 87 86 (by decide) (by decide)).2 48210 22 (by decide)).2⟩

/-- C30 at its failing input, the EXT command word with frequency code 0: the
step `2 * 0 + 1` that `setdiv` passes to `frac_gen` gives the quotient
`(1 << 30) / 1 = 2^30`, which has no set bit among bits 29..0, so the 30
iterations of the bit search from bit 29 down to bit 0 do not end it: the
index is decremented below 0, wraps, and the search ends only at the index
`2^32 - 2`, which is not an index in 0..29 and whose shift count modulo 32 is
30. `frac_gen` then returns the shift count 47, and `gsw_handle` stores it in
the voice, also on a session that an AUD command has set up. -/
theorem frac_gen_search_below_zero :
    is_command 0x170001 CMD_EXT ∧ (0x170001 >>> 1) &&& 0x7FFF = 0 ∧
    (E2D 0 + 2 - 1) / 2 % 65536 = 2 * 0 + 1 ∧ (1 <<< 30) / (2 * 0 + 1) = 2 ^ 30 ∧
    (List.range 30).all (fun b => (1 <<< b) &&& ((1 <<< 30) / (2 * 0 + 1)) == 0) = true ∧
    frac_gen_bit 30 29 ((1 <<< 30) / (2 * 0 + 1)) = none ∧
    frac_gen_bit 32 29 ((1 <<< 30) / (2 * 0 + 1)) = some (2 ^ 32 - 2) ∧
    ¬ (2 ^ 32 - 2 ≤ 29) ∧ (2 ^ 32 - 2) % 32 = 30 ∧
    frac_gen (2 * 0 + 1) = some (32768, 47) ∧
    (gsw_handle sess 0x167FF1).bind
      (fun r => (gsw_handle r.1 0x170001).map
        (fun r2 => ((r2.1.voices r.1.vix).frac, (r2.1.voices r.1.vix).shift)))
      = some (32768, 47) := by
  decide

/-! ## The phase accumulator of `generate` -/

/-- The loop of `generate` leaves a phase below the divisor. -/
theorem generate_loop_lt (fuel : Nat) :
    ∀ p d p', generate_loop fuel p d = some p' → p' < d := by
  induction fuel with
  | zero => intro p d p' h; cases h
  | succ n ih =>
    intro p d p' h
    unfold generate_loop at h
    split_ifs at h with hc
    · exact ih _ _ _ h
    · simp only [Option.some.injEq] at h
      omega

/-- The loop of `generate` reduces a 16-bit phase modulo the divisor, given
fuel for the `p / d` subtractions. -/
theorem generate_loop_mod (fuel : Nat) :
    ∀ p d, 0 < d → p < 65536 → p / d < fuel → generate_loop fuel p d = some (p % d) := by
  induction fuel with
  | zero => intro p d _ _ h; exact absurd h (Nat.not_lt_zero _)
  | succ n ih =>
    intro p d hd hp hf
    unfold generate_loop
    by_cases hc : p ≥ d
    · rw [if_pos hc]
      have e1 : (p - d) % 65536 = p - d := Nat.mod_eq_of_lt (by omega)
      have e2 : p / d = (p - d) / d + 1 := by
        have hpd : p = p - d + d := by omega
        conv_lhs => rw [hpd]
        exact Nat.add_div_right _ hd
      have e3 : (p - d) % d = p % d := (Nat.mod_eq_sub_mod hc).symm
      rw [e1, ih (p - d) d hd (by omega) (by omega), e3]
    · rw [if_neg hc, Nat.mod_eq_of_lt (by omega)]

theorem generate_ix_sq (v : voice) (hs : v.shift < 32) (hw : v.wave = sq) :
    ∃ ix, generate_ix v = some ix ∧ ix ≤ 1 := by
  unfold generate_ix
  rw [if_neg (by omega), hw]
  refine ⟨_, rfl, ?_⟩
  show (if _ ≥ 2 then (2 + 65535) % 65536 else _) ≤ 1
  split_ifs <;> omega

/-- What `generate` does for a divisor of at least `PHASEINCR`, given fuel for
the subtractions. -/
theorem generate_run (fuel : Nat) (v : voice) (hd : 162 ≤ v.div) (hf : 405 ≤ fuel)
    (hs : v.shift < 32) (hw : v.wave = sq) (a : Nat) (ha : v.amp = some a) (ha8 : a < 8) :
    ∃ r, generate fuel v
      = some ({ v with phase := ((v.phase + 162) % 65536) % v.div }, r) := by
  have hP : PHASEINCR = 162 := by decide
  have hlt : (v.phase + 162) % 65536 < 65536 := Nat.mod_lt _ (by decide)
  have hdiv : (v.phase + 162) % 65536 / v.div < fuel := by
    have : (v.phase + 162) % 65536 / v.div ≤ (v.phase + 162) % 65536 / 162 :=
      Nat.div_le_div_left hd (by decide)
    omega
  obtain ⟨ix, hix, hix1⟩ := generate_ix_sq
    { v with phase := ((v.phase + 162) % 65536) % v.div } hs hw
  obtain ⟨am, ham⟩ : ∃ am, amp.get? a = some am := by
    have : a < amp.length := ha8
    exact ⟨_, List.get?_eq_get this⟩
  obtain ⟨sm, hsm⟩ : ∃ sm, v.wave.samples.get? ix = some sm := by
    have : ix < v.wave.samples.length := by rw [hw]; show ix < 2; omega
    exact ⟨_, List.get?_eq_get this⟩
  unfold generate
  rw [if_neg (by omega), hP, generate_loop_mod fuel _ _ (by omega) hlt hdiv]
  simp only [ha] at hix ⊢
  simp only [hix, ham, hsm]
  exact ⟨_, rfl⟩

/-- C24: after every call of `generate` that returns, on any voice: if
`div < PHASEINCR` (162) the call returned 0 and left the voice, its phase
included, as it was; if `div >= 162` the phase is below `div` and `div` is
unchanged. The call returns for every `div < 162`, and for `div >= 162` on a
voice with the square wave, a shift count below 32 and an amplitude set. -/
theorem generate_phase_bound (fuel : Nat) (v : voice) :
    PHASEINCR = 162 ∧
    (v.div < 162 → generate fuel v = some (v, 0)) ∧
    (∀ v' r, generate fuel v = some (v', r) → 162 ≤ v.div →
      v'.phase < v'.div ∧ v'.div = v.div) ∧
    (162 ≤ v.div → 405 ≤ fuel → v.shift < 32 → v.wave = sq →
      ∀ a, v.amp = some a → a < 8 →
        ∃ v' r, generate fuel v = some (v', r) ∧ v'.phase < v'.div) := by
  have hP : PHASEINCR = 162 := by decide
  refine ⟨hP, ?_, ?_, ?_⟩
  · intro h
    unfold generate
    rw [if_pos (by omega)]
  · intro v' r h hd
    unfold generate at h
    rw [if_neg (by omega)] at h
    cases hl : generate_loop fuel ((v.phase + PHASEINCR) % 65536) v.div with
    | none => rw [hl] at h; cases h
    | some p =>
      have hp := generate_loop_lt fuel _ _ _ hl
      rw [hl] at h
      simp only at h
      split at h
      · cases h
      · split at h
        · cases h
        · split at h
          · simp only [Option.some.injEq, Prod.mk.injEq] at h
            obtain ⟨h1, _⟩ := h
            subst h1
            exact ⟨hp, rfl⟩
          · cases h
  · intro hd hf hs hw a ha ha8
    obtain ⟨r, hr⟩ := generate_run fuel v hd hf hs hw a ha ha8
    exact ⟨_, r, hr, Nat.mod_lt _ (by omega)⟩

/-- C24 at a voice with divisor 174 and phase 99, and at a silent voice. -/
theorem generate_phase_bound_witness :
    (∃ v' r, generate 405
        { div := 174, frac := 48210, shift := 22, step := 87, phase := 99, amp := some 7,
          wave := sq } = some (v', r) ∧ v'.phase < v'.div) ∧
    (generate 405 (sess.voices 0)).map Prod.snd = some 0 :=
  ⟨(generate_phase_bound 405
      { div := 174, frac := 48210, shift := 22, step := 87, phase := 99, amp := some 7,
        wave := sq }).2.2.2 (by decide) (by decide) (by decide) rfl 7 rfl (by decide),
   by decide⟩

/-- Where `generate` does reduce modulo the divisor: the sum `phase + 162`
fits the 16-bit phase. -/
theorem generate_phase_mod (fuel : Nat) (v : voice) (hd : 162 ≤ v.div) (hf : 405 ≤ fuel)
    (hs : v.shift < 32) (hw : v.wave = sq) (a : Nat) (ha : v.amp = some a) (ha8 : a < 8)
    (hp : v.phase + 162 < 65536) :
    ∃ v' r, generate fuel v = some (v', r) ∧ v'.phase = (v.phase + 162) % v.div := by
  obtain ⟨r, hr⟩ := generate_run fuel v hd hf hs hw a ha ha8
  refine ⟨_, r, hr, ?_⟩
  show (v.phase + 162) % 65536 % v.div = _
  rw [Nat.mod_eq_of_lt hp]

set_option maxRecDepth 100000 in
/-- C28 at its failing input: after the AUD word `0x167FFE` and the EXT word
`0x17FFFE` (frequency code 32767) voice 3 has the divisor 131070 and phase 0;
404 calls of `generate` bring the phase to 65448, which is below the divisor,
and the next call leaves the phase 74, the sum 65610 truncated to 16 bits,
where `(65448 + 162) mod 131070` is 65610. -/
theorem generate_phase_wraps :
    ((gsw_handle sess 0x167FFE).bind (fun r => gsw_handle r.1 0x17FFFE)).map
        (fun r => ((r.1.voices 3).div, (r.1.voices 3).frac, (r.1.voices 3).shift,
          (r.1.voices 3).phase))
      = some (131070, 16384, 30, 0) ∧
    ((gsw_handle sess 0x167FFE).bind (fun r => gsw_handle r.1 0x17FFFE)).map
        (fun r => ((r.1.voices 3).step, (r.1.voices 3).amp, (r.1.voices 3).wave.nsamp))
      = some (65535, some 7, 2) ∧
    131070 = E2D 32767 ∧
    (generate_n 405 404
        { div := 131070, frac := 16384, shift := 30, step := 65535, phase := 0,
          amp := some 7, wave := sq }).map (fun v => v.phase) = some 65448 ∧
    65448 < 131070 ∧
    (generate 405
        { div := 131070, frac := 16384, shift := 30, step := 65535, phase := 65448,
          amp := some 7, wave := sq }).map (fun r => r.1.phase) = some 74 ∧
    (65448 + 162) % 131070 = 65610 := by
  refine ⟨by decide, by decide, by decide, by decide, by decide, by decide, by decide⟩

/-! ## The waveform index -/

/-- C29 fails as stated: for the divisor 174 (frequency code 43) `setdiv`
stores the step 87 with the reciprocal 48210 and shift 22; at phase 87, which
is below the divisor, `generate` computes the index
`(87 * 48210) >> 22 = 0`, where the exact quotient `87 / 87` is 1. -/
theorem generate_ix_late :
    174 = E2D 43 ∧
    (setdiv sess 0 174).map
        (fun s1 => ((s1.voices 0).step, (s1.voices 0).frac, (s1.voices 0).shift))
      = some (87, 48210, 22) ∧
    87 < 174 ∧
    (setdiv sess 0 174).bind (fun s1 => generate_ix { s1.voices 0 with phase := 87 })
      = some 0 ∧
    (87 * 48210) >>> 22 = 0 ∧ 87 / 87 = 1 := by
  refine ⟨by decide, by decide, by decide, by decide, by decide, by decide⟩

/-- C29, amended: for every divisor `div` from 3 to 131070 `setdiv` returns on
a voice with the two-sample square wave, storing `step = ceil(div / 2)` and
`(frac, shift) = frac_gen(step)`; for every 16-bit phase below `div` the index
that `generate` computes is `(phase * frac) >> shift` clamped to 1; it is 0
throughout the first half-period (`phase < step`), it never exceeds the exact
quotient `phase / step`, and it is 1 for every `phase >= step + 4`: the change
to 1 can come up to four phase values after `step`. -/
theorem generate_ix_setdiv (s : host_session) (vix div phase : Nat)
    (hw : (s.voices vix).wave = sq) (h3 : 3 ≤ div) (hd : div ≤ 131070)
    (hp : phase < div) (hp16 : phase < 65536) :
    ∃ s1, setdiv s vix div = some s1 ∧
      (s1.voices vix).div = div ∧ (s1.voices vix).step = (div + 1) / 2 ∧
      frac_gen ((div + 1) / 2) = some ((s1.voices vix).frac, (s1.voices vix).shift) ∧
      ∃ ix, generate_ix { s1.voices vix with phase := phase } = some ix ∧
        ix = min 1 ((phase * (s1.voices vix).frac) >>> (s1.voices vix).shift) ∧
        (phase < (div + 1) / 2 → ix = 0) ∧
        ((div + 1) / 2 + 4 ≤ phase → ix = 1) ∧
        ix ≤ phase / ((div + 1) / 2) ∧ phase / ((div + 1) / 2) ≤ 1 := by
  have hn : (s.voices vix).wave.nsamp = 2 := by rw [hw]; rfl
  have hstep : ((div + 2 - 1) / 2) % 65536 = (div + 1) / 2 := by omega
  have hs2 : 2 ≤ (div + 1) / 2 := by omega
  obtain ⟨⟨frac, shift⟩, hr⟩ := frac_gen_some ((div + 1) / 2) (by omega) (by omega)
  obtain ⟨b1, b2, b3, b4, b5⟩ := frac_gen_bounds _ frac shift hs2 (by omega) hr
  have b5' := b5 (by omega)
  have hq1 : phase / ((div + 1) / 2) ≤ 1 := by
    have : phase < 2 * ((div + 1) / 2) := by omega
    have := (Nat.div_lt_iff_lt_mul (by omega : 0 < (div + 1) / 2)).2 this
    omega
  have hprod : phase * frac < 4294967296 := by
    have : phase * frac ≤ 65535 * 65536 := Nat.mul_le_mul (by omega) b2
    omega
  have hsh : 2 ^ 16 ≤ 2 ^ shift := Nat.pow_le_pow_right (by decide) b3
  have hix16 : phase * frac / 2 ^ shift < 65536 := by
    have : phase * frac / 2 ^ shift ≤ phase * frac / 2 ^ 16 :=
      Nat.div_le_div_left hsh (by decide)
    omega
  have hset : setdiv s vix div = some { s with
      voices := Function.update s.voices vix
        { s.voices vix with div := div, step := (div + 1) / 2, frac := frac,
                            shift := shift } } := by
    unfold setdiv
    simp only [hn, hstep, hr]
    rfl
  refine ⟨_, hset, ?_⟩
  have hv : ∀ f : voice, Function.update s.voices vix f vix = f := fun f => by
    simp [Function.update]
  simp only [hv]
  refine ⟨trivial, trivial, hr, ?_⟩
  have hgi : ∀ v : voice, v.shift = shift → v.frac = frac → v.phase = phase →
      v.wave.nsamp = 2 → generate_ix v = some (min 1 ((phase * frac) >>> shift)) := by
    intro v e1 e2 e3 e4
    unfold generate_ix
    simp only [e1, e2, e3, e4]
    rw [if_neg (by omega), Nat.mod_eq_of_lt hprod, Nat.shiftRight_eq_div_pow,
      Nat.mod_eq_of_lt hix16]
    congr 1
    by_cases hc : phase * frac / 2 ^ shift ≥ 2
    · rw [if_pos hc]; omega
    · rw [if_neg hc]; omega
  refine ⟨_, hgi _ rfl rfl rfl hn, rfl, ?_, ?_, ?_, hq1⟩
  · intro hlt
    rw [Nat.shiftRight_eq_div_pow, Nat.div_eq_of_lt (b1 phase hlt)]
    rfl
  · intro hge
    have h1 : ((div + 1) / 2 + 4) * frac ≤ phase * frac := Nat.mul_le_mul_right frac hge
    have h2 : 1 ≤ phase * frac / 2 ^ shift :=
      (Nat.le_div_iff_mul_le (Nat.pow_pos (by decide))).2 (by omega)
    rw [Nat.shiftRight_eq_div_pow]
    omega
  · by_cases hlt : phase < (div + 1) / 2
    · rw [Nat.shiftRight_eq_div_pow, Nat.div_eq_of_lt (b1 phase hlt)]
      exact Nat.zero_le _
    · have : 1 ≤ phase / ((div + 1) / 2) :=
        (Nat.le_div_iff_mul_le (by omega)).2 (by omega)
      have := Nat.min_le_left 1 ((phase * frac) >>> shift)
      omega

/-- C29, amended, at the divisor 174 with the phases 86, 87 and 91. -/
theorem generate_ix_setdiv_witness :
    (∃ s1, setdiv sess 0 174 = some s1 ∧
      generate_ix { s1.voices 0 with phase := 86 } = some 0) ∧
    (∃ s1, setdiv sess 0 174 = some s1 ∧
      generate_ix { s1.voices 0 with phase := 87 } = some 0) ∧
    (∃ s1, setdiv sess 0 174 = some s1 ∧
      generate_ix { s1.voices 0 with phase := 91 } = some 1) := by
  obtain ⟨s1, a1, _, _, _, ix, a5, _, a7, _, _, _⟩ :=
    generate_ix_setdiv sess 0 174 86 rfl (by decide) (by decide) (by decide) (by decide)
  obtain ⟨s2, b1, _, _, _, iy, b5, _, _, b8, _, _⟩ :=
    generate_ix_setdiv sess 0 174 91 rfl (by decide) (by decide) (by decide) (by decide)
  refine ⟨⟨s1, a1, ?_⟩, ⟨_, rfl, by decide⟩, ⟨s2, b1, ?_⟩⟩
  · rw [a5, a7 (by decide)]
  · rw [b5, b8 (by decide)]

/-! ## Range of the reciprocal -/

/-- Rounding a quotient `q = 2^30 / d` of 17 significant bits (in units of
`P`) to 16 bits does not carry into a 17th bit. -/
theorem round_no_carry (d q r P A : Nat) (hdq : d * q + r = 2 ^ 30) (hr : r < d)
    (hP : 0 < P) (hAP : A * P = 8192) (hqP : 65536 * P ≤ q) (hqP2 : q < 131072 * P) :
    (q + P) / (2 * P) < 65536 ∧ 32768 ≤ (q + P) / (2 * P) ∧
    (q + P) / (2 * P) * (2 * P) ≤ q + P ∧ q < (q + P) / (2 * P) * (2 * P) + P := by
  have hdA : A + 1 ≤ d := by
    by_contra hc
    have h1 : d * (q + 1) ≤ A * (q + 1) := Nat.mul_le_mul_right _ (by omega)
    have h2 : A * (q + 1) ≤ A * (131072 * P) := Nat.mul_le_mul_left _ (by omega)
    have h3 : A * (131072 * P) = 131072 * (A * P) := by ring
    have h4 : d * (q + 1) = d * q + d := by ring
    omega
  have hcarry : q + P < 131072 * P := by
    by_contra hc
    have h1 : (A + 1) * q ≤ d * q := Nat.mul_le_mul_right _ hdA
    have h2 : (A + 1) * (131071 * P) ≤ (A + 1) * q := Nat.mul_le_mul_left _ (by omega)
    have h3 : (A + 1) * (131071 * P) = 131071 * (A * P) + 131071 * P := by ring
    omega
  have hdm : 2 * P * ((q + P) / (2 * P)) + (q + P) % (2 * P) = q + P := Nat.div_add_mod _ _
  have hm : (q + P) % (2 * P) < 2 * P := Nat.mod_lt _ (by omega)
  have hc : (q + P) / (2 * P) * (2 * P) = 2 * P * ((q + P) / (2 * P)) := Nat.mul_comm _ _
  refine ⟨(Nat.div_lt_iff_lt_mul (by omega)).2 (by omega),
    (Nat.le_div_iff_mul_le (by omega)).2 (by omega), by omega, by omega⟩

/-- C35: for every divisor `d` from 2 to `2^30`, `frac_gen d` returns a shift
from 16 to 30 (so within 15..30) and a multiplier below 65536. With `q` the
quotient `2^30 / d`: if `q < 2^16` the multiplier is `q` and the shift 30;
otherwise `q` has `k + 16` bits for some `k >= 1`, the shift is `30 - k` and
the multiplier is `q` rounded to its 16 most significant bits,
`(q + 2^(k-1)) / 2^k`, a 16-bit value with bit 15 set that is within
`2^(k-1)` of `q / 2^k`. -/
theorem frac_gen_range (d : Nat) (h2 : 2 ≤ d) (hd : d ≤ 2 ^ 30) :
    ∃ frac shift, frac_gen d = some (frac, shift) ∧
      15 ≤ shift ∧ 16 ≤ shift ∧ shift ≤ 30 ∧ frac < 65536 ∧
      (2 ^ 30 / d < 2 ^ 16 → frac = 2 ^ 30 / d ∧ shift = 30) ∧
      (2 ^ 16 ≤ 2 ^ 30 / d →
        ∃ k, 1 ≤ k ∧ k ≤ 14 ∧ 2 ^ (k + 15) ≤ 2 ^ 30 / d ∧ 2 ^ 30 / d < 2 ^ (k + 16) ∧
          frac = (2 ^ 30 / d + 2 ^ (k - 1)) / 2 ^ k ∧ shift = 30 - k ∧
          2 ^ 15 ≤ frac ∧
          frac * 2 ^ k ≤ 2 ^ 30 / d + 2 ^ (k - 1) ∧
          2 ^ 30 / d < frac * 2 ^ k + 2 ^ (k - 1)) := by
  obtain ⟨bit, hb29, hq1, hq2, hf⟩ := frac_gen_spec d h2 hd
  have hdq : d * (2 ^ 30 / d) + 2 ^ 30 % d = 2 ^ 30 := Nat.div_add_mod _ _
  have hr : 2 ^ 30 % d < d := Nat.mod_lt _ (by omega)
  generalize 2 ^ 30 / d = q at hq1 hq2 hf hdq
  generalize 2 ^ 30 % d = r at hdq hr
  by_cases hb : bit > 15
  · rw [if_pos hb] at hf
    obtain ⟨j, rfl⟩ : ∃ j, bit = j + 16 := ⟨bit - 16, by omega⟩
    have e1 : j + 16 - 16 = j := by omega
    have e2 : j + 16 - 15 = j + 1 := by omega
    have e3 : 45 - (j + 16) = 30 - (j + 1) := by omega
    have e4 : j + 1 - 1 = j := by omega
    have hM : 2 ^ (j + 1) = 2 * 2 ^ j := by rw [pow_succ]; omega
    rw [e1, e2, e3, hM] at hf
    have hP : 0 < 2 ^ j := Nat.pow_pos (by decide)
    have hAP : 2 ^ (13 - j) * 2 ^ j = 8192 := by
      rw [← pow_add, show 13 - j + j = 13 by omega]
      norm_num
    have hqP : 65536 * 2 ^ j ≤ q := by
      have : 2 ^ (j + 16) = 65536 * 2 ^ j := by rw [pow_add]; omega
      omega
    have hqP2 : q < 131072 * 2 ^ j := by
      have : 2 ^ (j + 16 + 1) = 131072 * 2 ^ j := by
        rw [show j + 16 + 1 = j + 17 from rfl, pow_add]; omega
      omega
    have hq16 : ¬ q < 2 ^ 16 := by omega
    obtain ⟨c1, c2, c3, c4⟩ := round_no_carry d q r (2 ^ j) (2 ^ (13 - j)) hdq hr hP hAP hqP hqP2
    refine ⟨_, _, hf, by omega, by omega, by omega, c1, fun h => absurd h hq16, ?_⟩
    intro _
    refine ⟨j + 1, by omega, by omega, hq1, hq2, ?_, rfl, c2, ?_, ?_⟩
    · rw [e4, hM]
    · rw [e4, hM]; exact c3
    · rw [e4, hM]; exact c4
  · rw [if_neg hb] at hf
    have hq16 : q < 2 ^ 16 := by
      have : 2 ^ (bit + 1) ≤ 2 ^ 16 := Nat.pow_le_pow_right (by decide) (by omega)
      omega
    exact ⟨_, _, hf, by omega, by omega, by omega, hq16, fun _ => ⟨rfl, rfl⟩,
      fun h => absurd hq16 (by omega)⟩

/-- C35 at the divisors 3 (a rounded reciprocal) and 65535 (an exact one). -/
theorem frac_gen_range_witness :
    (∃ frac shift, frac_gen 3 = some (frac, shift) ∧ 16 ≤ shift ∧ shift ≤ 30 ∧
      frac < 65536) ∧
    frac_gen 3 = some (43691, 17) ∧ frac_gen 65535 = some (16384, 30) := by
  obtain ⟨frac, shift, h1, _, h3, h4, h5, _⟩ := frac_gen_range 3 (by decide) (by decide)
  exact ⟨⟨frac, shift, h1, h3, h4, h5⟩, by decide, by decide⟩

/-! ## The count-inhibit flag -/

theorem put_host_word_cis (s : host_session) (w : Nat) : (put_host_word s w).cis = s.cis := by
  unfold put_host_word
  simp only
  split_ifs <;> rfl

theorem get_host_word_loop_gsw (fuel : Nat) :
    ∀ (s s1 : host_session) (t t1 x : Nat),
      get_host_word_loop fuel s t = some (s1, t1, x) →
      s1.cis = s.cis ∧ s1.vix = s.vix ∧ s1.vs = s.vs := by
  induction fuel with
  | zero => intro s s1 t t1 x h; cases h
  | succ n ih =>
    intro s s1 t t1 x h
    unfold get_host_word_loop at h
    simp only at h
    split_ifs at h
    all_goals first
      | (simp only [Option.some.injEq, Prod.mk.injEq] at h; obtain ⟨h1, _⟩ := h; subst h1
         exact ⟨rfl, rfl, rfl⟩)
      | exact ih _ _ _ _ _ h
      | exact (ih _ _ _ _ _ h).imp id id

theorem get_host_word_gsw (fuel : Nat) (s s1 : host_session) (x : Nat)
    (h : get_host_word fuel s = some (s1, x)) :
    s1.cis = s.cis ∧ s1.vix = s.vix ∧ s1.vs = s.vs := by
  unfold get_host_word at h
  split at h
  · cases h
  · rename_i sL t w hL
    have := get_host_word_loop_gsw fuel _ _ _ _ _ hL
    simp only [Option.some.injEq, Prod.mk.injEq] at h
    obtain ⟨h1, _⟩ := h
    subst h1
    exact this

theorem track_mode_cis (s : host_session) (w : Nat) : (track_mode s w).cis = s.cis := by
  unfold track_mode
  split_ifs <;> rfl

theorem host_word_count_cis (s : host_session) : (host_word_count s).1.cis = s.cis := by
  unfold host_word_count
  simp only
  split_ifs <;> rfl

theorem echo_handle_cis (s : host_session) (w : Nat) : (echo_handle s w).1.cis = s.cis := by
  unfold echo_handle
  simp only
  split_ifs
  · rfl
  · rfl
  · exact host_word_count_cis s
  · exact host_word_count_cis s

theorem do_host_word_flow_cis (s : host_session) (n : Int) :
    (do_host_word_flow s n).cis = s.cis := by
  unfold do_host_word_flow
  simp only
  split_ifs <;> rfl

/-- `gsw_handle` never sets `cis`: an AUD command stores bit 15 of the payload,
which the 15-bit mask has cleared, and nothing else writes the flag. -/
theorem gsw_handle_cis (s s1 : host_session) (x w : Nat) (h : gsw_handle s x = some (s1, w))
    (hc : s.cis = 0) : s1.cis = 0 := by
  by_cases ha : is_command x CMD_AUD
  · obtain ⟨s', a1, a2, a3⟩ := gsw_handle_aud s x ha
    rw [a1] at h
    simp only [Option.some.injEq, Prod.mk.injEq] at h
    obtain ⟨h1, _⟩ := h
    subst h1
    by_cases hn : x &&& 0x7800 = 0
    · rw [(a3 hn).2.2.2, hc]
    · exact (a2 hn).2.2.1
  · by_cases he : is_command x CMD_EXT
    · rw [(gsw_handle_ext_result s s1 x w he h).2.2.2.2.2.2, hc]
    · rw [gsw_handle_other s x ha he] at h
      simp only [Option.some.injEq, Prod.mk.injEq] at h
      obtain ⟨h1, _⟩ := h
      subst h1
      exact hc

theorem lde_count_cis (c : Prop) [Decidable c] (t : host_session) (v : Nat) :
    (if c then { t with lde_count := v } else t).cis = t.cis := by
  split_ifs <;> rfl

theorem do_host_word_rest_cis (s s1 : host_session) (x w : Nat)
    (h : do_host_word_rest s x = some (s1, w)) (hc : s.cis = 0) : s1.cis = 0 := by
  have key : ∀ (sF : host_session) (e2 : Nat), sF.cis = 0 →
      (if e2 = 0 then some (sF, 0) else gsw_handle sF e2) = some (s1, w) → s1.cis = 0 := by
    intro sF e2 k h
    split_ifs at h
    · simp only [Option.some.injEq, Prod.mk.injEq] at h
      obtain ⟨h1, _⟩ := h
      subst h1
      exact k
    · exact gsw_handle_cis _ _ _ _ h k
  refine key _ _ ?_ h
  rw [do_host_word_flow_cis, host_word_count_cis, lde_count_cis, echo_handle_cis,
    track_mode_cis]
  exact hc

theorem do_host_word_cis (fuel : Nat) (s s1 : host_session) (w : Nat)
    (h : do_host_word fuel s = some (s1, w)) (hc : s.cis = 0) : s1.cis = 0 := by
  unfold do_host_word at h
  split_ifs at h
  · simp only [Option.some.injEq, Prod.mk.injEq] at h
    obtain ⟨h1, _⟩ := h
    subst h1
    exact hc
  · split at h
    · cases h
    · rename_i s2 x hg
      exact do_host_word_rest_cis _ _ _ _ h (by rw [(get_host_word_gsw _ _ _ _ hg).1, hc])

theorem reachable_cis (s : host_session) (h : reachable s) : s.cis = 0 := by
  induction h with
  | init => rfl
  | put s w _ ih => rw [put_host_word_cis, ih]
  | dequeue fuel s s' w _ hd ih => exact do_host_word_cis fuel s s' w hd ih
  | stop s _ ih => exact ih

/-- C31: in every session reachable from the initial one by enqueuing host
words, `do_host_word` calls and output aborts, `cis` is 0: an AUD command
stores `(data & 0x8000) != 0` where `data` was masked to 15 bits, so it stores
0, and nothing else writes `cis`; therefore every EXT command that
`gsw_handle` returns from on such a session moves the voice index to
`vix - 1`, or to `vs` when `vix` is 0. -/
theorem reachable_cis_zero (s : host_session) (h : reachable s) :
    s.cis = 0 ∧
    (∀ word : Nat, ((word >>> 1) &&& 0x7FFF) &&& 0x8000 = 0) ∧
    (∀ (word : Nat) (s' : host_session) (w' : Nat), is_command word CMD_AUD →
      gsw_handle s word = some (s', w') → s'.cis = 0) ∧
    (∀ (word : Nat) (s' : host_session) (w' : Nat), is_command word CMD_EXT →
      gsw_handle s word = some (s', w') →
      s'.vix = (if s.vix ≠ 0 then s.vix - 1 else s.vs) ∧ s'.cis = 0) := by
  have hc := reachable_cis s h
  refine ⟨hc, aud_cis_mask, ?_, ?_⟩
  · intro word s' w' _ hg
    exact gsw_handle_cis s s' word w' hg hc
  · intro word s' w' hx hg
    obtain ⟨_, _, _, r4, _, _, r7⟩ := gsw_handle_ext_result s s' word w' hx hg
    exact ⟨r4 hc, by rw [r7, hc]⟩

/-- C31 at the session reached by enqueuing the AUD word `0x167FFE` and
handing it to `do_host_word`. -/
theorem reachable_cis_zero_witness :
    ∃ s1, do_host_word 1 (put_host_word sess 0x167FFE) = some (s1, NOP_WORD) ∧
      reachable s1 ∧ s1.cis = 0 := by
  have hcp : [0x167FFE].countP is_screen_clear = 0 := by decide
  obtain ⟨p1, p2, _, p4, _, _, _⟩ := put_host_words_room [0x167FFE] sess (by decide)
    (by decide) (by decide)
  rw [put_host_words_cons, put_host_words_nil] at p1 p2 p4
  have hq : queued (put_host_word sess 0x167FFE) = [0x167FFE] := by
    rw [p2]; rfl
  have he : (put_host_word sess 0x167FFE).erase_abort_count = 0 := by
    rw [p4]; rfl
  obtain ⟨sD, _, _, _, _, _, _, d7⟩ := do_host_word_quiet 0 _ _ _ p1 he hq
  rw [if_neg (by decide)] at d7
  obtain ⟨s1, a1, _⟩ := gsw_handle_aud sD 0x167FFE (by decide)
  rw [a1] at d7
  have hr : reachable s1 := reachable.dequeue 1 _ s1 _ (reachable.put _ _ reachable.init) d7
  exact ⟨s1, d7, hr, (reachable_cis_zero s1 hr).1⟩

/-! ## Safety of the erase-abort scan -/

theorem split_first_false (f : Nat → Bool) :
    ∀ q : List Nat, (∃ x ∈ q, f x = false) →
      ∃ as x rest, q = as ++ x :: rest ∧ (∀ a ∈ as, f a = true) ∧ f x = false := by
  intro q
  induction q with
  | nil => intro ⟨x, hx, _⟩; cases hx
  | cons y ys ih =>
    intro ⟨x, hx, hfx⟩
    by_cases hy : f y = false
    · exact ⟨[], y, ys, rfl, fun a ha => absurd ha (List.not_mem_nil a), hy⟩
    · have hy' : f y = true := by simpa using hy
      rw [List.mem_cons] at hx
      rcases hx with rfl | hx
      · rw [hfx] at hy'; cases hy'
      · obtain ⟨as, z, rest, e, h1, h2⟩ := ih ⟨x, hx, hfx⟩
        refine ⟨y :: as, z, rest, by rw [e]; rfl, ?_, h2⟩
        intro a ha
        rw [List.mem_cons] at ha
        rcases ha with rfl | ha
        · exact hy'
        · exact h1 a ha

theorem abortable_not_ldm (s : host_session) (a : Nat) (h : is_abortable_command s a = true) :
    ¬ is_command a CMD_LDM ∧ is_screen_clear a = false := by
  have h1 : is_screen_clear a = false := by
    by_contra hc
    have : is_screen_clear a = true := by simpa using hc
    rw [is_screen_clear_not_abortable s a this] at h
    cases h
  refine ⟨?_, h1⟩
  intro ⟨hb, hcmd⟩
  unfold is_abortable_command at h
  rw [if_neg (not_not.mpr hb)] at h
  simp only [hcmd] at h
  revert h
  decide

theorem countP_abortable (s : host_session) (as : List Nat)
    (h : ∀ a ∈ as, is_abortable_command s a = true) : as.countP is_screen_clear = 0 := by
  rw [List.countP_eq_zero]
  intro a ha
  rw [(abortable_not_ldm s a (h a ha)).2]
  decide

/-- C32: if the ring is not empty, both indices are below 5000 and
`erase_abort_count` is the number of screen-erase LDM words queued, then
`get_host_word` returns (given fuel for the queued words); it returns a queued
word `w` after discarding the queued words before it, at least one and at most
`host_word_count` words are removed, `inwd_out` advances by that number and
the words behind stay queued; every discarded word is abortable and is not an
LDM; and `erase_abort_count` is again the number of screen-erase words
queued. -/
theorem get_host_word_safe (fuel : Nat) (s : host_session) (hok : ring_ok s)
    (hne : s.inwd_in ≠ s.inwd_out)
    (he : s.erase_abort_count = (queued s).countP is_screen_clear)
    (hf : (host_word_count s).2 ≤ fuel) :
    ∃ (s' : host_session) (w : Nat) (discarded rest : List Nat),
      get_host_word fuel s = some (s', w) ∧
      queued s = discarded ++ w :: rest ∧ queued s' = rest ∧
      ring_ok s' ∧ s'.inwd_in = s.inwd_in ∧ s'.inwds = s.inwds ∧
      s'.inwd_out = (s.inwd_out + (discarded.length + 1)) % HOST_IN_WORDS ∧
      1 ≤ discarded.length + 1 ∧ discarded.length + 1 ≤ (host_word_count s).2 ∧
      (host_word_count s').2 + (discarded.length + 1) = (host_word_count s).2 ∧
      (∀ a ∈ discarded, is_abortable_command s a = true ∧ ¬ is_command a CMD_LDM) ∧
      s'.erase_abort_count = (queued s').countP is_screen_clear := by
  have hqne : queued s ≠ [] := fun h => hne (indices_of_queued_nil s hok h)
  have hlen := queued_length s
  by_cases h0 : s.erase_abort_count = 0
  · obtain ⟨w, rest, hq⟩ : ∃ w rest, queued s = w :: rest := by
      cases hqs : queued s with
      | nil => exact absurd hqs hqne
      | cons w rest => exact ⟨w, rest, rfl⟩
    rw [hq, List.length_cons] at hlen
    obtain ⟨f, rfl⟩ : ∃ f, fuel = f + 1 := ⟨fuel - 1, by omega⟩
    obtain ⟨g1, g2, g3⟩ := get_host_word_quiet f s w rest hok h0 hq
    have hc : (host_word_count { s with inwd_out := (s.inwd_out + 1) % HOST_IN_WORDS }).2
        = rest.length := by rw [← queued_length, g3]
    refine ⟨_, w, [], rest, g1, hq, g3, g2, rfl, rfl, rfl, by simp, ?_, ?_, ?_, ?_⟩
    · simp only [List.length_nil]; omega
    · rw [hc]; simp only [List.length_nil]; omega
    · intro a ha; exact absurd ha (List.not_mem_nil a)
    · rw [g3]
      show s.erase_abort_count = _
      have h00 := h0
      rw [he, hq, List.countP_cons] at h00
      rw [h0]
      omega
  · have hpos : 0 < (queued s).countP is_screen_clear := by omega
    obtain ⟨y, hy, hsc⟩ := List.countP_pos_iff.1 hpos
    obtain ⟨as, x, rest, hq, ha, hx⟩ := split_first_false (is_abortable_command s) (queued s)
      ⟨y, hy, is_screen_clear_not_abortable s y hsc⟩
    rw [hq, List.length_append, List.length_cons] at hlen
    obtain ⟨g1, g2, g3⟩ := get_host_word_abort fuel s as x rest hok h0 hq ha hx (by omega)
    have hc : (host_word_count { s with
        erase_abort_count := s.erase_abort_count - (if is_screen_clear x then 1 else 0),
        inwd_out := (s.inwd_out + as.length + 1) % HOST_IN_WORDS }).2 = rest.length := by
      rw [← queued_length, g3]
    refine ⟨_, x, as, rest, g1, hq, g3, g2, rfl, rfl, ?_, by omega, by omega, ?_, ?_, ?_⟩
    · show (s.inwd_out + as.length + 1) % HOST_IN_WORDS = _
      rw [Nat.add_assoc]
    · rw [hc]; omega
    · intro a h; exact ⟨ha a h, (abortable_not_ldm s a (ha a h)).1⟩
    · rw [g3]
      show s.erase_abort_count - (if is_screen_clear x then 1 else 0) = _
      rw [he, hq, List.countP_append, countP_abortable s as ha, List.countP_cons]
      by_cases hx1 : is_screen_clear x = true
      · simp [hx1]
      · simp [hx1]

/-- C32 at a ring that queues two data words, a screen-erase LDM and one more
data word: the scan discards the two data words and returns the screen
erase. -/
theorem get_host_word_safe_witness :
    queued (put_host_words sess [0x180002, 0x180002, 0x110002, 0x180002])
      = [0x180002, 0x180002, 0x110002, 0x180002] ∧
    (put_host_words sess [0x180002, 0x180002, 0x110002, 0x180002]).erase_abort_count = 1 ∧
    (get_host_word 4 (put_host_words sess [0x180002, 0x180002, 0x110002, 0x180002])).map
      (fun r => (r.2, r.1.inwd_out, r.1.erase_abort_count)) = some (0x110002, 3, 0) ∧
    ∃ (s' : host_session) (w : Nat) (discarded rest : List Nat),
      get_host_word 4 (put_host_words sess [0x180002, 0x180002, 0x110002, 0x180002])
        = some (s', w) ∧
      queued (put_host_words sess [0x180002, 0x180002, 0x110002, 0x180002])
        = discarded ++ w :: rest ∧
      queued s' = rest ∧
      s'.erase_abort_count = (queued s').countP is_screen_clear := by
  refine ⟨by decide, by decide, by decide, ?_⟩
  obtain ⟨s', w, discarded, rest, h1, h2, h3, _, _, _, _, _, _, _, _, h12⟩ :=
    get_host_word_safe 4 (put_host_words sess [0x180002, 0x180002, 0x110002, 0x180002])
      (by decide) (by decide) (by decide) (by decide)
  exact ⟨s', w, discarded, rest, h1, h2, h3, h12⟩

/-! ## The keyset accumulator -/

set_option maxRecDepth 100000 in
theorem fls_small_table : ∀ b, b < 256 → b ≠ 0 →
    fls b % 65536 = fls b ∧ 1 ≤ fls b ∧ fls b ≤ 8 ∧ 2 ^ (fls b - 1) ≤ b ∧ b < 2 ^ fls b := by
  decide

theorem spi_shifted_eq (s : host_session) (byte : Nat) (hb : byte < 256)
    (hk : s.key_bits < 2 ^ 24) : spi_shifted s byte = 256 * s.key_bits + byte := by
  unfold spi_shifted
  have e1 : (s.key_bits <<< 8) % 4294967296 = 2 ^ 8 * s.key_bits := by
    rw [Nat.shiftLeft_eq]; omega
  rw [e1, ← Nat.mul_add_lt_is_or (by omega : byte < 2 ^ 8)]

/-- One pass of the loop body of `process_spi_input` keeps the accumulator
invariant; the byte is shifted into at most 19 bits and at most one key is
sent. -/
theorem process_spi_byte_keyset (s : host_session) (byte : Nat) (hb : byte < 256)
    (hk : keyset_ok s) :
    ∃ s', process_spi_byte s byte = some s' ∧ keyset_ok s' ∧
      s.key_bit_count + 8 ≤ 19 ∧ spi_shifted s byte < 2 ^ 19 ∧
      (s'.host_tx = s.host_tx ∨ ∃ k, s'.host_tx = s.host_tx ++ [keybuf k]) := by
  obtain ⟨k1, k2, k3⟩ := hk
  have hp11 : 2 ^ s.key_bit_count ≤ 2 ^ 11 := Nat.pow_le_pow_right (by decide) k1
  have hsh : spi_shifted s byte = 256 * s.key_bits + byte :=
    spi_shifted_eq s byte hb (by omega)
  have h19 : spi_shifted s byte < 2 ^ 19 := by rw [hsh]; omega
  by_cases h0 : s.key_bit_count = 0
  · rw [process_spi_byte_idle s byte h0]
    by_cases hz : byte = 0
    · rw [if_pos hz]
      exact ⟨s, rfl, ⟨k1, k2, k3⟩, by omega, h19, Or.inl rfl⟩
    · rw [if_neg hz]
      obtain ⟨t1, t2, t3, t4, t5⟩ := fls_small_table byte hb hz
      rw [t1]
      exact ⟨_, rfl, ⟨by show fls byte ≤ 11; omega, t5, fun _ => t4⟩, by omega, h19, Or.inl rfl⟩
  · have k3' := k3 h0
    by_cases h12 : 12 ≤ s.key_bit_count + 8
    · rw [process_spi_byte_key s byte h0 h12 (by omega)]
      have hbr : s.key_bit_count + 8 - 12 ≤ 7 := by omega
      have hmask : spi_shifted s byte &&& ((1 <<< (s.key_bit_count + 8 - 12)) - 1)
          = spi_shifted s byte % 2 ^ (s.key_bit_count + 8 - 12) := by
        rw [Nat.one_shiftLeft, Nat.and_pow_two_sub_one_eq_mod]
      rw [hmask]
      have hr : spi_shifted s byte % 2 ^ (s.key_bit_count + 8 - 12)
          < 2 ^ (s.key_bit_count + 8 - 12) := Nat.mod_lt _ (Nat.pow_pos (by decide))
      have hp7 : 2 ^ (s.key_bit_count + 8 - 12) ≤ 2 ^ 7 := Nat.pow_le_pow_right (by decide) hbr
      generalize spi_shifted s byte % 2 ^ (s.key_bit_count + 8 - 12) = r at hr
      generalize ((spi_shifted s byte >>> (s.key_bit_count + 8 - 12)) >>> 1) &&& 0x3FF = k
      refine ⟨_, rfl, ?_, by omega, h19, Or.inr ⟨k, ?_⟩⟩
      · by_cases hr0 : r = 0
        · refine ⟨?_, ?_, ?_⟩
          · show (if r = 0 then 0 else fls r % 65536) ≤ 11
            rw [if_pos hr0]; omega
          · show r < 2 ^ (if r = 0 then 0 else fls r % 65536)
            rw [if_pos hr0, hr0]; decide
          · show (if r = 0 then 0 else fls r % 65536) ≠ 0 → _
            rw [if_pos hr0]; intro h; exact absurd rfl h
        · obtain ⟨t1, t2, t3, t4, t5⟩ := fls_small_table r (by omega) hr0
          refine ⟨?_, ?_, ?_⟩
          · show (if r = 0 then 0 else fls r % 65536) ≤ 11
            rw [if_neg hr0, t1]; omega
          · show r < 2 ^ (if r = 0 then 0 else fls r % 65536)
            rw [if_neg hr0, t1]; exact t5
          · show (if r = 0 then 0 else fls r % 65536) ≠ 0 →
              2 ^ ((if r = 0 then 0 else fls r % 65536) - 1) ≤ r
            rw [if_neg hr0, t1]; intro _; exact t4
      · split_ifs <;> simp [send_key, abort_all_output]
    · rw [process_spi_byte_short s byte h0 (by omega)]
      refine ⟨_, rfl, ⟨by show s.key_bit_count + 8 ≤ 11; omega, ?_, ?_⟩, by omega, h19,
        Or.inl rfl⟩
      · show spi_shifted s byte < 2 ^ (s.key_bit_count + 8)
        rw [hsh, pow_add]
        omega
      · intro _
        show 2 ^ (s.key_bit_count + 8 - 1) ≤ spi_shifted s byte
        have e : s.key_bit_count + 8 - 1 = (s.key_bit_count - 1) + 8 := by omega
        rw [hsh, e, pow_add]
        omega

theorem keyset_ok_size (s : host_session) (hk : keyset_ok s) :
    Nat.size s.key_bits = s.key_bit_count ∧ (s.key_bits = 0 ↔ s.key_bit_count = 0) := by
  obtain ⟨_, k2, k3⟩ := hk
  have h1 : Nat.size s.key_bits ≤ s.key_bit_count := Nat.size_le.2 k2
  by_cases h0 : s.key_bit_count = 0
  · rw [h0] at k2 h1
    have hb : s.key_bits = 0 := by simpa using k2
    exact ⟨by omega, ⟨fun _ => h0, fun _ => hb⟩⟩
  · have h2 : s.key_bit_count - 1 < Nat.size s.key_bits := Nat.lt_size.2 (k3 h0)
    have hpos : 0 < 2 ^ (s.key_bit_count - 1) := Nat.pow_pos (by decide)
    have h3 := k3 h0
    exact ⟨by omega, ⟨fun h => by omega, fun h => absurd h h0⟩⟩

theorem process_spi_bytes_keyset_ok (bytes : List Nat) :
    ∀ s : host_session, keyset_ok s → (∀ b ∈ bytes, b < 256) →
      ∃ s', process_spi_bytes s bytes = some s' ∧ keyset_ok s' := by
  induction bytes with
  | nil => intro s hk _; exact ⟨s, rfl, hk⟩
  | cons b rest ih =>
    intro s hk hb
    obtain ⟨s1, a1, a2, _⟩ := process_spi_byte_keyset s b (hb b (List.mem_cons_self _ _)) hk
    obtain ⟨s', b1, b2⟩ := ih s1 a2 (fun x hx => hb x (List.mem_cons_of_mem _ hx))
    exact ⟨s', by rw [process_spi_bytes_cons s s1 b rest a1, b1], b2⟩

/-- C34: starting from the empty accumulator, for any sequence of RX bytes the
loop of `process_spi_input` returns, and in the session after the last byte
processed `key_bit_count <= 11`, `key_bits < 2^key_bit_count` and
`key_bit_count` is the position of the highest set bit of `key_bits` (0 exactly
when `key_bits = 0`); hence, when the next byte is shifted in, the
accumulator holds at most 19 bits and the loop body sends at most one key. -/
theorem process_spi_bytes_keyset (s : host_session) (h0 : s.key_bits = 0)
    (h1 : s.key_bit_count = 0) (bytes : List Nat) (hb : ∀ b ∈ bytes, b < 256) :
    ∃ s', process_spi_bytes s bytes = some s' ∧
      s'.key_bit_count ≤ 11 ∧ s'.key_bits < 2 ^ s'.key_bit_count ∧
      (s'.key_bit_count ≠ 0 → 2 ^ (s'.key_bit_count - 1) ≤ s'.key_bits) ∧
      Nat.size s'.key_bits = s'.key_bit_count ∧
      (s'.key_bits = 0 ↔ s'.key_bit_count = 0) ∧
      ∀ byte, byte < 256 →
        ∃ s'', process_spi_byte s' byte = some s'' ∧
          s'.key_bit_count + 8 ≤ 19 ∧ spi_shifted s' byte < 2 ^ 19 ∧
          (s''.host_tx = s'.host_tx ∨ ∃ k, s''.host_tx = s'.host_tx ++ [keybuf k]) := by
  have hk : keyset_ok s := by
    refine ⟨by omega, by rw [h0, h1]; decide, fun h => absurd h1 h⟩
  obtain ⟨s', a1, a2⟩ := process_spi_bytes_keyset_ok bytes s hk hb
  obtain ⟨c1, c2⟩ := keyset_ok_size s' a2
  refine ⟨s', a1, a2.1, a2.2.1, a2.2.2, c1, c2, ?_⟩
  intro byte hbyte
  obtain ⟨s'', d1, _, d3, d4, d5⟩ := process_spi_byte_keyset s' byte hbyte a2
  exact ⟨s'', d1, d3, d4, d5⟩

/-- C34 at the RX bytes 0x80 0xFF 0x0E 0x55 from the initial session. -/
theorem process_spi_bytes_keyset_witness :
    (process_spi_bytes sess [0x80, 0xFF, 0x0E, 0x55]).map
      (fun r => (r.key_bits, r.key_bit_count, r.host_tx))
        = some (0x55, 7, [keybuf 7, keybuf 0x387]) ∧
    ∃ s', process_spi_bytes sess [0x80, 0xFF, 0x0E, 0x55] = some s' ∧
      s'.key_bit_count ≤ 11 ∧ s'.key_bits < 2 ^ s'.key_bit_count ∧
      Nat.size s'.key_bits = s'.key_bit_count := by
  obtain ⟨s', h1, h2, h3, _, h5, _⟩ :=
    process_spi_bytes_keyset sess rfl rfl [0x80, 0xFF, 0x0E, 0x55] (by decide)
  exact ⟨by decide, s', h1, h2, h3, h5⟩

/-! ## Bits left after a key -/

/-- C33 fails on the code: from the initial session the RX bytes 0x80 0xFF
send key 7 and leave four remaining bits that are all ones; they are kept
(`key_bits = 0xF`, `key_bit_count = 4`), and over the whole buffer
0x80 0xFF 0 0 0 0 they begin the next symbol, key 0x380. Remaining bits that
are all zeros (bytes 0x80 0xF0) are the ones discarded. -/
theorem spi_remaining_ones_kept :
    (process_spi_bytes sess [0x80, 0xFF]).map
      (fun r => (r.key_bits, r.key_bit_count, r.host_tx)) = some (0xF, 4, [keybuf 7]) ∧
    (process_spi_input { sess with spi_buf := fun i => [0x80, 0xFF, 0, 0, 0, 0].getD i 0 }).map
      (fun r => (r.key_bits, r.key_bit_count, r.host_tx))
        = some (0, 0, [keybuf 7, keybuf 0x380]) ∧
    (process_spi_bytes sess [0x80, 0xF0]).map
      (fun r => (r.key_bits, r.key_bit_count, r.host_tx)) = some (0, 0, [keybuf 7]) := by
  refine ⟨by decide, by decide, by decide⟩

/-- C33 (amended): when the loop body of `process_spi_input` extracts a key
from an accumulator of at most 11 bits, it returns, sends that key, and keeps
in `key_bits` the `n - 12` bits below the key. If they are all zeros they are
discarded (`key_bit_count` becomes 0); otherwise they are retained and
`key_bit_count` becomes the position of their highest set bit, at most
`n - 12`. Remaining bits that are all ones are retained in full. -/
theorem process_spi_byte_remaining (s : host_session) (byte : Nat)
    (h12 : 12 ≤ s.key_bit_count + 8) (h11 : s.key_bit_count ≤ 11) :
    ∃ s', process_spi_byte s byte = some s' ∧
      s'.host_tx = s.host_tx ++
        [keybuf (((spi_shifted s byte >>> (s.key_bit_count + 8 - 12)) >>> 1) &&& 0x3FF)] ∧
      s'.key_bits = spi_shifted s byte % 2 ^ (s.key_bit_count + 8 - 12) ∧
      (s'.key_bits = 0 → s'.key_bit_count = 0) ∧
      (s'.key_bits ≠ 0 →
        1 ≤ s'.key_bit_count ∧ s'.key_bit_count ≤ s.key_bit_count + 8 - 12 ∧
          2 ^ (s'.key_bit_count - 1) ≤ s'.key_bits ∧ s'.key_bits < 2 ^ s'.key_bit_count) ∧
      (1 ≤ s.key_bit_count + 8 - 12 →
        spi_shifted s byte % 2 ^ (s.key_bit_count + 8 - 12)
            = 2 ^ (s.key_bit_count + 8 - 12) - 1 →
          s'.key_bits = 2 ^ (s.key_bit_count + 8 - 12) - 1 ∧
            s'.key_bit_count = s.key_bit_count + 8 - 12) := by
  have h0 : s.key_bit_count ≠ 0 := by omega
  rw [process_spi_byte_key s byte h0 h12 (by omega)]
  have hbr : s.key_bit_count + 8 - 12 ≤ 7 := by omega
  have hmask : spi_shifted s byte &&& ((1 <<< (s.key_bit_count + 8 - 12)) - 1)
      = spi_shifted s byte % 2 ^ (s.key_bit_count + 8 - 12) := by
    rw [Nat.one_shiftLeft, Nat.and_pow_two_sub_one_eq_mod]
  rw [hmask]
  have hr : spi_shifted s byte % 2 ^ (s.key_bit_count + 8 - 12)
      < 2 ^ (s.key_bit_count + 8 - 12) := Nat.mod_lt _ (Nat.pow_pos (by decide))
  have hp7 : 2 ^ (s.key_bit_count + 8 - 12) ≤ 2 ^ 7 := Nat.pow_le_pow_right (by decide) hbr
  generalize spi_shifted s byte % 2 ^ (s.key_bit_count + 8 - 12) = r at hr
  generalize ((spi_shifted s byte >>> (s.key_bit_count + 8 - 12)) >>> 1) &&& 0x3FF = k
  generalize s.key_bit_count + 8 - 12 = br at hr hp7 hbr
  have hfl : r ≠ 0 → fls r % 65536 = fls r ∧ 1 ≤ fls r ∧ fls r ≤ br ∧
      2 ^ (fls r - 1) ≤ r ∧ r < 2 ^ fls r := by
    intro hr0
    obtain ⟨t1, t2, t3, t4, t5⟩ := fls_small_table r (by omega) hr0
    refine ⟨t1, t2, ?_, t4, t5⟩
    by_contra hc
    have : 2 ^ br ≤ 2 ^ (fls r - 1) := Nat.pow_le_pow_right (by decide) (by omega)
    omega
  refine ⟨_, rfl, ?_, rfl, ?_, ?_, ?_⟩
  · split_ifs <;> simp [send_key, abort_all_output]
  · intro hz
    have hz' : r = 0 := hz
    show (if r = 0 then 0 else fls r % 65536) = 0
    rw [if_pos hz']
  · intro hz
    have hz' : r ≠ 0 := hz
    obtain ⟨t1, t2, t3, t4, t5⟩ := hfl hz'
    show 1 ≤ (if r = 0 then 0 else fls r % 65536) ∧
      (if r = 0 then 0 else fls r % 65536) ≤ br ∧
      2 ^ ((if r = 0 then 0 else fls r % 65536) - 1) ≤ r ∧
      r < 2 ^ (if r = 0 then 0 else fls r % 65536)
    rw [if_neg hz', t1]
    exact ⟨t2, t3, t4, t5⟩
  · intro hb1 hones
    have hpos : 2 ^ br = 2 * 2 ^ (br - 1) := by
      have e : br = (br - 1) + 1 := by omega
      conv_lhs => rw [e, pow_succ]
      omega
    have hpp : 0 < 2 ^ (br - 1) := Nat.pow_pos (by decide)
    have hz' : r ≠ 0 := by omega
    obtain ⟨t1, t2, t3, t4, t5⟩ := hfl hz'
    refine ⟨hones, ?_⟩
    show (if r = 0 then 0 else fls r % 65536) = br
    rw [if_neg hz', t1]
    by_contra hc
    have : 2 ^ fls r ≤ 2 ^ (br - 1) := Nat.pow_le_pow_right (by decide) (by omega)
    omega

/-- C33 (amended) at the accumulator 0x80 of 8 bits and the byte 0xFF: key 7 is
sent and the four remaining ones are kept. -/
theorem process_spi_byte_remaining_witness :
    (12 ≤ ({ sess with key_bits := 0x80, key_bit_count := 8 } : host_session).key_bit_count + 8 ∧
      ({ sess with key_bits := 0x80, key_bit_count := 8 } : host_session).key_bit_count ≤ 11) ∧
    (process_spi_byte { sess with key_bits := 0x80, key_bit_count := 8 } 0xFF).map
      (fun r => (r.key_bits, r.key_bit_count, r.host_tx)) = some (0xF, 4, [keybuf 7]) ∧
    ∃ s', process_spi_byte { sess with key_bits := 0x80, key_bit_count := 8 } 0xFF = some s' ∧
      s'.key_bits = 2 ^ 4 - 1 ∧ s'.key_bit_count = 4 := by
  obtain ⟨s', h1, _, _, _, _, h6⟩ :=
    process_spi_byte_remaining { sess with key_bits := 0x80, key_bit_count := 8 } 0xFF
      (by decide) (by decide)
  exact ⟨⟨by decide, by decide⟩, by decide, s', h1, h6 (by decide) (by decide)⟩

end PlatoIf
